import Mathlib

/-!
Formal model of the batched tensor-network contraction scheduler.

The development shallowly embeds the two implementations of the repository:

* `src/batch_contract.py` — the standalone scheduler (`batch_contract`,
  `extract_signature`, `get_node_shape`, `get_batched_einsum_equation`);
  modelled at top level below.
* `src/batch_tn/batch.py` — the packaged variant (`get_batched_einsum_equation`
  with an optional batch symbol, `get_result_shape`, `get_batched_contractions`,
  `_batched_einsum`, `batch_contract`); modelled inside namespace `BatchTn`.

Python dictionaries are modelled as insertion-ordered association lists with
unique keys: `dictGet` is `d[k]` / `d.get(k)`, `dictSet` is `d[k] = v`
(updates in place, otherwise appends), `dictPop` is `d.pop(k)` (the caller
checks presence first, mirroring `KeyError`), and `dictAppend` is
`defaultdict(list)`'s `d[k].append(x)`.  Tree nodes (`frozenset[int]`) are
`Finset ℕ`.  Fallible operations return `Except Err`.

The array backend (`numpy` / `autoray` / `cotengra.contract.einsum`) is an
external collaborator.  It is modelled from the spec: `stack` of equally
shaped tensors, a contraction call on the batched equation, and iteration
over the leading batch axis together act instance-wise, so a batched step is
embedded as `List.zipWith (contract eq)` over the gathered operand lists.
-/

abbrev TNode := Finset ℕ
abbrev Shape := List ℕ
abbrev Sig := String × Shape × Shape
abbrev Inst := ℕ × TNode × TNode × TNode

inductive Err where
  | indexError
  | keyError
  | valueError
  | fuelExhausted
  | incompleteReduction
  | stackShape
deriving DecidableEq

/-- Python-dict lookup `d[k]` on an association list: first matching key. -/
def dictGet {α β : Type} [DecidableEq α] : List (α × β) → α → Option β
  | [], _ => none
  | e :: t, k => if e.1 = k then some e.2 else dictGet t k

/-- Python-dict assignment `d[k] = v`: update in place, else append at the end. -/
def dictSet {α β : Type} [DecidableEq α] : List (α × β) → α → β → List (α × β)
  | [], k, v => [(k, v)]
  | e :: t, k, v => if e.1 = k then (k, v) :: t else e :: dictSet t k v

/-- Python-dict removal `d.pop(k)`: drop the (unique) entry with the key. -/
def dictPop {α β : Type} [DecidableEq α] : List (α × β) → α → List (α × β)
  | [], _ => []
  | e :: t, k => if e.1 = k then t else e :: dictPop t k

/-- Model of `defaultdict(list)`'s `d[k].append(x)`: append to the entry's
list, creating the entry at the end if the key is absent. -/
def dictAppend {α β : Type} [DecidableEq α] : List (α × List β) → α → β → List (α × List β)
  | [], k, x => [(k, [x])]
  | e :: t, k, x => if e.1 = k then (e.1, e.2 ++ [x]) :: t else e :: dictAppend t k x

/-- The keys of an association list are pairwise distinct (Python dicts). -/
def keysNodup {α β : Type} (m : List (α × β)) : Prop := (m.map Prod.fst).Nodup

/-- Model of `cotengra.ContractionTree`, restricted to the accessors the
scheduler consumes: leaf count `N`, the `children` dict mapping an internal
node to its two children, and the per-node data `size_dict` / `get_inds` /
`get_einsum_eq` used to compute signatures. -/
structure CTree where
  N : ℕ
  children : List (TNode × TNode × TNode)
  size_dict : Char → ℕ
  get_inds : TNode → List Char
  get_einsum_eq : TNode → String

/-- Model of `get_node_shape` (src/batch_contract.py line 34). -/
def get_node_shape (tree : CTree) (node : TNode) : Shape :=
  (tree.get_inds node).map tree.size_dict

/-- Model of `extract_signature` (src/batch_contract.py lines 36-57).  The
`children` lookup raises `KeyError` in Python when the node is absent; this
is the `none` case. -/
def extract_signature (tree : CTree) (parent : TNode) : Option Sig :=
  match dictGet tree.children parent with
  | some lr =>
      some (tree.get_einsum_eq parent, get_node_shape tree lr.1, get_node_shape tree lr.2)
  | none => none

/-- Python's `str.split(sep)` on character lists, fuelled structurally so
that concrete equations reduce in the kernel (the library split is
well-founded recursion and does not); one character or one separator is
consumed per step, so `l.length` fuel always suffices. -/
def pySplitAux (sep : List Char) : ℕ → List Char → List Char → List (List Char)
  | _, [], acc => [acc.reverse]
  | 0, l, acc => [acc.reverse ++ l]
  | fuel + 1, c :: rest, acc =>
      if sep.isPrefixOf (c :: rest) ∧ sep ≠ [] then
        acc.reverse :: pySplitAux sep fuel ((c :: rest).drop sep.length) []
      else pySplitAux sep fuel rest (c :: acc)

/-- Python's `s.split(sep)` for the non-empty separators this code uses. -/
def pySplit (s sep : String) : List String :=
  (pySplitAux sep.toList s.toList.length s.toList []).map (fun cs => String.mk cs)

/-- Model of `get_batched_einsum_equation` from src/batch_contract.py
(lines 59-82): prepends the `numpy` ellipsis `"..."` to every input term and
to the output term.  `none` models the unpacking error when the equation does
not split into exactly an input side and an output side. -/
def get_batched_einsum_equation (original_eq : String) : Option String :=
  match pySplit original_eq "->" with
  | [left_side, right_side] =>
      let terms := pySplit left_side ","
      let batched_terms := terms.map (fun term => "..." ++ term)
      some (String.intercalate "," batched_terms ++ "->" ++ ("..." ++ right_side))
  | _ => none

/-- Model of the `tree_parent` construction (src/batch_contract.py lines
102-106): the dict comprehension inserts `left ↦ parent` then
`right ↦ parent` for each `children` item, later insertions overwriting. -/
def derive_parent (children : List (TNode × TNode × TNode)) : List (TNode × TNode) :=
  children.foldl (fun m e => dictSet (dictSet m e.2.1 e.1) e.2.2 e.1) []

/-- The mutable scheduler state of `batch_contract`: the ready-group table
`ready` and the per-tree active-node maps `tree_active_nodes`. -/
structure SchedState (T : Type) where
  ready : List (Sig × List Inst)
  active : List (List (TNode × T))

/-- Seeding of one tree's active-node map with its leaves
(src/batch_contract.py lines 110-112): leaf `frozenset([i])` holds
`arrays[tree_idx][i]`; `zip` truncates at the shorter list. -/
def initActive {T : Type} (tree : CTree) (arr : List T) : List (TNode × T) :=
  ((List.range tree.N).map (fun i => ({i} : Finset ℕ))).zip arr

/-- Initial ready-table registration for one tree (src/batch_contract.py
lines 114-117): every `children` item whose two children are active is
appended under its signature. -/
def initReadyTree {T : Type} (tree : CTree) (tree_idx : ℕ) (act : List (TNode × T))
    (r0 : List (Sig × List Inst)) : List (Sig × List Inst) :=
  tree.children.foldl
    (fun r e =>
      if (dictGet act e.2.1).isSome ∧ (dictGet act e.2.2).isSome then
        match extract_signature tree e.1 with
        | some s => dictAppend r s (tree_idx, e.1, e.2.1, e.2.2)
        | none => r
      else r) r0

/-- The per-tree active-node maps after initialization, in tree order. -/
def initActiveAll {T : Type} : List CTree → List (List T) → List (List (TNode × T))
  | tree :: trees, arr :: arrays => initActive tree arr :: initActiveAll trees arrays
  | _, _ => []

/-- The ready table after the initialization scan of all trees
(src/batch_contract.py lines 108-117), with `i0` the index of the first tree. -/
def initReadyAll {T : Type} : List CTree → List (List T) → ℕ → List (Sig × List Inst) →
    List (Sig × List Inst)
  | tree :: trees, arr :: arrays, i0, r =>
      initReadyAll trees arrays (i0 + 1) (initReadyTree tree i0 (initActive tree arr) r)
  | _, _, _, r => r

/-- The scheduler state after initialization. -/
def initState {T : Type} (trees : List CTree) (arrays : List (List T)) : SchedState T :=
  { active := initActiveAll trees arrays, ready := initReadyAll trees arrays 0 [] }

/-- The instances a single tree contributes to the initial ready table
(src/batch_contract.py lines 114-117): its `children` items whose two
children are both active leaves, in dict order. -/
def initInstsTree {T : Type} (tree : CTree) (i0 : ℕ) (act : List (TNode × T)) :
    List Inst :=
  (tree.children.filter (fun e => (dictGet act e.2.1).isSome
      && (dictGet act e.2.2).isSome
      && (extract_signature tree e.1).isSome)).map (fun e => (i0, e.1, e.2.1, e.2.2))

/-- All instances entering the ready table during initialization, in tree
order. -/
def initInstsAll {T : Type} : List CTree → List (List T) → ℕ → List Inst
  | tree :: trees, arr :: arrays, i0 =>
      initInstsTree tree i0 (initActive tree arr) ++ initInstsAll trees arrays (i0 + 1)
  | _, _, _ => []

/-- Python's `max(ready, key=lambda s: len(ready[s]))` over an association
list: scan keeping the current entry unless a strictly longer one appears. -/
def maxEntryAux (best : Sig × List Inst) : List (Sig × List Inst) → Sig × List Inst
  | [] => best
  | e :: t => maxEntryAux (if best.2.length < e.2.length then e else best) t

/-- One selection step of the scheduler loop (src/batch_contract.py lines
121-123): the signature with the largest pending group (first on ties), its
whole instance list, and the table with that entry removed. -/
def popLargestGroup (r : List (Sig × List Inst)) :
    Option (Sig × List Inst × List (Sig × List Inst)) :=
  match r with
  | [] => none
  | e :: t =>
      let m := maxEntryAux e t
      some (m.1, m.2, dictPop r m.1)

/-- Gathering of the left operands (src/batch_contract.py line 131): pure
reads from the owning trees' active-node maps. -/
def gatherLeft {T : Type} (active : List (List (TNode × T))) : List Inst → Option (List T)
  | [] => some []
  | inst :: rest =>
      match (active.get? inst.1).bind (fun m => dictGet m inst.2.2.1) with
      | none => none
      | some v =>
          match gatherLeft active rest with
          | none => none
          | some vs => some (v :: vs)

/-- Gathering of the right operands (src/batch_contract.py line 132). -/
def gatherRight {T : Type} (active : List (List (TNode × T))) : List Inst → Option (List T)
  | [] => some []
  | inst :: rest =>
      match (active.get? inst.1).bind (fun m => dictGet m inst.2.2.2) with
      | none => none
      | some v =>
          match gatherRight active rest with
          | none => none
          | some vs => some (v :: vs)

/-- One promotion (src/batch_contract.py lines 141-151): pop `left` and
`right` from the tree's active-node map, insert `parent` with the result,
then look up the grandparent in the parent map and, when both of its
children are active, append the newly ready instance under its signature. -/
def promote {T : Type} (trees : List CTree) (tree_parent : List (List (TNode × TNode)))
    (st : SchedState T) (inst : Inst) (result : T) : Except Err (SchedState T) :=
  match st.active.get? inst.1 with
  | none => .error .indexError
  | some m =>
    match dictGet m inst.2.2.1 with
    | none => .error .keyError
    | some _ =>
      let m1 := dictPop m inst.2.2.1
      match dictGet m1 inst.2.2.2 with
      | none => .error .keyError
      | some _ =>
        let m2 := dictSet (dictPop m1 inst.2.2.2) inst.2.1 result
        let active' := st.active.set inst.1 m2
        match tree_parent.get? inst.1 with
        | none => .error .indexError
        | some pm =>
          match dictGet pm inst.2.1 with
          | none => .ok { ready := st.ready, active := active' }
          | some grandparent =>
            match trees.get? inst.1 with
            | none => .error .indexError
            | some tree =>
              match dictGet tree.children grandparent with
              | none => .error .keyError
              | some gc =>
                if (dictGet m2 gc.1).isSome ∧ (dictGet m2 gc.2).isSome then
                  match extract_signature tree grandparent with
                  | none => .error .keyError
                  | some s =>
                      .ok { ready := dictAppend st.ready s (inst.1, grandparent, gc.1, gc.2),
                            active := active' }
                else .ok { ready := st.ready, active := active' }

/-- The per-group promotion loop (src/batch_contract.py line 140): promote
each instance with its slice of the batched result, in order. -/
def foldPromote {T : Type} (trees : List CTree) (tree_parent : List (List (TNode × TNode))) :
    SchedState T → List (Inst × T) → Except Err (SchedState T)
  | st, [] => .ok st
  | st, e :: rest =>
      match promote trees tree_parent st e.1 e.2 with
      | .error err => .error err
      | .ok st' => foldPromote trees tree_parent st' rest

/-- The scheduler loop (src/batch_contract.py lines 120-151), with an
explicit fuel in place of the unbounded `while`; `batch_contract` supplies a
fuel proven sufficient for every well-formed forest, and exhaustion is the
distinguishable error `fuelExhausted`.  The loop also returns the trace of
executed instance-promotions in order.  The batched contraction
`np.einsum(batched_eq, stack(lefts), stack(rights))` followed by iteration
over the leading axis is modelled from the spec as the instance-wise
`List.zipWith (contract eq)`. -/
def schedLoop {T : Type} (trees : List CTree) (tree_parent : List (List (TNode × TNode)))
    (contract : String → T → T → T) :
    ℕ → SchedState T → Except Err (SchedState T × List Inst)
  | 0, st =>
      if st.ready.any (fun e => !e.2.isEmpty) then .error .fuelExhausted else .ok (st, [])
  | fuel + 1, st =>
      if st.ready.any (fun e => !e.2.isEmpty) then
        match popLargestGroup st.ready with
        | none => .error .keyError
        | some (sig, to_contract, rest) =>
          match gatherLeft st.active to_contract, gatherRight st.active to_contract with
          | some left_arrays, some right_arrays =>
            let result_stack := List.zipWith (contract sig.1) left_arrays right_arrays
            match foldPromote trees tree_parent { ready := rest, active := st.active }
                (to_contract.zip result_stack) with
            | .error err => .error err
            | .ok st' =>
              match schedLoop trees tree_parent contract fuel st' with
              | .error err => .error err
              | .ok (stf, trace) =>
                  .ok (stf, (to_contract.zip result_stack).map Prod.fst ++ trace)
          | _, _ => .error .keyError
      else .ok (st, [])

/-- Model of `batch_contract` (src/batch_contract.py lines 84-155).  The
guard models the `IndexError` of `arrays[tree_idx]` when fewer array lists
than trees are given; the final `assert` is `incompleteReduction`; the
returned list takes `next(iter(nodes.values()))` per tree. -/
def batch_contract {T : Type} (contract : String → T → T → T) (trees : List CTree)
    (arrays : List (List T)) : Except Err (List T) :=
  if arrays.length < trees.length then .error .indexError else
  let tree_parent := trees.map (fun tree => derive_parent tree.children)
  match schedLoop trees tree_parent contract ((trees.map (fun t => t.N)).sum + 1)
      (initState trees arrays) with
  | .error err => .error err
  | .ok (stf, _) =>
      if stf.active.all (fun nodes => nodes.length == 1) then
        .ok (stf.active.filterMap (fun nodes => nodes.head?.map Prod.snd))
      else .error .incompleteReduction

namespace BatchTn

/-- One entry of a `contractions` list in src/batch_tn/batch.py:
`(parent, left, right, eq)`, children `None` at leaf rows. -/
abbrev Contraction := TNode × Option TNode × Option TNode × String

/-- Model of `get_batched_einsum_equation` from src/batch_tn/batch.py
(lines 26-56).  With no explicit `batch_symbol`, the fresh symbol is
`chr(max(ord(c) for c in original_eq) + 1)`; `none` models the `ValueError`
on an empty equation and the unpacking error when `split('->')` does not
yield exactly two sides. -/
def get_batched_einsum_equation (original_eq : String) (batch_symbol? : Option String) :
    Option String :=
  match (match batch_symbol? with
         | some s => some s
         | none =>
             if original_eq.toList.isEmpty then none
             else some (Char.ofNat
                 (((original_eq.toList.map Char.toNat).foldl max 0) + 1)).toString) with
  | none => none
  | some batch_symbol =>
    match pySplit original_eq "->" with
    | [left_side, right_side] =>
        some (String.intercalate ","
            ((pySplit left_side ",").map (fun term => batch_symbol ++ term))
          ++ "->" ++ (batch_symbol ++ right_side))
    | _ => none

/-- The fresh batch character chosen by `get_batched_einsum_equation` when no
symbol is supplied: the code point one past the highest in the equation. -/
def freshBatchChar (original_eq : String) : Char :=
  Char.ofNat (((original_eq.toList.map Char.toNat).foldl max 0) + 1)

/-- Model of `get_result_shape` (src/batch_tn/batch.py lines 9-24), with its
`ValueError`s on arity or size mismatches and the `KeyError` of
`size_dict[c]` for an output index missing from the inputs. -/
def get_result_shape (eq : String) (shapes : List Shape) : Except Err Shape :=
  match pySplit eq "->" with
  | [inputs, output] =>
      let terms := pySplit inputs ","
      if terms.length ≠ shapes.length then .error .valueError
      else
        match (terms.zip shapes).foldlM
            (fun sd e =>
              if e.1.length ≠ e.2.length then Except.error Err.valueError
              else (e.1.toList.zip e.2).foldlM
                (fun sd2 ce =>
                  match dictGet sd2 ce.1 with
                  | none => Except.ok (dictSet sd2 ce.1 ce.2)
                  | some sz =>
                      if sz = ce.2 then Except.ok sd2 else Except.error Err.valueError)
                sd)
            ([] : List (Char × ℕ)) with
        | .error e => .error e
        | .ok sd =>
            output.toList.mapM
              (fun c =>
                match dictGet sd c with
                | some v => Except.ok v
                | none => Except.error Err.keyError)
  | _ => .error .valueError

/-- The `children_map` / `parent_map` / `eq_map` of one tree
(src/batch_tn/batch.py lines 73-87): rows with both children present. -/
def buildMaps (contractions : List Contraction) :
    List (TNode × TNode × TNode) × List (TNode × TNode) × List (TNode × String) :=
  contractions.foldl
    (fun acc c =>
      match c.2.1, c.2.2.1 with
      | some left, some right =>
          (dictSet acc.1 c.1 (left, right),
           dictSet (dictSet acc.2.1 left c.1) right c.1,
           dictSet acc.2.2 c.1 c.2.2.2)
      | _, _ => acc)
    ([], [], [])

/-- The initial `contractible` table (src/batch_tn/batch.py lines 89-97):
rows whose two children already carry a shape, grouped under
`(eq, shape_left, shape_right)`. -/
def initContractible : List (List Contraction) → List (List (TNode × Shape)) → ℕ →
    List (Sig × List Inst) → List (Sig × List Inst)
  | contractions :: cb, node2shape :: sb, i, r =>
      initContractible cb sb (i + 1)
        (contractions.foldl
          (fun r c =>
            match c.2.1, c.2.2.1 with
            | some left, some right =>
                match dictGet node2shape left, dictGet node2shape right with
                | some shape_left, some shape_right =>
                    dictAppend r (c.2.2.2, shape_left, shape_right) (i, c.1, left, right)
                | _, _ => r
            | _, _ => r)
          r)
  | _, _, _, r => r

/-- The per-target update of one batched shape-level step
(src/batch_tn/batch.py lines 108-124): pop the children's shapes, record the
parent's, and requeue the grandparent when both of its children have shapes. -/
def gbcTargets (children_b : List (List (TNode × TNode × TNode)))
    (parent_b : List (List (TNode × TNode))) (eq_b : List (List (TNode × String)))
    (result_shape : Shape) :
    List Inst → List (Sig × List Inst) → List (List (TNode × Shape)) →
    Except Err (List (Sig × List Inst) × List (List (TNode × Shape)))
  | [], contractible, shapes => .ok (contractible, shapes)
  | inst :: rest, contractible, shapes =>
    match shapes.get? inst.1 with
    | none => .error .indexError
    | some m =>
      match dictGet m inst.2.2.1 with
      | none => .error .keyError
      | some _ =>
        let m1 := dictPop m inst.2.2.1
        match dictGet m1 inst.2.2.2 with
        | none => .error .keyError
        | some _ =>
          let m2 := dictSet (dictPop m1 inst.2.2.2) inst.2.1 result_shape
          let shapes' := shapes.set inst.1 m2
          match (parent_b.get? inst.1).bind (fun pm => dictGet pm inst.2.1) with
          | none => gbcTargets children_b parent_b eq_b result_shape rest contractible shapes'
          | some grandparent =>
            match (children_b.get? inst.1).bind (fun cm => dictGet cm grandparent) with
            | none => .error .keyError
            | some gc =>
              match dictGet m2 gc.1, dictGet m2 gc.2 with
              | some shape_left, some shape_right =>
                match (eq_b.get? inst.1).bind (fun em => dictGet em grandparent) with
                | none => .error .keyError
                | some eq =>
                    gbcTargets children_b parent_b eq_b result_shape rest
                      (dictAppend contractible (eq, shape_left, shape_right)
                        (inst.1, grandparent, gc.1, gc.2))
                      shapes'
              | _, _ =>
                  gbcTargets children_b parent_b eq_b result_shape rest contractible shapes'
  termination_by insts _ _ => insts.length

/-- The `while contractible:` loop of `get_batched_contractions`
(src/batch_tn/batch.py lines 100-124), fuelled like `schedLoop`. -/
def gbcLoop (children_b : List (List (TNode × TNode × TNode)))
    (parent_b : List (List (TNode × TNode))) (eq_b : List (List (TNode × String))) :
    ℕ → List (Sig × List Inst) → List (List (TNode × Shape)) → List (String × List Inst) →
    Except Err (List (String × List Inst))
  | 0, contractible, _, acc =>
      if contractible.isEmpty then .ok acc else .error .fuelExhausted
  | fuel + 1, contractible, shapes, acc =>
    match popLargestGroup contractible with
    | none => .ok acc
    | some (key, targets, rest) =>
      match get_result_shape key.1 [key.2.1, key.2.2] with
      | .error e => .error e
      | .ok result_shape =>
        match gbcTargets children_b parent_b eq_b result_shape targets rest shapes with
        | .error e => .error e
        | .ok cs =>
            gbcLoop children_b parent_b eq_b fuel cs.1 cs.2 (acc ++ [(key.1, targets)])

/-- Model of `get_batched_contractions` (src/batch_tn/batch.py lines 58-126). -/
def get_batched_contractions (contractions_batch : List (List Contraction))
    (shapes_batch : List (List Shape)) : Except Err (List (String × List Inst)) :=
  let node2shape_batch := shapes_batch.map
    (fun shapes => ((List.range shapes.length).map (fun n => ({n} : Finset ℕ))).zip shapes)
  let maps := contractions_batch.map buildMaps
  gbcLoop (maps.map (fun m => m.1)) (maps.map (fun m => m.2.1)) (maps.map (fun m => m.2.2))
    ((shapes_batch.map List.length).sum + 1)
    (initContractible contractions_batch node2shape_batch 0 [])
    node2shape_batch []

/-- The gathering loop of `_batched_einsum` (src/batch_tn/batch.py lines
134-137): unlike src/batch_contract.py, it pops the left and right tensors
out of the owning trees' active-node maps while collecting them. -/
def popTargets {T : Type} : List Inst → List (List (TNode × T)) →
    Except Err (List T × List T × List (List (TNode × T)))
  | [], maps => .ok ([], [], maps)
  | inst :: rest, maps =>
    match maps.get? inst.1 with
    | none => .error .indexError
    | some m =>
      match dictGet m inst.2.2.1 with
      | none => .error .keyError
      | some aL =>
        let m1 := dictPop m inst.2.2.1
        match dictGet m1 inst.2.2.2 with
        | none => .error .keyError
        | some aR =>
          match popTargets rest (maps.set inst.1 (dictPop m1 inst.2.2.2)) with
          | .error e => .error e
          | .ok (ls, rs, mf) => .ok (aL :: ls, aR :: rs, mf)

/-- Whether `stack` accepts the operand list: `numpy`/`autoray` stacking
needs at least one array and equal shapes throughout. -/
def stackOk (shapes : List Shape) : Bool :=
  match shapes with
  | [] => false
  | s :: rest => rest.all (fun x => x == s)

/-- The scatter of the batched result (src/batch_tn/batch.py lines 143-144):
`node2array_batch[network_idx][parent] = result[i]` per target, in order. -/
def scatter {T : Type} : List Inst → List T → List (List (TNode × T)) →
    List (List (TNode × T))
  | inst :: ts, r :: rs, maps =>
      match maps.get? inst.1 with
      | some m => scatter ts rs (maps.set inst.1 (dictSet m inst.2.1 r))
      | none => scatter ts rs maps
  | _, _, maps => maps

/-- Model of `_batched_einsum` (src/batch_tn/batch.py lines 128-144),
parametrized by the tensors' `shape` function and the backend contraction
`einsum2`.  The `ctg_einsum` call on the stacked operands followed by
indexing `result[i]` is modelled from the spec as the instance-wise
`List.zipWith (einsum2 eq)`; the stacking errors of mismatched operand
shapes are `stackShape`. -/
def batched_einsum {T : Type} (shape : T → Shape) (einsum2 : String → T → T → T)
    (eq : String) (targets : List Inst) (node2array_batch : List (List (TNode × T))) :
    Except Err (List (List (TNode × T))) :=
  match get_batched_einsum_equation eq none with
  | none => .error .valueError
  | some _ =>
    match popTargets targets node2array_batch with
    | .error e => .error e
    | .ok gathered =>
      let arrays_left := gathered.1
      let arrays_right := gathered.2.1
      if !stackOk (arrays_left.map shape) then .error .stackShape
      else if !stackOk (arrays_right.map shape) then .error .stackShape
      else
        .ok (scatter targets (List.zipWith (einsum2 eq) arrays_left arrays_right)
          gathered.2.2)

/-- The execution loop of `batch_contract` (src/batch_tn/batch.py lines
167-168): run every batched contraction in order. -/
def runBatched {T : Type} (shape : T → Shape) (einsum2 : String → T → T → T) :
    List (String × List Inst) → List (List (TNode × T)) →
    Except Err (List (List (TNode × T)))
  | [], maps => .ok maps
  | e :: rest, maps =>
    match batched_einsum shape einsum2 e.1 e.2 maps with
    | .error err => .error err
    | .ok maps' => runBatched shape einsum2 rest maps'

/-- Model of `batch_contract` (src/batch_tn/batch.py lines 146-170).  Note:
this variant performs no final check on the active-node maps; it returns
`next(iter(node2array.values()))` per tree, which errors (`StopIteration`,
modelled `valueError`) only on an empty map and otherwise returns the first
entry even when several remain. -/
def batch_contract {T : Type} (shape : T → Shape) (einsum2 : String → T → T → T)
    (contractions_batch : List (List Contraction)) (arrays_batch : List (List T)) :
    Except Err (List T) :=
  let shapes_batch := arrays_batch.map (fun arrays => arrays.map shape)
  match get_batched_contractions contractions_batch shapes_batch with
  | .error e => .error e
  | .ok batched =>
    let node2array_batch := arrays_batch.map
      (fun arrays => ((List.range arrays.length).map (fun n => ({n} : Finset ℕ))).zip arrays)
    match runBatched shape einsum2 batched node2array_batch with
    | .error e => .error e
    | .ok final =>
        final.mapM
          (fun m =>
            match m.head? with
            | some e => Except.ok e.2
            | none => Except.error Err.valueError)

end BatchTn

/-!
Specification-side data: well-formed binary contraction trees.  A
`ContractionTree` consumed by the scheduler is well formed when its
`children` dict enumerates exactly the internal nodes of a binary tree
whose leaves are `0, …, N-1`, each node identified by the `frozenset` of
the leaf indices it covers.
-/

inductive BTree where
  | leaf : ℕ → BTree
  | node : BTree → BTree → BTree
deriving DecidableEq

/-- The node identifier of a subtree: the set of leaf indices it covers. -/
def BTree.ns : BTree → TNode
  | .leaf i => {i}
  | .node l r => l.ns ∪ r.ns

/-- The leaf indices of a binary tree, left to right. -/
def BTree.leafList : BTree → List ℕ
  | .leaf i => [i]
  | .node l r => l.leafList ++ r.leafList

/-- The `(parent, left, right)` identifier triples of all internal nodes. -/
def BTree.internals : BTree → List (TNode × TNode × TNode)
  | .leaf _ => []
  | .node l r => (l.ns ∪ r.ns, l.ns, r.ns) :: (l.internals ++ r.internals)

/-- Subtree occurrence. -/
inductive Occurs : BTree → BTree → Prop
  | refl (t : BTree) : Occurs t t
  | left {u l r : BTree} : Occurs u l → Occurs u (BTree.node l r)
  | right {u l r : BTree} : Occurs u r → Occurs u (BTree.node l r)

/-- A cut (frontier) of a binary tree: a left-to-right list of disjoint
subtrees jointly covering all leaves.  The scheduler's active-node maps
always hold exactly the nodes of such a cut. -/
inductive Cut : BTree → List BTree → Prop
  | one (t : BTree) : Cut t [t]
  | split {l r : BTree} {cl cr : List BTree} :
      Cut l cl → Cut r cr → Cut (BTree.node l r) (cl ++ cr)

/-- The member of a cut carrying a given node identifier, if any. -/
def cutLookup (c : List BTree) (n : TNode) : Option BTree :=
  c.find? (fun u => decide (u.ns = n))

/-- The finest cut: all leaves. -/
def BTree.leafCut : BTree → List BTree
  | .leaf i => [.leaf i]
  | .node l r => l.leafCut ++ r.leafCut

/-- The internal nodes strictly above a cut: those not yet merged, i.e. the
contractions still to be executed from this cut. -/
def pendingList (t : BTree) (c : List BTree) : List (TNode × TNode × TNode) :=
  t.internals.filter (fun e => c.all (fun x => !(decide (e.1 ⊆ x.ns))))

/-- All still-pending instances of a forest, trees indexed from `i0`. -/
def pendingAll : List BTree → List (List BTree) → ℕ → List Inst
  | bt :: bts, c :: cs, i0 => (pendingList bt c).map (fun e => (i0, e)) ++ pendingAll bts cs (i0 + 1)
  | _, _, _ => []

/-- All internal-node instances of a forest, trees indexed from `i0`. -/
def allInternalInsts : List BTree → ℕ → List Inst
  | bt :: bts, i0 => bt.internals.map (fun e => (i0, e)) ++ allInternalInsts bts (i0 + 1)
  | _, _ => []

/-- The bottom-up denotation of a contraction tree: each internal node
combines its children with the backend contraction at that node's equation;
`none` when a leaf index is out of range of the leaf-tensor list. -/
def evalTree {T : Type} (contract : String → T → T → T) (eqOf : TNode → String)
    (arr : List T) : BTree → Option T
  | .leaf i => arr.get? i
  | .node l r =>
      match evalTree contract eqOf arr l, evalTree contract eqOf arr r with
      | some x, some y => some (contract (eqOf (l.ns ∪ r.ns)) x y)
      | _, _ => none

/-- Well-formedness of one `ContractionTree` against a binary tree: the
leaves are exactly `0, …, N-1` (each once), and the `children` dict is an
enumeration of the internal nodes' triples. -/
def WfTree (tree : CTree) (bt : BTree) : Prop :=
  bt.leafList.Perm (List.range tree.N) ∧ tree.children.Perm bt.internals

/-- Well-formedness of the input forest. -/
def WfForest (trees : List CTree) (bts : List BTree) : Prop :=
  List.Forall₂ WfTree trees bts

/-- All instances pending in a ready table, in table order. -/
def flatReady (r : List (Sig × List Inst)) : List Inst := (r.map Prod.snd).flatten

/-- The per-tree denotation used throughout the loop invariant. -/
def treeVal {T : Type} (contract : String → T → T → T) (tree : CTree) (arr : List T)
    (u : BTree) : Option T :=
  evalTree contract tree.get_einsum_eq arr u

/-- Total number of active nodes across all cuts: the loop's termination measure. -/
def cutMeasure (cs : List (List BTree)) : ℕ := (cs.map List.length).sum

/-- The scheduler-loop invariant.  `cs` gives, per tree, the cut of the
binary tree whose nodes the active-node map currently holds; `P` is the
suffix of the popped group not yet promoted, paired with its batched
results.  The ready table together with `P` holds exactly the instances
whose two children are active, each once, grouped under their signatures. -/
structure LoopInv {T : Type} (contract : String → T → T → T) (trees : List CTree)
    (bts : List BTree) (arrays : List (List T)) (st : SchedState T)
    (cs : List (List BTree)) (P : List (Inst × T)) : Prop where
  len_cs : cs.length = trees.length
  len_active : st.active.length = trees.length
  cuts : ∀ i bt c, bts.get? i = some bt → cs.get? i = some c → Cut bt c
  activeKeys : ∀ i m, st.active.get? i = some m → keysNodup m
  activeLook : ∀ i tree bt c m arr, trees.get? i = some tree → bts.get? i = some bt →
    cs.get? i = some c → st.active.get? i = some m → arrays.get? i = some arr →
    ∀ n, dictGet m n = (cutLookup c n).bind (treeVal contract tree arr)
  readyKeys : keysNodup st.ready
  readyGroups : ∀ e ∈ st.ready, e.2 ≠ ([] : List Inst)
  readySig : ∀ e ∈ st.ready, ∀ inst ∈ e.2, ∃ tree, trees.get? inst.1 = some tree ∧
    dictGet tree.children inst.2.1 = some (inst.2.2.1, inst.2.2.2) ∧
    e.1 = (tree.get_einsum_eq inst.2.1, get_node_shape tree inst.2.2.1,
      get_node_shape tree inst.2.2.2)
  pendVal : ∀ pe ∈ P, ∃ tree bt arr a b, trees.get? pe.1.1 = some tree ∧
    bts.get? pe.1.1 = some bt ∧ arrays.get? pe.1.1 = some arr ∧
    Occurs (BTree.node a b) bt ∧ a.ns = pe.1.2.2.1 ∧ b.ns = pe.1.2.2.2 ∧
    pe.1.2.1 = a.ns ∪ b.ns ∧ treeVal contract tree arr (BTree.node a b) = some pe.2
  readyMem : ∀ inst : Inst, (inst ∈ flatReady st.ready ++ P.map Prod.fst) ↔
    (∃ bt c, bts.get? inst.1 = some bt ∧ cs.get? inst.1 = some c ∧
      (inst.2.1, inst.2.2.1, inst.2.2.2) ∈ bt.internals ∧
      (∃ x ∈ c, x.ns = inst.2.2.1) ∧ (∃ x ∈ c, x.ns = inst.2.2.2))
  readyNodup : (flatReady st.ready ++ P.map Prod.fst).Nodup

/-- A two-leaf concrete tree used by the witnesses: one contraction
`{0} , {1} -> {0,1}`. -/
def sampleTree : CTree :=
  { N := 2, children := [({0, 1}, {0}, {1})], size_dict := fun _ => 2,
    get_inds := fun _ => [], get_einsum_eq := fun _ => "ab,bc->ac" }

/-- The binary tree of `sampleTree`. -/
def sampleBT : BTree := BTree.node (BTree.leaf 0) (BTree.leaf 1)

/-- Instance search times out assembling this product's decidable equality;
provide it directly for the witnesses' `decide` calls. -/
instance : DecidableEq (Sig × List Inst) := instDecidableEqProd

/-- A two-entry ready table used by the C3 witness. -/
def sampleReady : List (Sig × List Inst) :=
  [(("a", [], []), [((0, ∅, ∅, ∅) : Inst)]),
   (("b", [], []), [((1, ∅, ∅, ∅) : Inst), ((2, ∅, ∅, ∅) : Inst)])]

/-! Association-list toolkit. -/

theorem dictGet_mem {α β : Type} [DecidableEq α] {m : List (α × β)} {k : α} {v : β}
    (h : dictGet m k = some v) : (k, v) ∈ m := by
  induction m with
  | nil => simp [dictGet] at h
  | cons e t ih =>
    rw [dictGet] at h
    by_cases he : e.1 = k
    · rw [if_pos he] at h
      obtain ⟨a, b⟩ := e
      cases he
      cases Option.some.inj h
      exact List.mem_cons_self _ _
    · simp [he] at h
      exact List.mem_cons_of_mem _ (ih h)

theorem dictGet_isSome_iff {α β : Type} [DecidableEq α] {m : List (α × β)} {k : α} :
    (dictGet m k).isSome = true ↔ k ∈ m.map Prod.fst := by
  induction m with
  | nil => simp [dictGet]
  | cons e t ih =>
    rw [dictGet]
    by_cases he : e.1 = k
    · simp [he]
    · simp [he, ih, Ne.symm he]

theorem dictGet_eq_none_iff {α β : Type} [DecidableEq α] {m : List (α × β)} {k : α} :
    dictGet m k = none ↔ k ∉ m.map Prod.fst := by
  rw [← dictGet_isSome_iff]
  cases h : dictGet m k <;> simp [h]

theorem mem_dictGet {α β : Type} [DecidableEq α] {m : List (α × β)} {k : α} {v : β}
    (hn : keysNodup m) (h : (k, v) ∈ m) : dictGet m k = some v := by
  induction m with
  | nil => simp at h
  | cons e t ih =>
    rw [keysNodup, List.map_cons, List.nodup_cons] at hn
    rcases List.mem_cons.mp h with h1 | h1
    · rw [← h1, dictGet, if_pos rfl]
    · rw [dictGet]
      have hk : e.1 ≠ k := by
        intro hek
        exact hn.1 (hek ▸ List.mem_map_of_mem Prod.fst h1)
      rw [if_neg hk]
      exact ih hn.2 h1

theorem dictGet_dictSet_self {α β : Type} [DecidableEq α] (m : List (α × β)) (k : α) (v : β) :
    dictGet (dictSet m k v) k = some v := by
  induction m with
  | nil => simp [dictSet, dictGet]
  | cons e t ih =>
    rw [dictSet]
    by_cases he : e.1 = k
    · simp [he, dictGet]
    · simp [he, dictGet, ih]

theorem dictGet_dictSet_ne {α β : Type} [DecidableEq α] (m : List (α × β)) (k k' : α) (v : β)
    (h : k' ≠ k) : dictGet (dictSet m k v) k' = dictGet m k' := by
  induction m with
  | nil => simp [dictSet, dictGet, Ne.symm h]
  | cons e t ih =>
    rw [dictSet]
    by_cases he : e.1 = k
    · rw [if_pos he, dictGet, if_neg (Ne.symm h), dictGet, he, if_neg (Ne.symm h)]
    · rw [if_neg he, dictGet, dictGet]
      by_cases he' : e.1 = k'
      · simp [he']
      · simp [he', ih]

theorem keys_dictSet {α β : Type} [DecidableEq α] (m : List (α × β)) (k : α) (v : β) :
    (dictSet m k v).map Prod.fst = if k ∈ m.map Prod.fst then m.map Prod.fst
      else m.map Prod.fst ++ [k] := by
  induction m with
  | nil => simp [dictSet]
  | cons e t ih =>
    rw [dictSet]
    by_cases he : e.1 = k
    · simp [he]
    · simp only [if_neg he, List.map_cons, ih]
      by_cases hk : k ∈ t.map Prod.fst
      · simp [hk, Ne.symm he]
      · simp [hk, Ne.symm he]

theorem keysNodup_dictSet {α β : Type} [DecidableEq α] {m : List (α × β)} (k : α) (v : β)
    (h : keysNodup m) : keysNodup (dictSet m k v) := by
  rw [keysNodup, keys_dictSet]
  by_cases hk : k ∈ m.map Prod.fst
  · simpa [hk] using h
  · simp only [if_neg hk]
    rw [List.nodup_append]
    exact ⟨h, List.nodup_singleton k,
      fun a ha hak => hk ((List.mem_singleton.mp hak) ▸ ha)⟩

theorem dictPop_sublist {α β : Type} [DecidableEq α] (m : List (α × β)) (k : α) :
    (dictPop m k).Sublist m := by
  induction m with
  | nil => simp [dictPop]
  | cons e t ih =>
    rw [dictPop]
    by_cases he : e.1 = k
    · simp [he]
    · simpa [he] using ih.cons₂ e

theorem keysNodup_dictPop {α β : Type} [DecidableEq α] {m : List (α × β)} (k : α)
    (h : keysNodup m) : keysNodup (dictPop m k) :=
  List.Nodup.sublist (List.Sublist.map Prod.fst (dictPop_sublist m k)) h

theorem dictGet_dictPop_self {α β : Type} [DecidableEq α] {m : List (α × β)} (k : α)
    (h : keysNodup m) : dictGet (dictPop m k) k = none := by
  induction m with
  | nil => simp [dictPop, dictGet]
  | cons e t ih =>
    rw [keysNodup, List.map_cons, List.nodup_cons] at h
    rw [dictPop]
    by_cases he : e.1 = k
    · rw [if_pos he, dictGet_eq_none_iff]
      exact he ▸ h.1
    · rw [if_neg he, dictGet, if_neg he]
      exact ih h.2

theorem dictGet_dictPop_ne {α β : Type} [DecidableEq α] (m : List (α × β)) (k k' : α)
    (h : k' ≠ k) : dictGet (dictPop m k) k' = dictGet m k' := by
  induction m with
  | nil => simp [dictPop]
  | cons e t ih =>
    rw [dictPop]
    by_cases he : e.1 = k
    · rw [if_pos he, dictGet, if_neg (he ▸ Ne.symm h)]
    · rw [if_neg he, dictGet, dictGet]
      by_cases he' : e.1 = k'
      · simp [he']
      · simp [he', ih]

theorem length_dictPop_mem {α β : Type} [DecidableEq α] {m : List (α × β)} {k : α} {v : β}
    (h : dictGet m k = some v) : (dictPop m k).length + 1 = m.length := by
  induction m with
  | nil => simp [dictGet] at h
  | cons e t ih =>
    rw [dictGet] at h
    rw [dictPop]
    by_cases he : e.1 = k
    · simp [he]
    · rw [if_neg he] at h ⊢
      simp only [List.length_cons]
      rw [ih h]

theorem length_dictSet_mem {α β : Type} [DecidableEq α] {m : List (α × β)} {k : α} {v v' : β}
    (h : dictGet m k = some v) : (dictSet m k v').length = m.length := by
  induction m with
  | nil => simp [dictGet] at h
  | cons e t ih =>
    rw [dictGet] at h
    rw [dictSet]
    by_cases he : e.1 = k
    · simp [he]
    · rw [if_neg he] at h ⊢
      simp only [List.length_cons]
      rw [ih h]

theorem length_dictSet_new {α β : Type} [DecidableEq α] {m : List (α × β)} {k : α} (v : β)
    (h : dictGet m k = none) : (dictSet m k v).length = m.length + 1 := by
  induction m with
  | nil => simp [dictSet]
  | cons e t ih =>
    rw [dictGet] at h
    rw [dictSet]
    by_cases he : e.1 = k
    · simp [he] at h
    · rw [if_neg he] at h ⊢
      simp only [List.length_cons]
      rw [ih h]

theorem eq_singleton_of_dictGet {α β : Type} [DecidableEq α] {m : List (α × β)} {k : α} {v : β}
    (hn : keysNodup m) (hk : dictGet m k = some v)
    (ho : ∀ k', k' ≠ k → dictGet m k' = none) : m = [(k, v)] := by
  cases m with
  | nil => simp [dictGet] at hk
  | cons e t =>
    have he1 : e.1 = k := by
      by_contra hne
      have := ho e.1 hne
      rw [dictGet, if_pos rfl] at this
      exact Option.noConfusion this
    rw [dictGet, if_pos he1] at hk
    have hv : e.2 = v := Option.some.inj hk
    have ht : t = [] := by
      cases t with
      | nil => rfl
      | cons f u =>
        exfalso
        rw [keysNodup, List.map_cons, List.map_cons, List.nodup_cons] at hn
        have hf1 : f.1 ≠ k := by
          intro hfk
          exact hn.1 (by simp [he1, hfk])
        have := ho f.1 hf1
        have hef : e.1 ≠ f.1 := fun hh => hf1 (hh ▸ he1)
        rw [dictGet, if_neg hef, dictGet, if_pos rfl] at this
        exact Option.noConfusion this
    subst ht
    cases e
    simp_all

theorem keys_dictAppend {α β : Type} [DecidableEq α] (r : List (α × List β)) (s : α) (x : β) :
    (dictAppend r s x).map Prod.fst = if s ∈ r.map Prod.fst then r.map Prod.fst
      else r.map Prod.fst ++ [s] := by
  induction r with
  | nil => simp [dictAppend]
  | cons e t ih =>
    rw [dictAppend]
    by_cases he : e.1 = s
    · simp [he]
    · simp only [if_neg he, List.map_cons, ih]
      by_cases hs : s ∈ t.map Prod.fst
      · simp [hs, Ne.symm he]
      · simp [hs, Ne.symm he]

theorem keysNodup_dictAppend {α β : Type} [DecidableEq α] {r : List (α × List β)} (s : α) (x : β)
    (h : keysNodup r) : keysNodup (dictAppend r s x) := by
  rw [keysNodup, keys_dictAppend]
  by_cases hs : s ∈ r.map Prod.fst
  · rw [if_pos hs]
    exact h
  · simp only [if_neg hs]
    rw [List.nodup_append]
    exact ⟨h, List.nodup_singleton s,
      fun a ha hak => hs ((List.mem_singleton.mp hak) ▸ ha)⟩

theorem flatReady_dictAppend (r : List (Sig × List Inst)) (s : Sig) (x : Inst) :
    List.Perm (flatReady (dictAppend r s x)) (x :: flatReady r) := by
  induction r with
  | nil => simp [dictAppend, flatReady]
  | cons e t ih =>
    rw [dictAppend]
    by_cases he : e.1 = s
    · rw [if_pos he]
      simp only [flatReady, List.map_cons, List.flatten_cons]
      have h1 : List.Perm (e.2 ++ [x]) ([x] ++ e.2) := List.perm_append_comm
      have h2 := h1.append_right ((List.map Prod.snd t).flatten)
      simp only [List.append_assoc, List.singleton_append, List.cons_append,
        List.nil_append] at h2 ⊢
      exact h2
    · rw [if_neg he]
      simp only [flatReady, List.map_cons, List.flatten_cons] at ih ⊢
      refine (ih.append_left e.2).trans ?_
      exact List.perm_middle.trans (List.Perm.refl _)

theorem groups_ne_nil_dictAppend {r : List (Sig × List Inst)} {s : Sig} {x : Inst}
    (h : ∀ e ∈ r, e.2 ≠ []) : ∀ e ∈ dictAppend r s x, e.2 ≠ [] := by
  induction r with
  | nil =>
    intro e he
    simp [dictAppend] at he
    simp [he]
  | cons f t ih =>
    intro e he
    rw [dictAppend] at he
    by_cases hf : f.1 = s
    · rw [if_pos hf] at he
      rcases List.mem_cons.mp he with h1 | h1
      · simp [h1]
      · exact h e (List.mem_cons_of_mem f h1)
    · rw [if_neg hf] at he
      rcases List.mem_cons.mp he with h1 | h1
      · exact h e (h1 ▸ List.mem_cons_self f t)
      · exact ih (fun e' he' => h e' (List.mem_cons_of_mem f he')) e h1

theorem sig_pred_dictAppend {P : Sig → Inst → Prop} {r : List (Sig × List Inst)} {s : Sig}
    {x : Inst} (h : ∀ e ∈ r, ∀ i ∈ e.2, P e.1 i) (hx : P s x) :
    ∀ e ∈ dictAppend r s x, ∀ i ∈ e.2, P e.1 i := by
  induction r with
  | nil =>
    intro e he i hi
    simp [dictAppend] at he
    subst he
    simp only [List.mem_singleton] at hi
    rw [hi]
    exact hx
  | cons f t ih =>
    intro e he i hi
    rw [dictAppend] at he
    by_cases hf : f.1 = s
    · rw [if_pos hf] at he
      rcases List.mem_cons.mp he with h1 | h1
      · rw [h1] at hi ⊢
        rcases List.mem_append.mp hi with h2 | h2
        · exact hf ▸ h f (List.mem_cons_self f t) i h2
        · exact hf ▸ ((List.mem_singleton.mp h2) ▸ hx)
      · exact h e (List.mem_cons_of_mem f h1) i hi
    · rw [if_neg hf] at he
      rcases List.mem_cons.mp he with h1 | h1
      · exact h e (h1 ▸ List.mem_cons_self f t) i hi
      · exact ih (fun e' he' => h e' (List.mem_cons_of_mem f he')) e h1 i hi

theorem sig_pred_dictPop {P : Sig → Inst → Prop} {r : List (Sig × List Inst)} (s : Sig)
    (h : ∀ e ∈ r, ∀ i ∈ e.2, P e.1 i) : ∀ e ∈ dictPop r s, ∀ i ∈ e.2, P e.1 i :=
  fun e he => h e (List.Sublist.mem he (dictPop_sublist r s))

theorem flatReady_dictPop {r : List (Sig × List Inst)} {s : Sig} {g : List Inst}
    (hn : keysNodup r) (h : (s, g) ∈ r) :
    List.Perm (flatReady r) (g ++ flatReady (dictPop r s)) := by
  induction r with
  | nil => simp at h
  | cons e t ih =>
    rw [keysNodup, List.map_cons, List.nodup_cons] at hn
    rcases List.mem_cons.mp h with h1 | h1
    · rw [← h1, dictPop, if_pos rfl]
      simp only [flatReady, List.map_cons, List.flatten_cons]
      exact List.Perm.refl _
    · have hes : e.1 ≠ s := by
        intro hh
        exact hn.1 (hh ▸ List.mem_map_of_mem Prod.fst h1)
      rw [dictPop, if_neg hes]
      simp only [flatReady, List.map_cons, List.flatten_cons]
      refine ((ih hn.2 h1).append_left e.2).trans ?_
      rw [← List.append_assoc, ← List.append_assoc]
      exact List.Perm.append_right _ List.perm_append_comm

theorem maxEntryAux_mem (b : Sig × List Inst) (t : List (Sig × List Inst)) :
    maxEntryAux b t ∈ b :: t := by
  induction t generalizing b with
  | nil => simp [maxEntryAux]
  | cons f t ih =>
    rw [maxEntryAux]
    by_cases hb : b.2.length < f.2.length
    · rw [if_pos hb]
      exact List.mem_cons_of_mem b (ih f)
    · rw [if_neg hb]
      rcases List.mem_cons.mp (ih b) with h1 | h1
      · rw [h1]
        exact List.mem_cons_self b (f :: t)
      · exact List.mem_cons_of_mem b (List.mem_cons_of_mem f h1)

theorem maxEntryAux_le (b : Sig × List Inst) (t : List (Sig × List Inst)) :
    ∀ e ∈ b :: t, e.2.length ≤ (maxEntryAux b t).2.length := by
  induction t generalizing b with
  | nil =>
    intro e he
    rw [List.mem_singleton.mp he, maxEntryAux]
  | cons f t ih =>
    intro e he
    rw [maxEntryAux]
    by_cases hb : b.2.length < f.2.length
    · rw [if_pos hb]
      rcases List.mem_cons.mp he with h1 | h1
      · rw [h1]
        exact le_of_lt (lt_of_lt_of_le hb (ih f f (List.mem_cons_self f t)))
      · exact ih f e h1
    · rw [if_neg hb]
      rcases List.mem_cons.mp he with h1 | h1
      · rw [h1]
        exact ih b b (List.mem_cons_self b t)
      · rcases List.mem_cons.mp h1 with h2 | h2
        · rw [h2]
          exact le_trans (le_of_not_lt hb) (ih b b (List.mem_cons_self b t))
        · exact ih b e (List.mem_cons_of_mem b h2)

theorem popLargestGroup_spec {r : List (Sig × List Inst)} (hne : r ≠ []) :
    ∃ s g, popLargestGroup r = some (s, g, dictPop r s) ∧ (s, g) ∈ r ∧
      ∀ e ∈ r, e.2.length ≤ g.length := by
  cases r with
  | nil => exact absurd rfl hne
  | cons e t =>
    refine ⟨(maxEntryAux e t).1, (maxEntryAux e t).2, rfl, ?_, maxEntryAux_le e t⟩
    exact maxEntryAux_mem e t

theorem getq_set_self {α : Type} (l : List α) (i : ℕ) (a : α) (h : i < l.length) :
    (l.set i a).get? i = some a := by
  induction l generalizing i with
  | nil => simp at h
  | cons x t ih =>
    cases i with
    | zero => simp
    | succ j =>
      simp only [List.set_cons_succ, List.get?_cons_succ]
      exact ih j (by simpa using h)

theorem getq_set_ne {α : Type} (l : List α) (i j : ℕ) (a : α) (h : i ≠ j) :
    (l.set i a).get? j = l.get? j := by
  induction l generalizing i j with
  | nil => simp
  | cons x t ih =>
    cases i with
    | zero =>
      cases j with
      | zero => exact absurd rfl h
      | succ j' => simp
    | succ i' =>
      cases j with
      | zero => simp
      | succ j' =>
        simp only [List.set_cons_succ, List.get?_cons_succ]
        exact ih i' j' (fun hh => h (by rw [hh]))

theorem gatherLeft_eq_map {T : Type} {active : List (List (TNode × T))} {g : List Inst}
    {F : Inst → T}
    (h : ∀ inst ∈ g, (active.get? inst.1).bind (fun m => dictGet m inst.2.2.1) = some (F inst)) :
    gatherLeft active g = some (g.map F) := by
  induction g with
  | nil => rfl
  | cons inst rest ih =>
    rw [gatherLeft, h inst (List.mem_cons_self inst rest),
      ih (fun i hi => h i (List.mem_cons_of_mem inst hi))]
    rfl

theorem gatherRight_eq_map {T : Type} {active : List (List (TNode × T))} {g : List Inst}
    {F : Inst → T}
    (h : ∀ inst ∈ g, (active.get? inst.1).bind (fun m => dictGet m inst.2.2.2) = some (F inst)) :
    gatherRight active g = some (g.map F) := by
  induction g with
  | nil => rfl
  | cons inst rest ih =>
    rw [gatherRight, h inst (List.mem_cons_self inst rest),
      ih (fun i hi => h i (List.mem_cons_of_mem inst hi))]
    rfl

/-! Binary-tree theory: node identifiers, occurrences, cuts. -/

theorem BTree.ns_nonempty (t : BTree) : t.ns.Nonempty := by
  induction t with
  | leaf i => exact ⟨i, Finset.mem_singleton_self i⟩
  | node l r ihl ihr =>
    obtain ⟨a, ha⟩ := ihl
    exact ⟨a, Finset.mem_union_left _ ha⟩

theorem BTree.mem_ns {t : BTree} {j : ℕ} : j ∈ t.ns ↔ j ∈ t.leafList := by
  induction t with
  | leaf i => simp [BTree.ns, BTree.leafList]
  | node l r ihl ihr => simp [BTree.ns, BTree.leafList, Finset.mem_union, ihl, ihr]

theorem Occurs.ns_subset {u t : BTree} (h : Occurs u t) : u.ns ⊆ t.ns := by
  induction h with
  | refl => exact subset_rfl
  | left h ih => exact ih.trans Finset.subset_union_left
  | right h ih => exact ih.trans Finset.subset_union_right

theorem nodup_node {l r : BTree} (h : (BTree.node l r).leafList.Nodup) :
    l.leafList.Nodup ∧ r.leafList.Nodup ∧ Disjoint l.ns r.ns := by
  rw [BTree.leafList, List.nodup_append] at h
  refine ⟨h.1, h.2.1, ?_⟩
  rw [Finset.disjoint_left]
  intro a hal har
  exact h.2.2 (BTree.mem_ns.mp hal) (BTree.mem_ns.mp har)

theorem Occurs.nodup {u t : BTree} : Occurs u t → t.leafList.Nodup → u.leafList.Nodup := by
  intro h
  induction h with
  | refl => exact id
  | left h ih => exact fun hn => ih (nodup_node hn).1
  | right h ih => exact fun hn => ih (nodup_node hn).2.1

theorem child_ns_ssubset_left {a b : BTree} (hn : (BTree.node a b).leafList.Nodup) :
    a.ns ⊂ (BTree.node a b).ns := by
  obtain ⟨-, -, hd⟩ := nodup_node hn
  refine Finset.ssubset_iff_of_subset Finset.subset_union_left |>.mpr ?_
  obtain ⟨x, hx⟩ := BTree.ns_nonempty b
  exact ⟨x, Finset.mem_union_right _ hx, Finset.disjoint_right.mp hd hx⟩

theorem child_ns_ssubset_right {a b : BTree} (hn : (BTree.node a b).leafList.Nodup) :
    b.ns ⊂ (BTree.node a b).ns := by
  obtain ⟨-, -, hd⟩ := nodup_node hn
  refine Finset.ssubset_iff_of_subset Finset.subset_union_right |>.mpr ?_
  obtain ⟨x, hx⟩ := BTree.ns_nonempty a
  exact ⟨x, Finset.mem_union_left _ hx, Finset.disjoint_left.mp hd hx⟩

theorem ns_inj {t : BTree} (hn : t.leafList.Nodup) : ∀ {u v : BTree}, Occurs u t →
    Occurs v t → u.ns = v.ns → u = v := by
  induction t with
  | leaf i =>
    intro u v hu hv h
    cases hu
    cases hv
    rfl
  | node l r ihl ihr =>
    obtain ⟨hnl, hnr, hd⟩ := nodup_node hn
    intro u v hu hv h
    cases hu with
    | refl =>
      cases hv with
      | refl => rfl
      | left hv' =>
        exfalso
        have h1 : (BTree.node l r).ns ⊆ l.ns := by
          rw [h]
          exact hv'.ns_subset
        obtain ⟨a, ha⟩ := BTree.ns_nonempty r
        exact (Finset.disjoint_left.mp hd (h1 (Finset.mem_union_right _ ha))) ha
      | right hv' =>
        exfalso
        have h1 : (BTree.node l r).ns ⊆ r.ns := by
          rw [h]
          exact hv'.ns_subset
        obtain ⟨a, ha⟩ := BTree.ns_nonempty l
        exact (Finset.disjoint_right.mp hd (h1 (Finset.mem_union_left _ ha))) ha
    | left hu' =>
      cases hv with
      | refl =>
        exfalso
        have h1 : (BTree.node l r).ns ⊆ l.ns := by
          rw [← h]
          exact hu'.ns_subset
        obtain ⟨a, ha⟩ := BTree.ns_nonempty r
        exact (Finset.disjoint_left.mp hd (h1 (Finset.mem_union_right _ ha))) ha
      | left hv' => exact ihl hnl hu' hv' h
      | right hv' =>
        exfalso
        obtain ⟨a, ha⟩ := BTree.ns_nonempty u
        exact (Finset.disjoint_left.mp hd (hu'.ns_subset ha)) (hv'.ns_subset (h ▸ ha))
    | right hu' =>
      cases hv with
      | refl =>
        exfalso
        have h1 : (BTree.node l r).ns ⊆ r.ns := by
          rw [← h]
          exact hu'.ns_subset
        obtain ⟨a, ha⟩ := BTree.ns_nonempty l
        exact (Finset.disjoint_right.mp hd (h1 (Finset.mem_union_left _ ha))) ha
      | left hv' =>
        exfalso
        obtain ⟨a, ha⟩ := BTree.ns_nonempty u
        exact (Finset.disjoint_right.mp hd (hu'.ns_subset ha)) (hv'.ns_subset (h ▸ ha))
      | right hv' => exact ihr hnr hu' hv' h

theorem occurs_trichotomy {t : BTree} (hn : t.leafList.Nodup) : ∀ {u v : BTree},
    Occurs u t → Occurs v t → Occurs u v ∨ Occurs v u ∨ Disjoint u.ns v.ns := by
  induction t with
  | leaf i =>
    intro u v hu hv
    cases hu
    cases hv
    exact Or.inl (Occurs.refl _)
  | node l r ihl ihr =>
    obtain ⟨hnl, hnr, hd⟩ := nodup_node hn
    intro u v hu hv
    cases hu with
    | refl => exact Or.inr (Or.inl hv)
    | left hu' =>
      cases hv with
      | refl => exact Or.inl (Occurs.left hu')
      | left hv' => exact ihl hnl hu' hv'
      | right hv' =>
        exact Or.inr (Or.inr (Finset.disjoint_of_subset_left hu'.ns_subset
          (Finset.disjoint_of_subset_right hv'.ns_subset hd)))
    | right hu' =>
      cases hv with
      | refl => exact Or.inl (Occurs.right hu')
      | left hv' =>
        exact Or.inr (Or.inr (Finset.disjoint_of_subset_left hu'.ns_subset
          (Finset.disjoint_of_subset_right hv'.ns_subset hd.symm)))
      | right hv' => exact ihr hnr hu' hv'

theorem parent_unique_aux {a b a' b' : BTree} (hun : (BTree.node a b).leafList.Nodup)
    {x : TNode} (hx : x = a.ns ∨ x = b.ns) (hx' : x = a'.ns ∨ x = b'.ns)
    (hc : Occurs (BTree.node a' b') (BTree.node a b)) :
    BTree.node a b = BTree.node a' b' := by
  have hvn : (BTree.node a' b').leafList.Nodup := hc.nodup hun
  have hxv : x ⊂ (BTree.node a' b').ns := by
    rcases hx' with h | h
    · exact h ▸ child_ns_ssubset_left hvn
    · exact h ▸ child_ns_ssubset_right hvn
  cases hc with
  | refl => rfl
  | left hc' =>
    exfalso
    have h1 : (BTree.node a' b').ns ⊆ a.ns := hc'.ns_subset
    rcases hx with hxa | hxb
    · subst hxa
      exact hxv.ne (Finset.Subset.antisymm hxv.subset h1)
    · subst hxb
      obtain ⟨j, hj⟩ := BTree.ns_nonempty b
      have hja : j ∈ a.ns := h1 (hxv.subset hj)
      exact (Finset.disjoint_left.mp (nodup_node hun).2.2 hja) hj
  | right hc' =>
    exfalso
    have h1 : (BTree.node a' b').ns ⊆ b.ns := hc'.ns_subset
    rcases hx with hxa | hxb
    · subst hxa
      obtain ⟨j, hj⟩ := BTree.ns_nonempty a
      have hjb : j ∈ b.ns := h1 (hxv.subset hj)
      exact (Finset.disjoint_left.mp (nodup_node hun).2.2 hj) hjb
    · subst hxb
      exact hxv.ne (Finset.Subset.antisymm hxv.subset h1)

theorem parent_unique {t a b a' b' : BTree} (hn : t.leafList.Nodup)
    (hu : Occurs (BTree.node a b) t) (hv : Occurs (BTree.node a' b') t)
    {x : TNode} (hx : x = a.ns ∨ x = b.ns) (hx' : x = a'.ns ∨ x = b'.ns) :
    BTree.node a b = BTree.node a' b' := by
  have hun : (BTree.node a b).leafList.Nodup := hu.nodup hn
  have hvn : (BTree.node a' b').leafList.Nodup := hv.nodup hn
  rcases occurs_trichotomy hn hu hv with hc | hc | hc
  · exact (parent_unique_aux hvn hx' hx hc).symm
  · exact parent_unique_aux hun hx hx' hc
  · exfalso
    have hxne : x.Nonempty := by
      rcases hx with h | h
      · exact h ▸ BTree.ns_nonempty a
      · exact h ▸ BTree.ns_nonempty b
    have hxu : x ⊆ (BTree.node a b).ns := by
      rcases hx with h | h
      · exact h ▸ (child_ns_ssubset_left hun).subset
      · exact h ▸ (child_ns_ssubset_right hun).subset
    have hxv : x ⊆ (BTree.node a' b').ns := by
      rcases hx' with h | h
      · exact h ▸ (child_ns_ssubset_left hvn).subset
      · exact h ▸ (child_ns_ssubset_right hvn).subset
    obtain ⟨j, hj⟩ := hxne
    exact (Finset.disjoint_left.mp hc (hxu hj)) (hxv hj)

theorem mem_internals_iff {t : BTree} {e : TNode × TNode × TNode} :
    e ∈ t.internals ↔ ∃ a b, Occurs (BTree.node a b) t ∧ e = (a.ns ∪ b.ns, a.ns, b.ns) := by
  induction t with
  | leaf i =>
    simp only [BTree.internals, List.not_mem_nil, false_iff, not_exists]
    rintro a b ⟨h, -⟩
    cases h
  | node l r ihl ihr =>
    simp only [BTree.internals, List.mem_cons, List.mem_append, ihl, ihr]
    constructor
    · rintro (h | ⟨a, b, h, rfl⟩ | ⟨a, b, h, rfl⟩)
      · exact ⟨l, r, Occurs.refl _, h⟩
      · exact ⟨a, b, Occurs.left h, rfl⟩
      · exact ⟨a, b, Occurs.right h, rfl⟩
    · rintro ⟨a, b, h, rfl⟩
      cases h with
      | refl => exact Or.inl rfl
      | left h' => exact Or.inr (Or.inl ⟨a, b, h', rfl⟩)
      | right h' => exact Or.inr (Or.inr ⟨a, b, h', rfl⟩)

theorem internals_length (t : BTree) : t.internals.length + 1 = t.leafList.length := by
  induction t with
  | leaf i => rfl
  | node l r ihl ihr =>
    simp only [BTree.internals, BTree.leafList, List.length_cons, List.length_append]
    omega

theorem internals_fst_subset {t : BTree} {e : TNode × TNode × TNode} (h : e ∈ t.internals) :
    e.1 ⊆ t.ns ∧ e.1.Nonempty := by
  rcases mem_internals_iff.mp h with ⟨a, b, ho, rfl⟩
  constructor
  · exact ho.ns_subset
  · obtain ⟨j, hj⟩ := BTree.ns_nonempty a
    exact ⟨j, Finset.mem_union_left _ hj⟩

theorem internals_nodup {t : BTree} (hn : t.leafList.Nodup) : t.internals.Nodup := by
  induction t with
  | leaf i => exact List.nodup_nil
  | node l r ihl ihr =>
    obtain ⟨hnl, hnr, hd⟩ := nodup_node hn
    rw [BTree.internals, List.nodup_cons, List.nodup_append]
    refine ⟨?_, ihl hnl, ihr hnr, ?_⟩
    · intro hmem
      rcases List.mem_append.mp hmem with h1 | h1
      · obtain ⟨hsub, -⟩ := internals_fst_subset h1
        obtain ⟨j, hj⟩ := BTree.ns_nonempty r
        exact (Finset.disjoint_left.mp hd (hsub (Finset.mem_union_right _ hj))) hj
      · obtain ⟨hsub, -⟩ := internals_fst_subset h1
        obtain ⟨j, hj⟩ := BTree.ns_nonempty l
        exact (Finset.disjoint_right.mp hd (hsub (Finset.mem_union_left _ hj))) hj
    · intro e h1 h2
      obtain ⟨hsub1, hne⟩ := internals_fst_subset h1
      obtain ⟨hsub2, -⟩ := internals_fst_subset h2
      obtain ⟨j, hj⟩ := hne
      exact (Finset.disjoint_left.mp hd (hsub1 hj)) (hsub2 hj)

theorem Cut.ne_nil {t : BTree} {c : List BTree} (h : Cut t c) : c ≠ [] := by
  induction h with
  | one t => exact List.cons_ne_nil t []
  | split hl hr ihl ihr =>
    intro hc
    exact ihl (List.append_eq_nil.mp hc).1

theorem Cut.mem_occurs {t : BTree} {c : List BTree} (h : Cut t c) {u : BTree} (hu : u ∈ c) :
    Occurs u t := by
  induction h with
  | one t => exact (List.mem_singleton.mp hu) ▸ Occurs.refl t
  | split hl hr ihl ihr =>
    rcases List.mem_append.mp hu with h1 | h1
    · exact Occurs.left (ihl h1)
    · exact Occurs.right (ihr h1)

theorem Cut.pairwise_disjoint {t : BTree} {c : List BTree} (hn : t.leafList.Nodup)
    (h : Cut t c) : c.Pairwise (fun u v => Disjoint u.ns v.ns) := by
  induction h with
  | one t => exact List.pairwise_singleton _ t
  | split hl hr ihl ihr =>
    rename_i l r cl cr
    obtain ⟨hnl, hnr, hd⟩ := nodup_node hn
    rw [List.pairwise_append]
    refine ⟨ihl hnl, ihr hnr, ?_⟩
    intro u hu v hv
    exact Finset.disjoint_of_subset_left ((Cut.mem_occurs hl hu).ns_subset)
      (Finset.disjoint_of_subset_right ((Cut.mem_occurs hr hv).ns_subset) hd)

theorem cutLookup_cons (x : BTree) (cs : List BTree) (n : TNode) :
    cutLookup (x :: cs) n = if x.ns = n then some x else cutLookup cs n := by
  by_cases h : x.ns = n
  · rw [if_pos h]
    exact List.find?_cons_of_pos _ (by simp [h])
  · rw [if_neg h]
    exact List.find?_cons_of_neg _ (by simp [h])

theorem cutLookup_some {c : List BTree} {n : TNode} {u : BTree}
    (h : cutLookup c n = some u) : u ∈ c ∧ u.ns = n := by
  induction c with
  | nil => exact Option.noConfusion h
  | cons x cs ih =>
    rw [cutLookup_cons] at h
    by_cases hx : x.ns = n
    · rw [if_pos hx] at h
      obtain rfl := Option.some.inj h
      exact ⟨List.mem_cons_self _ _, hx⟩
    · rw [if_neg hx] at h
      exact ⟨List.mem_cons_of_mem x (ih h).1, (ih h).2⟩

theorem cutLookup_eq_none_iff {c : List BTree} {n : TNode} :
    cutLookup c n = none ↔ ∀ u ∈ c, u.ns ≠ n := by
  induction c with
  | nil => simp [cutLookup]
  | cons x cs ih =>
    rw [cutLookup_cons]
    by_cases hx : x.ns = n
    · simp [hx]
    · simp [hx, ih]

theorem cutLookup_isSome_iff {c : List BTree} {n : TNode} :
    (cutLookup c n).isSome = true ↔ ∃ u ∈ c, u.ns = n := by
  constructor
  · intro h
    obtain ⟨u, hu⟩ := Option.isSome_iff_exists.mp h
    exact ⟨u, (cutLookup_some hu).1, (cutLookup_some hu).2⟩
  · rintro ⟨u, hu, hn'⟩
    by_contra hns
    have hnone : cutLookup c n = none := by
      cases hh : cutLookup c n
      · rfl
      · rw [hh] at hns
        simp at hns
    exact (cutLookup_eq_none_iff.mp hnone u hu) hn'

theorem mem_cutLookup {c : List BTree} (hp : c.Pairwise (fun u v => Disjoint u.ns v.ns))
    {u : BTree} (hne : u.ns.Nonempty) (hu : u ∈ c) : cutLookup c u.ns = some u := by
  induction c with
  | nil => simp at hu
  | cons x cs ih =>
    rw [List.pairwise_cons] at hp
    rw [cutLookup_cons]
    rcases List.mem_cons.mp hu with h1 | h1
    · subst h1
      rw [if_pos rfl]
    · have hxu : x.ns ≠ u.ns := by
        intro hh
        obtain ⟨j, hj⟩ := hne
        exact (Finset.disjoint_left.mp (hp.1 u h1) (hh ▸ hj)) hj
      rw [if_neg hxu]
      exact ih hp.2 h1

theorem cutLookup_append (c1 c2 : List BTree) (n : TNode) :
    cutLookup (c1 ++ c2) n = (cutLookup c1 n).or (cutLookup c2 n) := by
  induction c1 with
  | nil => rfl
  | cons x cs ih =>
    rw [List.cons_append, cutLookup_cons, cutLookup_cons]
    by_cases hx : x.ns = n
    · rw [if_pos hx, if_pos hx]
      rfl
    · rw [if_neg hx, if_neg hx, ih]

theorem Cut.leafCut (t : BTree) : Cut t t.leafCut := by
  induction t with
  | leaf i => exact Cut.one _
  | node l r ihl ihr => exact Cut.split ihl ihr

theorem Occurs.trans {u v w : BTree} (h1 : Occurs u v) (h2 : Occurs v w) : Occurs u w := by
  induction h2 with
  | refl => exact h1
  | left h ih => exact Occurs.left ih
  | right h ih => exact Occurs.right ih

theorem occurs_both_disjoint {a l r : BTree} (hal : Occurs a l) (har : Occurs a r)
    (hd : Disjoint l.ns r.ns) : False := by
  obtain ⟨j, hj⟩ := BTree.ns_nonempty a
  exact (Finset.disjoint_left.mp hd (hal.ns_subset hj)) (har.ns_subset hj)

theorem Cut.root_mem {t : BTree} {c : List BTree} (hc : Cut t c) : t.leafList.Nodup →
    t ∈ c → c = [t] := by
  induction hc with
  | one => intro _ _; rfl
  | split hl hr ihl ihr =>
    rename_i l r cl cr
    intro hn hmem
    exfalso
    obtain ⟨hnl, hnr, hd⟩ := nodup_node hn
    rcases List.mem_append.mp hmem with h1 | h1
    · have hsub : (BTree.node l r).ns ⊆ l.ns := (Cut.mem_occurs hl h1).ns_subset
      exact (child_ns_ssubset_left hn).ne
        (Finset.Subset.antisymm (child_ns_ssubset_left hn).subset hsub)
    · have hsub : (BTree.node l r).ns ⊆ r.ns := (Cut.mem_occurs hr h1).ns_subset
      exact (child_ns_ssubset_right hn).ne
        (Finset.Subset.antisymm (child_ns_ssubset_right hn).subset hsub)

theorem Cut.stuck {t : BTree} {c : List BTree} (hc : Cut t c) : t.leafList.Nodup →
    (∀ a b : BTree, Occurs (BTree.node a b) t → ¬(a ∈ c ∧ b ∈ c)) → c = [t] := by
  induction hc with
  | one => intro _ _; rfl
  | split hl hr ihl ihr =>
    rename_i l r cl cr
    intro hn h
    obtain ⟨hnl, hnr, hd⟩ := nodup_node hn
    have hcl : cl = [l] := ihl hnl (fun a b ho hab =>
      h a b (Occurs.left ho) ⟨List.mem_append_left _ hab.1, List.mem_append_left _ hab.2⟩)
    have hcr : cr = [r] := ihr hnr (fun a b ho hab =>
      h a b (Occurs.right ho) ⟨List.mem_append_right _ hab.1, List.mem_append_right _ hab.2⟩)
    exfalso
    refine h l r (Occurs.refl _) ⟨?_, ?_⟩
    · exact List.mem_append_left _ (hcl ▸ List.mem_singleton_self l)
    · exact List.mem_append_right _ (hcr ▸ List.mem_singleton_self r)

theorem Cut.surgery {t : BTree} {c : List BTree} (hc : Cut t c) : ∀ {a b : BTree},
    t.leafList.Nodup → Occurs (BTree.node a b) t → a ∈ c → b ∈ c →
    ∃ c', Cut t c' ∧ c'.length + 1 = c.length ∧
      (∀ x, x ∈ c' ↔ (x ∈ c ∧ x ≠ a ∧ x ≠ b) ∨ x = BTree.node a b) := by
  induction hc with
  | one t0 =>
    intro a b hn ho ha hb
    exfalso
    have hab : a = b := (List.mem_singleton.mp ha).trans (List.mem_singleton.mp hb).symm
    have hd := (nodup_node (ho.nodup hn)).2.2
    obtain ⟨j, hj⟩ := BTree.ns_nonempty a
    exact (Finset.disjoint_left.mp hd hj) (hab ▸ hj)
  | split hl hr ihl ihr =>
    rename_i l r cl cr
    intro a b hn ho ha hb
    obtain ⟨hnl, hnr, hd⟩ := nodup_node hn
    cases ho with
    | refl =>
      -- the merged node is the root: both sides must be fully reduced
      have hal : l ∈ cl := by
        rcases List.mem_append.mp ha with h1 | h1
        · exact h1
        · exact absurd h1 (fun h1 =>
            occurs_both_disjoint (Occurs.refl l) (Cut.mem_occurs hr h1) hd)
      have hbr : r ∈ cr := by
        rcases List.mem_append.mp hb with h1 | h1
        · exact absurd h1 (fun h1 =>
            occurs_both_disjoint (Cut.mem_occurs hl h1) (Occurs.refl r) hd)
        · exact h1
      have hcl : cl = [l] := Cut.root_mem hl hnl hal
      have hcr : cr = [r] := Cut.root_mem hr hnr hbr
      subst hcl
      subst hcr
      refine ⟨[BTree.node l r], Cut.one _, rfl, ?_⟩
      intro x
      simp only [List.mem_singleton, List.cons_append, List.nil_append, List.mem_cons,
        List.not_mem_nil, or_false]
      constructor
      · intro hx
        exact Or.inr hx
      · rintro (⟨hx, hxa, hxb⟩ | hx)
        · rcases hx with h1 | h1
          · exact absurd h1 hxa
          · exact absurd h1 hxb
        · exact hx
    | left ho' =>
      have hal : a ∈ cl := by
        rcases List.mem_append.mp ha with h1 | h1
        · exact h1
        · exact absurd h1 (fun h1 => occurs_both_disjoint
            ((Occurs.left (Occurs.refl a)).trans ho') (Cut.mem_occurs hr h1) hd)
      have hbl : b ∈ cl := by
        rcases List.mem_append.mp hb with h1 | h1
        · exact h1
        · exact absurd h1 (fun h1 => occurs_both_disjoint
            ((Occurs.right (Occurs.refl b)).trans ho') (Cut.mem_occurs hr h1) hd)
      obtain ⟨cl', hcut, hlen, hmem⟩ := ihl hnl ho' hal hbl
      refine ⟨cl' ++ cr, Cut.split hcut hr, ?_, ?_⟩
      · simp only [List.length_append]
        omega
      · intro x
        rw [List.mem_append, hmem x]
        constructor
        · rintro ((⟨hx, hxa, hxb⟩ | hx) | hx)
          · exact Or.inl ⟨List.mem_append_left _ hx, hxa, hxb⟩
          · exact Or.inr hx
          · refine Or.inl ⟨List.mem_append_right _ hx, ?_, ?_⟩
            · rintro rfl
              exact occurs_both_disjoint ((Occurs.left (Occurs.refl x)).trans ho')
                (Cut.mem_occurs hr hx) hd
            · rintro rfl
              exact occurs_both_disjoint ((Occurs.right (Occurs.refl x)).trans ho')
                (Cut.mem_occurs hr hx) hd
        · rintro (⟨hx, hxa, hxb⟩ | hx)
          · rcases List.mem_append.mp hx with h1 | h1
            · exact Or.inl (Or.inl ⟨h1, hxa, hxb⟩)
            · exact Or.inr h1
          · exact Or.inl (Or.inr hx)
    | right ho' =>
      have har : a ∈ cr := by
        rcases List.mem_append.mp ha with h1 | h1
        · exact absurd h1 (fun h1 => occurs_both_disjoint (Cut.mem_occurs hl h1)
            ((Occurs.left (Occurs.refl a)).trans ho') hd)
        · exact h1
      have hbr : b ∈ cr := by
        rcases List.mem_append.mp hb with h1 | h1
        · exact absurd h1 (fun h1 => occurs_both_disjoint (Cut.mem_occurs hl h1)
            ((Occurs.right (Occurs.refl b)).trans ho') hd)
        · exact h1
      obtain ⟨cr', hcut, hlen, hmem⟩ := ihr hnr ho' har hbr
      refine ⟨cl ++ cr', Cut.split hl hcut, ?_, ?_⟩
      · simp only [List.length_append]
        omega
      · intro x
        rw [List.mem_append, hmem x]
        constructor
        · rintro (hx | (⟨hx, hxa, hxb⟩ | hx))
          · refine Or.inl ⟨List.mem_append_left _ hx, ?_, ?_⟩
            · rintro rfl
              exact occurs_both_disjoint (Cut.mem_occurs hl hx)
                ((Occurs.left (Occurs.refl x)).trans ho') hd
            · rintro rfl
              exact occurs_both_disjoint (Cut.mem_occurs hl hx)
                ((Occurs.right (Occurs.refl x)).trans ho') hd
          · exact Or.inl ⟨List.mem_append_right _ hx, hxa, hxb⟩
          · exact Or.inr hx
        · rintro (⟨hx, hxa, hxb⟩ | hx)
          · rcases List.mem_append.mp hx with h1 | h1
            · exact Or.inl h1
            · exact Or.inr (Or.inl ⟨h1, hxa, hxb⟩)
          · exact Or.inr (Or.inr hx)

theorem filter_perm_cons {α : Type} {l : List α} (hl : l.Nodup) {e : α} (he : e ∈ l)
    {p q : α → Bool} (hpe : p e = true) (hqe : q e = false)
    (hpq : ∀ x ∈ l, x ≠ e → p x = q x) : List.Perm (l.filter p) (e :: l.filter q) := by
  induction l with
  | nil => simp at he
  | cons f t ih =>
    rw [List.nodup_cons] at hl
    rcases List.mem_cons.mp he with h1 | h1
    · have hpf : p f = true := h1 ▸ hpe
      have hqf : q f = false := h1 ▸ hqe
      have hft : List.filter p t = List.filter q t := by
        refine List.filter_congr ?_
        intro x hx
        refine hpq x (List.mem_cons_of_mem f hx) ?_
        rintro rfl
        exact hl.1 (h1 ▸ hx)
      rw [List.filter_cons, if_pos hpf, List.filter_cons, if_neg (by simp [hqf]), hft, h1]
    · have hfe : f ≠ e := by
        rintro rfl
        exact hl.1 h1
      have hpf : p f = q f := hpq f (List.mem_cons_self f t) hfe
      have iht := ih hl.2 h1 (fun x hx hxe => hpq x (List.mem_cons_of_mem f hx) hxe)
      by_cases hqf : q f = true
      · rw [List.filter_cons, List.filter_cons, if_pos (hpf.trans hqf), if_pos hqf]
        refine (iht.cons f).trans ?_
        exact List.Perm.swap e f _
      · rw [List.filter_cons, List.filter_cons, if_neg (fun hh => hqf (hpf.symm.trans hh)),
          if_neg hqf]
        exact iht

theorem entry_not_subset_singleton {t : BTree} (hn : t.leafList.Nodup)
    {e : TNode × TNode × TNode} (he : e ∈ t.internals) (j : ℕ) : ¬ e.1 ⊆ ({j} : Finset ℕ) := by
  rcases mem_internals_iff.mp he with ⟨a, b, ho, rfl⟩
  intro hsub
  have hd := (nodup_node (ho.nodup hn)).2.2
  obtain ⟨j1, hj1⟩ := BTree.ns_nonempty a
  obtain ⟨j2, hj2⟩ := BTree.ns_nonempty b
  have e1 : j1 = j := Finset.mem_singleton.mp (hsub (Finset.mem_union_left _ hj1))
  have e2 : j2 = j := Finset.mem_singleton.mp (hsub (Finset.mem_union_right _ hj2))
  exact (Finset.disjoint_left.mp hd hj1) ((e1.trans e2.symm) ▸ hj2)

theorem leafCut_mem {t : BTree} {x : BTree} :
    x ∈ t.leafCut ↔ ∃ j ∈ t.leafList, x = BTree.leaf j := by
  induction t with
  | leaf i => simp [BTree.leafCut, BTree.leafList]
  | node l r ihl ihr =>
    simp only [BTree.leafCut, BTree.leafList, List.mem_append, ihl, ihr]
    constructor
    · rintro (⟨j, hj, rfl⟩ | ⟨j, hj, rfl⟩)
      · exact ⟨j, Or.inl hj, rfl⟩
      · exact ⟨j, Or.inr hj, rfl⟩
    · rintro ⟨j, hj | hj, rfl⟩
      · exact Or.inl ⟨j, hj, rfl⟩
      · exact Or.inr ⟨j, hj, rfl⟩

theorem leafCut_length (t : BTree) : t.leafCut.length = t.leafList.length := by
  induction t with
  | leaf i => rfl
  | node l r ihl ihr => simp [BTree.leafCut, BTree.leafList, ihl, ihr]

theorem pendingList_leafCut {t : BTree} (hn : t.leafList.Nodup) :
    pendingList t t.leafCut = t.internals := by
  unfold pendingList
  refine List.filter_eq_self.mpr ?_
  intro e he
  rw [List.all_eq_true]
  intro x hx
  obtain ⟨j, hj, rfl⟩ := leafCut_mem.mp hx
  simpa [BTree.ns] using entry_not_subset_singleton hn he j

theorem pendingList_root (t : BTree) : pendingList t [t] = [] := by
  unfold pendingList
  rw [List.filter_eq_nil_iff]
  intro e he
  simp only [List.all_cons, List.all_nil, Bool.and_true, Bool.not_eq_true',
    decide_eq_false_iff_not, not_not]
  exact (internals_fst_subset he).1

theorem all_not_subset_iff (c : List BTree) (s : TNode) :
    (c.all fun x => !decide (s ⊆ x.ns)) = true ↔ ¬∃ x ∈ c, s ⊆ x.ns := by
  rw [List.all_eq_true]
  simp

theorem pendingList_surgery {t : BTree} (hn : t.leafList.Nodup) {c c' : List BTree}
    {a b : BTree} (hc : Cut t c) (ho : Occurs (BTree.node a b) t) (ha : a ∈ c) (hb : b ∈ c)
    (hmem : ∀ x, x ∈ c' ↔ (x ∈ c ∧ x ≠ a ∧ x ≠ b) ∨ x = BTree.node a b) :
    List.Perm (pendingList t c)
      ((a.ns ∪ b.ns, a.ns, b.ns) :: pendingList t c') := by
  have hon : (BTree.node a b).leafList.Nodup := ho.nodup hn
  have hd := (nodup_node hon).2.2
  have hsymm : Symmetric fun u v : BTree => Disjoint u.ns v.ns :=
    fun u v huv => Disjoint.symm huv
  have hpair := (Cut.pairwise_disjoint hn hc).forall hsymm
  unfold pendingList
  refine filter_perm_cons (internals_nodup hn) ?_ ?_ ?_ ?_
  · exact mem_internals_iff.mpr ⟨a, b, ho, rfl⟩
  · -- the merged entry is pending before the merge
    rw [List.all_eq_true]
    intro x hx
    simp only [Bool.not_eq_true']
    rw [decide_eq_false_iff_not]
    intro hsub
    by_cases hxa : x = a
    · subst hxa
      obtain ⟨j, hj⟩ := BTree.ns_nonempty b
      exact (Finset.disjoint_right.mp hd hj) (hsub (Finset.mem_union_right _ hj))
    · have hdx : Disjoint a.ns x.ns := hpair ha hx (fun hh => hxa hh.symm)
      obtain ⟨j, hj⟩ := BTree.ns_nonempty a
      exact (Finset.disjoint_left.mp hdx hj) (hsub (Finset.mem_union_left _ hj))
  · -- it is no longer pending after the merge
    rw [Bool.eq_false_iff]
    intro hall
    rw [List.all_eq_true] at hall
    have hu : BTree.node a b ∈ c' := (hmem _).mpr (Or.inr rfl)
    have hx := hall _ hu
    simp only [Bool.not_eq_true'] at hx
    rw [decide_eq_false_iff_not] at hx
    exact hx subset_rfl
  · -- every other internal node is pending before iff after
    intro f hf hfe
    rcases mem_internals_iff.mp hf with ⟨fa, fb, hfo, rfl⟩
    have key : (∃ x ∈ c, (fa.ns ∪ fb.ns) ⊆ x.ns) ↔ (∃ x ∈ c', (fa.ns ∪ fb.ns) ⊆ x.ns) := by
      constructor
      · rintro ⟨x, hx, hsub⟩
        by_cases hxa : x = a
        · refine ⟨BTree.node a b, (hmem _).mpr (Or.inr rfl), ?_⟩
          exact hsub.trans (hxa ▸ Finset.subset_union_left)
        · by_cases hxb : x = b
          · refine ⟨BTree.node a b, (hmem _).mpr (Or.inr rfl), ?_⟩
            exact hsub.trans (hxb ▸ Finset.subset_union_right)
          · exact ⟨x, (hmem _).mpr (Or.inl ⟨hx, hxa, hxb⟩), hsub⟩
      · rintro ⟨x, hx, hsub⟩
        rcases (hmem _).mp hx with ⟨hx', -, -⟩ | rfl
        · exact ⟨x, hx', hsub⟩
        · -- the entry lies within the merged node: find it inside one child
          rcases occurs_trichotomy hn hfo ho with htr | htr | htr
          · cases htr with
            | refl =>
              exact absurd rfl hfe
            | left h =>
              exact ⟨a, ha, h.ns_subset⟩
            | right h =>
              exact ⟨b, hb, h.ns_subset⟩
          · -- the merged node occurs inside the entry: their identifiers coincide
            have hsub2 : (BTree.node a b).ns ⊆ (BTree.node fa fb).ns := htr.ns_subset
            have heq : (BTree.node fa fb).ns = (BTree.node a b).ns :=
              Finset.Subset.antisymm hsub hsub2
            have := ns_inj hn hfo ho heq
            cases this
            exact absurd rfl hfe
          · exfalso
            obtain ⟨j, hj⟩ := BTree.ns_nonempty (BTree.node fa fb)
            exact (Finset.disjoint_left.mp htr hj) (hsub hj)
    by_cases hex : ∃ x ∈ c, (fa.ns ∪ fb.ns) ⊆ x.ns
    · have e1 : (c.all fun x => !decide ((fa.ns ∪ fb.ns, fa.ns, fb.ns).1 ⊆ x.ns)) = false := by
        rw [Bool.eq_false_iff]
        intro hh
        exact ((all_not_subset_iff c _).mp hh) hex
      have e2 : (c'.all fun x => !decide ((fa.ns ∪ fb.ns, fa.ns, fb.ns).1 ⊆ x.ns)) = false := by
        rw [Bool.eq_false_iff]
        intro hh
        exact ((all_not_subset_iff c' _).mp hh) (key.mp hex)
      rw [e1, e2]
    · have e1 : (c.all fun x => !decide ((fa.ns ∪ fb.ns, fa.ns, fb.ns).1 ⊆ x.ns)) = true :=
        (all_not_subset_iff c _).mpr hex
      have e2 : (c'.all fun x => !decide ((fa.ns ∪ fb.ns, fa.ns, fb.ns).1 ⊆ x.ns)) = true :=
        (all_not_subset_iff c' _).mpr (fun hx => hex (key.mpr hx))
      rw [e1, e2]

theorem dictGet_range'_zip {T : Type} : ∀ (n s : ℕ) (xs : List T) (j : ℕ),
    dictGet (((List.range' s n).map (fun i => ({i} : Finset ℕ))).zip xs) ({j} : Finset ℕ) =
      if s ≤ j ∧ j < s + n then xs.get? (j - s) else none := by
  intro n
  induction n with
  | zero =>
    intro s xs j
    rw [if_neg (by omega : ¬(s ≤ j ∧ j < s + 0))]
    rfl
  | succ m ih =>
    intro s xs j
    rw [List.range'_succ]
    cases xs with
    | nil => simp [dictGet]
    | cons x xs' =>
      rw [List.map_cons, List.zip_cons_cons, dictGet]
      by_cases hs : s = j
      · subst hs
        rw [if_pos rfl, if_pos (by omega : s ≤ s ∧ s < s + (m + 1))]
        simp
      · rw [if_neg (fun hh => hs (Finset.singleton_injective hh)), ih (s + 1) xs' j]
        by_cases h1 : s + 1 ≤ j ∧ j < s + 1 + m
        · rw [if_pos h1, if_pos (by omega)]
          obtain ⟨k, hk⟩ : ∃ k, j - s = k + 1 := ⟨j - s - 1, by omega⟩
          rw [hk, show j - (s + 1) = k by omega]
          rfl
        · rw [if_neg h1, if_neg (by omega)]

theorem dictGet_initActive_singleton {T : Type} (tree : CTree) (arr : List T) (j : ℕ) :
    dictGet (initActive tree arr) ({j} : Finset ℕ) =
      if j < tree.N then arr.get? j else none := by
  unfold initActive
  rw [List.range_eq_range', dictGet_range'_zip]
  simp

theorem dictGet_initActive_nonsingleton {T : Type} (tree : CTree) (arr : List T) {n : TNode}
    (h : ∀ j : ℕ, n ≠ {j}) : dictGet (initActive tree arr) n = none := by
  rw [dictGet_eq_none_iff]
  intro hmem
  obtain ⟨p, hp, hpn⟩ := List.mem_map.mp hmem
  have h1 := (List.of_mem_zip hp).1
  obtain ⟨j, -, hj⟩ := List.mem_map.mp h1
  exact h j ((hj.trans hpn).symm)

theorem map_fst_zip_sublist {α β : Type} : ∀ (l1 : List α) (l2 : List β),
    ((l1.zip l2).map Prod.fst).Sublist l1
  | [], _ => by simp
  | a :: l1, [] => by simp
  | a :: l1, b :: l2 => by
    rw [List.zip_cons_cons, List.map_cons]
    exact (map_fst_zip_sublist l1 l2).cons₂ a

theorem keysNodup_initActive {T : Type} (tree : CTree) (arr : List T) :
    keysNodup (initActive tree arr) := by
  unfold keysNodup initActive
  refine List.Nodup.sublist (map_fst_zip_sublist _ arr) ?_
  refine List.Nodup.map ?_ (List.nodup_range tree.N)
  intro x y hxy
  exact Finset.singleton_injective hxy

theorem cutLookup_leafCut {t : BTree} {j : ℕ} (h : j ∈ t.leafList) :
    cutLookup t.leafCut {j} = some (BTree.leaf j) := by
  induction t with
  | leaf i =>
    rw [BTree.leafList, List.mem_singleton] at h
    subst h
    rw [BTree.leafCut, cutLookup_cons, if_pos (show (BTree.leaf j).ns = {j} from rfl)]
  | node l r ihl ihr =>
    rw [show (BTree.node l r).leafCut = l.leafCut ++ r.leafCut from rfl, cutLookup_append]
    cases hh : cutLookup l.leafCut {j} with
    | some u =>
      obtain ⟨hu, hns⟩ := cutLookup_some hh
      obtain ⟨k, hk, rfl⟩ := leafCut_mem.mp hu
      have hkj : k = j := by
        have : ({k} : Finset ℕ) = {j} := hns
        exact Finset.singleton_injective this
      subst hkj
      rfl
    | none =>
      have hjl : j ∉ l.leafList := by
        intro hjl
        rw [ihl hjl] at hh
        exact Option.noConfusion hh
      rcases List.mem_append.mp h with h1 | h1
      · exact absurd h1 hjl
      · exact ihr h1

theorem cutLookup_leafCut_none {t : BTree} {n : TNode} (h : ∀ j : ℕ, n ≠ {j}) :
    cutLookup t.leafCut n = none := by
  rw [cutLookup_eq_none_iff]
  intro u hu
  obtain ⟨j, -, rfl⟩ := leafCut_mem.mp hu
  intro hns
  exact h j hns.symm

theorem cutLookup_leafCut_not_leaf {t : BTree} {j : ℕ} (h : j ∉ t.leafList) :
    cutLookup t.leafCut ({j} : Finset ℕ) = none := by
  rw [cutLookup_eq_none_iff]
  intro u hu
  obtain ⟨k, hk, rfl⟩ := leafCut_mem.mp hu
  intro hns
  have : k = j := Finset.singleton_injective hns
  exact h (this ▸ hk)

theorem forall2_get?_right {α β : Type} {R : α → β → Prop} : ∀ {l1 : List α} {l2 : List β},
    List.Forall₂ R l1 l2 → ∀ i b, l2.get? i = some b → ∃ a, l1.get? i = some a ∧ R a b := by
  intro l1 l2 h
  induction h with
  | nil => intro i b hb; exact Option.noConfusion hb
  | cons hab htail ih =>
    intro i b hb
    cases i with
    | zero =>
      refine ⟨_, rfl, ?_⟩
      cases Option.some.inj hb
      exact hab
    | succ j => exact ih j b hb

theorem forall2_get?_left {α β : Type} {R : α → β → Prop} : ∀ {l1 : List α} {l2 : List β},
    List.Forall₂ R l1 l2 → ∀ i a, l1.get? i = some a → ∃ b, l2.get? i = some b ∧ R a b := by
  intro l1 l2 h
  induction h with
  | nil => intro i a ha; exact Option.noConfusion ha
  | cons hab htail ih =>
    intro i a ha
    cases i with
    | zero =>
      refine ⟨_, rfl, ?_⟩
      cases Option.some.inj ha
      exact hab
    | succ j => exact ih j a ha

theorem treeVal_isSome {T : Type} (contract : String → T → T → T) (tree : CTree)
    (arr : List T) : ∀ (u : BTree), (∀ j ∈ u.leafList, j < arr.length) →
    ∃ v, evalTree contract tree.get_einsum_eq arr u = some v := by
  intro u
  induction u with
  | leaf i =>
    intro h
    have hi : i < arr.length := h i (List.mem_singleton_self i)
    cases hv : arr.get? i with
    | none =>
      rw [List.get?_eq_none] at hv
      omega
    | some v => exact ⟨v, hv⟩
  | node l r ihl ihr =>
    intro h
    obtain ⟨vl, hvl⟩ := ihl (fun j hj => h j (List.mem_append_left _ hj))
    obtain ⟨vr, hvr⟩ := ihr (fun j hj => h j (List.mem_append_right _ hj))
    refine ⟨contract (tree.get_einsum_eq (l.ns ∪ r.ns)) vl vr, ?_⟩
    rw [evalTree, hvl, hvr]

theorem occurs_leaf_mem {u t : BTree} (ho : Occurs u t) {j : ℕ} (hj : j ∈ u.leafList) :
    j ∈ t.leafList := by
  rw [← BTree.mem_ns] at hj ⊢
  exact ho.ns_subset hj

theorem occurs_parent {u t : BTree} (h : Occurs u t) :
    u = t ∨ ∃ x y, Occurs (BTree.node x y) t ∧ (x = u ∨ y = u) := by
  induction h with
  | refl => exact Or.inl rfl
  | left h ih =>
    rename_i l r
    right
    rcases ih with rfl | ⟨x, y, hxy, hu⟩
    · exact ⟨_, r, Occurs.refl _, Or.inl rfl⟩
    · exact ⟨x, y, Occurs.left hxy, hu⟩
  | right h ih =>
    rename_i l r
    right
    rcases ih with rfl | ⟨x, y, hxy, hu⟩
    · exact ⟨l, _, Occurs.refl _, Or.inr rfl⟩
    · exact ⟨x, y, Occurs.right hxy, hu⟩

theorem derive_parent_fold_none {x : TNode} : ∀ (ch : List (TNode × TNode × TNode))
    (m0 : List (TNode × TNode)), (∀ e ∈ ch, x ≠ e.2.1 ∧ x ≠ e.2.2) → dictGet m0 x = none →
    dictGet (ch.foldl (fun m e => dictSet (dictSet m e.2.1 e.1) e.2.2 e.1) m0) x = none := by
  intro ch
  induction ch with
  | nil => intro m0 _ h0; exact h0
  | cons e ch ih =>
    intro m0 h h0
    rw [List.foldl_cons]
    refine ih _ (fun f hf => h f (List.mem_cons_of_mem e hf)) ?_
    have he := h e (List.mem_cons_self e ch)
    rw [dictGet_dictSet_ne _ _ _ _ he.2, dictGet_dictSet_ne _ _ _ _ he.1]
    exact h0

theorem derive_parent_fold_some {x gp : TNode} : ∀ (ch : List (TNode × TNode × TNode))
    (m0 : List (TNode × TNode)),
    (∀ e ∈ ch, (x = e.2.1 ∨ x = e.2.2) → e.1 = gp) →
    (dictGet m0 x = none ∨ dictGet m0 x = some gp) →
    ((∃ e ∈ ch, x = e.2.1 ∨ x = e.2.2) ∨ dictGet m0 x = some gp) →
    dictGet (ch.foldl (fun m e => dictSet (dictSet m e.2.1 e.1) e.2.2 e.1) m0) x = some gp := by
  intro ch
  induction ch with
  | nil =>
    intro m0 _ _ h3
    rcases h3 with ⟨e, he, -⟩ | h3
    · simp at he
    · exact h3
  | cons e ch ih =>
    intro m0 h1 h2 h3
    rw [List.foldl_cons]
    by_cases hx : x = e.2.1 ∨ x = e.2.2
    · have hnew : dictGet (dictSet (dictSet m0 e.2.1 e.1) e.2.2 e.1) x = some gp := by
        have hegp := h1 e (List.mem_cons_self e ch) hx
        by_cases hx2 : x = e.2.2
        · rw [← hx2, dictGet_dictSet_self, hegp]
        · rcases hx with hx1 | hx1
          · rw [dictGet_dictSet_ne _ _ _ _ hx2, ← hx1, dictGet_dictSet_self, hegp]
          · exact absurd hx1 hx2
      exact ih _ (fun f hf => h1 f (List.mem_cons_of_mem e hf)) (Or.inr hnew) (Or.inr hnew)
    · push_neg at hx
      have hnew : dictGet (dictSet (dictSet m0 e.2.1 e.1) e.2.2 e.1) x = dictGet m0 x := by
        rw [dictGet_dictSet_ne _ _ _ _ hx.2, dictGet_dictSet_ne _ _ _ _ hx.1]
      have h2' : dictGet (dictSet (dictSet m0 e.2.1 e.1) e.2.2 e.1) x = none ∨
          dictGet (dictSet (dictSet m0 e.2.1 e.1) e.2.2 e.1) x = some gp := by
        rw [hnew]
        exact h2
      refine ih _ (fun f hf => h1 f (List.mem_cons_of_mem e hf)) h2' ?_
      rcases h3 with ⟨f, hf, hfx⟩ | h3
      · rcases List.mem_cons.mp hf with rfl | hf'
        · rcases hfx with hh | hh
          · exact absurd hh hx.1
          · exact absurd hh hx.2
        · exact Or.inl ⟨f, hf', hfx⟩
      · right
        rw [hnew]
        exact h3

theorem wf_nodup {tree : CTree} {bt : BTree} (hw : WfTree tree bt) : bt.leafList.Nodup :=
  (hw.1.nodup_iff).mpr (List.nodup_range _)

theorem internals_keys_nodup {bt : BTree} (hn : bt.leafList.Nodup) :
    ((bt.internals).map Prod.fst).Nodup := by
  refine List.Nodup.map_on ?_ (internals_nodup hn)
  intro e1 h1 e2 h2 heq
  rcases mem_internals_iff.mp h1 with ⟨a, b, ho1, rfl⟩
  rcases mem_internals_iff.mp h2 with ⟨a', b', ho2, rfl⟩
  have hab : BTree.node a b = BTree.node a' b' := ns_inj hn ho1 ho2 heq
  injection hab with hA hB
  rw [hA, hB]

theorem wf_children_keysNodup {tree : CTree} {bt : BTree} (hw : WfTree tree bt) :
    keysNodup tree.children :=
  ((hw.2.map Prod.fst).nodup_iff).mpr (internals_keys_nodup (wf_nodup hw))

theorem wf_dictGet_children {tree : CTree} {bt : BTree} (hw : WfTree tree bt)
    {p l r : TNode} : dictGet tree.children p = some (l, r) ↔ (p, l, r) ∈ bt.internals := by
  constructor
  · intro h
    exact hw.2.mem_iff.mp (dictGet_mem h)
  · intro h
    exact mem_dictGet (wf_children_keysNodup hw) (hw.2.mem_iff.mpr h)

theorem derive_parent_root {tree : CTree} {bt : BTree} (hw : WfTree tree bt) :
    dictGet (derive_parent tree.children) bt.ns = none := by
  unfold derive_parent
  refine derive_parent_fold_none tree.children [] ?_ rfl
  intro e he
  rcases mem_internals_iff.mp (hw.2.mem_iff.mp he) with ⟨a, b, ho, rfl⟩
  have hn := wf_nodup hw
  have h2 := ho.ns_subset
  constructor
  · intro hh
    exact (Finset.ssubset_of_ssubset_of_subset (child_ns_ssubset_left (ho.nodup hn)) h2).ne
      hh.symm
  · intro hh
    exact (Finset.ssubset_of_ssubset_of_subset (child_ns_ssubset_right (ho.nodup hn)) h2).ne
      hh.symm

theorem derive_parent_gp {tree : CTree} {bt : BTree} (hw : WfTree tree bt)
    {x y : BTree} (ho : Occurs (BTree.node x y) bt) {p : TNode}
    (hp : p = x.ns ∨ p = y.ns) :
    dictGet (derive_parent tree.children) p = some (x.ns ∪ y.ns) := by
  unfold derive_parent
  refine derive_parent_fold_some tree.children [] ?_ (Or.inl rfl) ?_
  · intro e he hpe
    rcases mem_internals_iff.mp (hw.2.mem_iff.mp he) with ⟨a, b, ho2, rfl⟩
    have hab := parent_unique (wf_nodup hw) ho2 ho hpe hp
    injection hab with hA hB
    show a.ns ∪ b.ns = x.ns ∪ y.ns
    rw [hA, hB]
  · left
    exact ⟨(x.ns ∪ y.ns, x.ns, y.ns),
      hw.2.mem_iff.mpr (mem_internals_iff.mpr ⟨x, y, ho, rfl⟩), hp⟩

theorem gatherLeft_some {T : Type} {active : List (List (TNode × T))} : ∀ {g : List Inst},
    (∀ inst ∈ g, ∃ v, (active.get? inst.1).bind (fun m => dictGet m inst.2.2.1) = some v) →
    ∃ vs, gatherLeft active g = some vs ∧
      List.Forall₂ (fun inst v =>
        (active.get? inst.1).bind (fun m => dictGet m inst.2.2.1) = some v) g vs := by
  intro g
  induction g with
  | nil => intro _; exact ⟨[], rfl, List.Forall₂.nil⟩
  | cons inst rest ih =>
    intro h
    obtain ⟨v, hv⟩ := h inst (List.mem_cons_self inst rest)
    obtain ⟨vs, hvs, hf⟩ := ih (fun i hi => h i (List.mem_cons_of_mem inst hi))
    refine ⟨v :: vs, ?_, List.Forall₂.cons hv hf⟩
    rw [gatherLeft, hv, hvs]

theorem gatherRight_some {T : Type} {active : List (List (TNode × T))} : ∀ {g : List Inst},
    (∀ inst ∈ g, ∃ v, (active.get? inst.1).bind (fun m => dictGet m inst.2.2.2) = some v) →
    ∃ vs, gatherRight active g = some vs ∧
      List.Forall₂ (fun inst v =>
        (active.get? inst.1).bind (fun m => dictGet m inst.2.2.2) = some v) g vs := by
  intro g
  induction g with
  | nil => intro _; exact ⟨[], rfl, List.Forall₂.nil⟩
  | cons inst rest ih =>
    intro h
    obtain ⟨v, hv⟩ := h inst (List.mem_cons_self inst rest)
    obtain ⟨vs, hvs, hf⟩ := ih (fun i hi => h i (List.mem_cons_of_mem inst hi))
    refine ⟨v :: vs, ?_, List.Forall₂.cons hv hf⟩
    rw [gatherRight, hv, hvs]

theorem forall2_zipWith {α β γ δ : Type} {P : α → β → Prop} {Q : α → γ → Prop}
    {f : β → γ → δ} : ∀ {g : List α} {ls : List β} {rs : List γ},
    List.Forall₂ P g ls → List.Forall₂ Q g rs →
    List.Forall₂ (fun i d => ∃ x y, P i x ∧ Q i y ∧ d = f x y) g (List.zipWith f ls rs) := by
  intro g
  induction g with
  | nil =>
    intro ls rs h1 h2
    cases h1
    cases h2
    exact List.Forall₂.nil
  | cons a g ih =>
    intro ls rs h1 h2
    cases h1 with
    | cons hx h1' =>
      cases h2 with
      | cons hy h2' =>
        exact List.Forall₂.cons ⟨_, _, hx, hy, rfl⟩ (ih h1' h2')

theorem forall2_mem_zip {α β : Type} {R : α → β → Prop} : ∀ {g : List α} {rs : List β},
    List.Forall₂ R g rs → ∀ pe ∈ g.zip rs, R pe.1 pe.2 := by
  intro g rs h
  induction h with
  | nil =>
    intro pe hpe
    simp at hpe
  | cons hab t ih =>
    intro pe hpe
    rw [List.zip_cons_cons] at hpe
    rcases List.mem_cons.mp hpe with rfl | hpe'
    · exact hab
    · exact ih pe hpe'

theorem get?_some_lt {α : Type} {l : List α} {i : ℕ} {a : α} (h : l.get? i = some a) :
    i < l.length := by
  rcases List.get?_eq_some.mp h with ⟨h1, -⟩
  exact h1

theorem lt_get?_some {α : Type} {l : List α} {i : ℕ} (h : i < l.length) :
    ∃ a, l.get? i = some a := by
  cases hh : l.get? i with
  | none =>
    rw [List.get?_eq_none] at hh
    omega
  | some a => exact ⟨a, rfl⟩

theorem cut_pair {bt : BTree} {c : List BTree} (hn : bt.leafList.Nodup) (hc : Cut bt c) :
    ∀ {u v : BTree}, u ∈ c → v ∈ c → u ≠ v → Disjoint u.ns v.ns := by
  have hsymm : Symmetric fun u v : BTree => Disjoint u.ns v.ns := fun u v huv => huv.symm
  intro u v hu hv huv
  exact (Cut.pairwise_disjoint hn hc).forall hsymm hu hv huv

theorem cutMeasure_set : ∀ (cs : List (List BTree)) (i : ℕ) {c c' : List BTree},
    cs.get? i = some c → c'.length + 1 = c.length →
    cutMeasure (cs.set i c') + 1 = cutMeasure cs := by
  intro cs
  induction cs with
  | nil =>
    intro i c c' h _
    exact Option.noConfusion h
  | cons c0 cs ih =>
    intro i c c' h hl
    cases i with
    | zero =>
      cases Option.some.inj h
      simp only [List.set_cons_zero, cutMeasure, List.map_cons, List.sum_cons]
      omega
    | succ j =>
      have := ih j h hl
      simp only [List.set_cons_succ, cutMeasure, List.map_cons, List.sum_cons] at this ⊢
      omega

theorem pendingAll_set {e : TNode × TNode × TNode} : ∀ (bts : List BTree)
    (cs : List (List BTree)) (i0 i : ℕ) (bt : BTree) (c c' : List BTree),
    bts.get? i = some bt → cs.get? i = some c →
    List.Perm (pendingList bt c) (e :: pendingList bt c') →
    List.Perm (pendingAll bts cs i0) ((i0 + i, e) :: pendingAll bts (cs.set i c') i0) := by
  intro bts
  induction bts with
  | nil =>
    intro cs i0 i bt c c' hb
    exact Option.noConfusion hb
  | cons bt0 bts ih =>
    intro cs i0 i bt c c' hb hc hperm
    cases cs with
    | nil => exact Option.noConfusion hc
    | cons c0 cs =>
      cases i with
      | zero =>
        cases Option.some.inj hb
        cases Option.some.inj hc
        simp only [List.set_cons_zero, pendingAll, Nat.add_zero]
        refine ((hperm.map (fun f => (i0, f))).append_right _).trans ?_
        simp only [List.map_cons]
        exact List.Perm.refl _
      | succ j =>
        simp only [List.set_cons_succ, pendingAll]
        have := ih (cs) (i0 + 1) j bt c c' hb hc hperm
        refine (this.append_left ((pendingList bt0 c0).map (fun f => (i0, f)))).trans ?_
        rw [show i0 + (j + 1) = i0 + 1 + j by omega]
        exact List.perm_middle

set_option maxHeartbeats 1000000

theorem mem_dictAppend_prop {α β : Type} [DecidableEq α] {r : List (α × List β)} {s : α}
    {x : β} (Q : α → β → Prop) (hr : ∀ e ∈ r, ∀ q ∈ e.2, Q e.1 q) (hx : Q s x) :
    ∀ e ∈ dictAppend r s x, ∀ q ∈ e.2, Q e.1 q := by
  induction r with
  | nil =>
    intro e he q hq
    rw [dictAppend] at he
    rw [List.mem_singleton.mp he] at hq ⊢
    rw [List.mem_singleton.mp hq]
    exact hx
  | cons e0 t ih =>
    intro e he q hq
    rw [dictAppend] at he
    by_cases h0 : e0.1 = s
    · rw [if_pos h0] at he
      rcases List.mem_cons.mp he with rfl | he2
      · rcases List.mem_append.mp hq with h2 | h2
        · exact hr e0 (List.mem_cons_self _ _) q h2
        · rw [List.mem_singleton.mp h2, h0]
          exact hx
      · exact hr _ (List.mem_cons_of_mem _ he2) q hq
    · rw [if_neg h0] at he
      rcases List.mem_cons.mp he with rfl | he2
      · exact hr _ (List.mem_cons_self _ _) q hq
      · exact ih (fun e2 he2a => hr e2 (List.mem_cons_of_mem _ he2a)) e he2 q hq

theorem promote_step {T : Type} {contract : String → T → T → T} {trees : List CTree}
    {bts : List BTree} {arrays : List (List T)}
    (hwf : WfForest trees bts)
    (hlen : List.Forall₂ (fun (arr : List T) (tree : CTree) => arr.length = tree.N)
      arrays trees)
    {st : SchedState T} {cs : List (List BTree)} {inst : Inst} {res : T}
    {P : List (Inst × T)}
    (hinv : LoopInv contract trees bts arrays st cs ((inst, res) :: P)) :
    ∃ st' cs', promote trees (trees.map fun tree => derive_parent tree.children) st inst res
        = Except.ok st' ∧
      LoopInv contract trees bts arrays st' cs' P ∧
      cutMeasure cs' + 1 = cutMeasure cs ∧
      List.Perm (pendingAll bts cs 0) (inst :: pendingAll bts cs' 0) := by
  obtain ⟨i, p, l, r⟩ := inst
  -- the data of the promoted instance
  obtain ⟨tree, bt, arr, a, b, htree, hbt, harr, ho, hans, hbns, hpns, hval⟩ :=
    hinv.pendVal ((i, p, l, r), res) (List.mem_cons_self _ _)
  dsimp only at htree hbt harr hans hbns hpns
  obtain ⟨tree2, htree2, hw⟩ := forall2_get?_right hwf i bt hbt
  rw [htree] at htree2
  obtain rfl := Option.some.inj htree2
  have hn : bt.leafList.Nodup := wf_nodup hw
  obtain ⟨treeB, htreeB, hlen_i⟩ := forall2_get?_left hlen i arr harr
  rw [htree] at htreeB
  obtain rfl := Option.some.inj htreeB
  obtain ⟨c, hcs⟩ : ∃ c, cs.get? i = some c :=
    lt_get?_some (by
      rw [hinv.len_cs, hwf.length_eq]
      exact get?_some_lt hbt)
  have hcut : Cut bt c := hinv.cuts i bt c hbt hcs
  -- locate the two children in the cut
  have hmemhead : ((i, p, l, r) : Inst) ∈
      flatReady st.ready ++ (((i, p, l, r), res) :: P).map Prod.fst := by
    refine List.mem_append_right _ ?_
    simp
  obtain ⟨bt2, c2, hbt2, hcs2, hentry, hla, hra⟩ := (hinv.readyMem (i, p, l, r)).mp hmemhead
  dsimp only at hbt2 hcs2 hentry hla hra
  rw [hbt] at hbt2
  obtain rfl := Option.some.inj hbt2
  rw [hcs] at hcs2
  obtain rfl := Option.some.inj hcs2
  have hoa : Occurs a bt := (Occurs.left (Occurs.refl a)).trans ho
  have hob : Occurs b bt := (Occurs.right (Occurs.refl b)).trans ho
  obtain ⟨ul, hul, hulns⟩ := hla
  obtain rfl : a = ul :=
    (ns_inj hn (hcut.mem_occurs hul) hoa (by rw [hulns, hans])).symm
  obtain ⟨ur, hur, hurns⟩ := hra
  obtain rfl : b = ur :=
    (ns_inj hn (hcut.mem_occurs hur) hob (by rw [hurns, hbns])).symm
  -- basic disjointness facts
  have hdab : Disjoint a.ns b.ns := (nodup_node (ho.nodup hn)).2.2
  have hane := BTree.ns_nonempty a
  have hbne := BTree.ns_nonempty b
  have hlr : l ≠ r := by
    rw [← hans, ← hbns]
    intro hh
    obtain ⟨j, hj⟩ := hane
    exact (Finset.disjoint_left.mp hdab hj) (hh ▸ hj)
  have hpl : p ≠ l := by
    rw [hpns, ← hans]
    intro hh
    obtain ⟨j, hj⟩ := hbne
    have hja : j ∈ a.ns := hh ▸ Finset.mem_union_right a.ns hj
    exact (Finset.disjoint_left.mp hdab hja) hj
  have hpr : p ≠ r := by
    rw [hpns, ← hbns]
    intro hh
    obtain ⟨j, hj⟩ := hane
    exact (Finset.disjoint_left.mp hdab hj) (hh ▸ Finset.mem_union_left b.ns hj)
  -- the active-node map of tree i
  obtain ⟨m, hm⟩ : ∃ m, st.active.get? i = some m :=
    lt_get?_some (by
      rw [hinv.len_active]
      exact get?_some_lt htree)
  have hmn : keysNodup m := hinv.activeKeys i m hm
  have hlook := hinv.activeLook i tree bt c m arr htree hbt hcs hm harr
  have hbound : ∀ u : BTree, Occurs u bt → ∀ j ∈ u.leafList, j < arr.length := by
    intro u hu j hj
    have hj2 := occurs_leaf_mem hu hj
    have hj3 := hw.1.mem_iff.mp hj2
    rw [List.mem_range] at hj3
    omega
  have hcl_a : cutLookup c l = some a := by
    rw [← hans]
    exact mem_cutLookup (Cut.pairwise_disjoint hn hcut) hane hul
  have hcl_b : cutLookup c r = some b := by
    rw [← hbns]
    exact mem_cutLookup (Cut.pairwise_disjoint hn hcut) hbne hur
  obtain ⟨va, hva⟩ := treeVal_isSome contract tree arr a (hbound a hoa)
  obtain ⟨vb, hvb⟩ := treeVal_isSome contract tree arr b (hbound b hob)
  have hml : dictGet m l = some va := by
    rw [hlook l, hcl_a]
    exact hva
  have hm1r : dictGet (dictPop m l) r = some vb := by
    rw [dictGet_dictPop_ne _ _ _ (Ne.symm hlr), hlook r, hcl_b]
    exact hvb
  -- the updated map of tree i, described pointwise
  have hmn1 : keysNodup (dictPop m l) := keysNodup_dictPop _ hmn
  have hm2 : ∀ n, dictGet (dictSet (dictPop (dictPop m l) r) p res) n =
      if n = p then some res else if n = l ∨ n = r then none else dictGet m n := by
    intro n
    by_cases hnp : n = p
    · rw [hnp, dictGet_dictSet_self, if_pos rfl]
    · rw [dictGet_dictSet_ne _ _ _ _ hnp, if_neg hnp]
      by_cases hnl : n = l
      · subst hnl
        rw [if_pos (Or.inl rfl), dictGet_dictPop_ne _ _ _ hlr, dictGet_dictPop_self _ hmn]
      · by_cases hnr : n = r
        · subst hnr
          rw [if_pos (Or.inr rfl), dictGet_dictPop_self _ hmn1]
        · rw [if_neg (fun hh => hh.elim hnl hnr), dictGet_dictPop_ne _ _ _ hnr,
            dictGet_dictPop_ne _ _ _ hnl]
  -- the new cut for tree i
  obtain ⟨c', hcut', hclen', hcmem'⟩ := hcut.surgery hn ho hul hur
  have hpair' := Cut.pairwise_disjoint hn hcut'
  have hu_c' : BTree.node a b ∈ c' := (hcmem' _).mpr (Or.inr rfl)
  have hns_u : (BTree.node a b).ns = p := by
    rw [hpns]
    rfl
  have hlook' : ∀ n, dictGet (dictSet (dictPop (dictPop m l) r) p res) n =
      (cutLookup c' n).bind (treeVal contract tree arr) := by
    intro n
    rw [hm2 n]
    by_cases hnp : n = p
    · subst hnp
      rw [if_pos rfl]
      have hcp : cutLookup c' n = some (BTree.node a b) := by
        have h1 := mem_cutLookup hpair' (BTree.ns_nonempty _) hu_c'
        rw [hns_u] at h1
        exact h1
      rw [hcp]
      exact hval.symm
    · rw [if_neg hnp]
      by_cases hnlr : n = l ∨ n = r
      · rw [if_pos hnlr]
        have hcn : cutLookup c' n = none := by
          rw [cutLookup_eq_none_iff]
          intro x hx hxns
          rcases (hcmem' x).mp hx with ⟨hxc, hxa, hxb⟩ | rfl
          · rcases hnlr with rfl | rfl
            · exact hxa (ns_inj hn (hcut.mem_occurs hxc) hoa (by rw [hxns, ← hans]))
            · exact hxb (ns_inj hn (hcut.mem_occurs hxc) hob (by rw [hxns, ← hbns]))
          · rw [hns_u] at hxns
            exact hnp hxns.symm
        rw [hcn]
        rfl
      · push_neg at hnlr
        rw [if_neg (fun hh => hh.elim hnlr.1 hnlr.2)]
        have hsame : cutLookup c' n = cutLookup c n := by
          cases hcn : cutLookup c n with
          | some u =>
            obtain ⟨huc, huns⟩ := cutLookup_some hcn
            have hu_a : u ≠ a := by
              rintro rfl
              exact hnlr.1 (by rw [← huns, hans])
            have hu_b : u ≠ b := by
              rintro rfl
              exact hnlr.2 (by rw [← huns, hbns])
            have h1 := mem_cutLookup hpair'
              (by
                obtain ⟨j, hj⟩ := BTree.ns_nonempty u
                exact ⟨j, hj⟩)
              ((hcmem' u).mpr (Or.inl ⟨huc, hu_a, hu_b⟩))
            rw [huns] at h1
            exact h1
          | none =>
            rw [cutLookup_eq_none_iff] at hcn ⊢
            intro x hx
            rcases (hcmem' x).mp hx with ⟨hxc, -, -⟩ | rfl
            · exact hcn x hxc
            · rw [hns_u]
              exact fun hh => hnp hh.symm
        rw [hsame, hlook n]
  -- shared bookkeeping facts
  have hclen_lt : i < cs.length := get?_some_lt hcs
  have hact_lt : i < st.active.length := get?_some_lt hm
  have hparents : (trees.map fun tree => derive_parent tree.children).get? i =
      some (derive_parent tree.children) := by
    rw [List.get?_map, htree]
    rfl
  have hp_inactive : ∀ z ∈ c, z.ns ≠ p := by
    intro z hz hzp
    have hz2 : z = BTree.node a b := ns_inj hn (hcut.mem_occurs hz) ho (by rw [hzp, hns_u])
    have hne_ua : z ≠ a := by
      intro hh
      exact hpl (by rw [← hzp, hh, hans])
    have hdj := cut_pair hn hcut hz hul hne_ua
    obtain ⟨j, hj⟩ := hane
    refine (Finset.disjoint_right.mp hdj hj) ?_
    rw [hz2]
    exact Finset.mem_union_left _ hj
  have hact' : ∀ w : TNode, (∃ z ∈ c', z.ns = w) ↔
      (((∃ z ∈ c, z.ns = w) ∧ w ≠ l ∧ w ≠ r) ∨ w = p) := by
    intro w
    constructor
    · rintro ⟨z, hz, rfl⟩
      rcases (hcmem' z).mp hz with ⟨hzc, hza, hzb⟩ | rfl
      · refine Or.inl ⟨⟨z, hzc, rfl⟩, ?_, ?_⟩
        · intro hh
          exact hza (ns_inj hn (hcut.mem_occurs hzc) hoa (by rw [hh, hans]))
        · intro hh
          exact hzb (ns_inj hn (hcut.mem_occurs hzc) hob (by rw [hh, hbns]))
      · exact Or.inr hns_u
    · rintro (⟨⟨z, hzc, rfl⟩, hzl, hzr⟩ | rfl)
      · refine ⟨z, (hcmem' z).mpr (Or.inl ⟨hzc, ?_, ?_⟩), rfl⟩
        · rintro rfl
          exact hzl hans
        · rintro rfl
          exact hzr hbns
      · exact ⟨BTree.node a b, hu_c', hns_u⟩
  have hchild_eq : ∀ fa fb : BTree, Occurs (BTree.node fa fb) bt →
      ∀ w, (w = fa.ns ∨ w = fb.ns) → (w = l ∨ w = r) →
      (fa.ns ∪ fb.ns, fa.ns, fb.ns) = ((p, l, r) : TNode × TNode × TNode) := by
    intro fa fb hfo w h1 h2
    have h2' : w = a.ns ∨ w = b.ns := by
      rcases h2 with rfl | rfl
      · exact Or.inl hans.symm
      · exact Or.inr hbns.symm
    have hee := parent_unique hn hfo ho h1 h2'
    injection hee with hA hB
    rw [hA, hB, hpns, hans, hbns]
  have hinst_not : ((i, p, l, r) : Inst) ∉ flatReady st.ready ++ P.map Prod.fst := by
    have hnd := hinv.readyNodup
    rw [List.map_cons] at hnd
    dsimp only at hnd
    intro hq
    rcases List.mem_append.mp hq with h1 | h1
    · exact (List.nodup_append.mp hnd).2.2 h1 (List.mem_cons_self _ _)
    · exact (List.nodup_cons.mp (List.nodup_append.mp hnd).2.1).1 h1
  have hnew_nodup : (flatReady st.ready ++ P.map Prod.fst).Nodup := by
    have hnd := hinv.readyNodup
    rw [List.map_cons] at hnd
    dsimp only at hnd
    rcases List.nodup_append.mp hnd with ⟨h1, h2, h3⟩
    exact List.nodup_append.mpr ⟨h1, (List.nodup_cons.mp h2).2,
      fun q hq hq2 => h3 hq (List.mem_cons_of_mem _ hq2)⟩
  have hmem_split : ∀ q : Inst,
      q ∈ flatReady st.ready ++ (((i, p, l, r), res) :: P).map Prod.fst ↔
      (q ∈ flatReady st.ready ++ P.map Prod.fst ∨ q = ((i, p, l, r) : Inst)) := by
    intro q
    rw [List.map_cons, List.mem_append, List.mem_append, List.mem_cons]
    dsimp only
    constructor
    · rintro (h1 | h1 | h1)
      · exact Or.inl (Or.inl h1)
      · exact Or.inr h1
      · exact Or.inl (Or.inr h1)
    · rintro ((h1 | h1) | h1)
      · exact Or.inl h1
      · exact Or.inr (Or.inr h1)
      · exact Or.inr (Or.inl h1)
  have hperm0 : List.Perm (pendingAll bts cs 0)
      (((i, p, l, r) : Inst) :: pendingAll bts (cs.set i c') 0) := by
    have hpl2 := pendingList_surgery hn hcut ho hul hur hcmem'
    have hh := pendingAll_set bts cs 0 i bt c c' hbt hcs hpl2
    have he : ((0 + i, (a.ns ∪ b.ns, a.ns, b.ns)) : Inst) = ((i, p, l, r) : Inst) := by
      rw [← hpns, hans, hbns, Nat.zero_add]
    rw [he] at hh
    exact hh
  have hq_not_lr : ∀ q : Inst, q.1 = i → (q.2.1, q.2.2.1, q.2.2.2) ∈ bt.internals →
      q ≠ ((i, p, l, r) : Inst) →
      q.2.2.1 ≠ l ∧ q.2.2.1 ≠ r ∧ q.2.2.2 ≠ l ∧ q.2.2.2 ≠ r := by
    intro q hqi hqe hqne
    rcases mem_internals_iff.mp hqe with ⟨fa, fb, hfo, hfe⟩
    have h221 : q.2.2.1 = fa.ns := congrArg (fun t => t.2.1) hfe
    have h222 : q.2.2.2 = fb.ns := congrArg (fun t => t.2.2) hfe
    have hqeq : ∀ w, (w = fa.ns ∨ w = fb.ns) → (w = l ∨ w = r) → False := by
      intro w hw1 hw2
      have hq4 : (q.2.1, q.2.2.1, q.2.2.2) = ((p, l, r) : TNode × TNode × TNode) :=
        hfe.trans (hchild_eq fa fb hfo w hw1 hw2)
      apply hqne
      have hqeta : q = (q.1, q.2.1, q.2.2.1, q.2.2.2) := rfl
      rw [hqeta, hqi]
      exact congrArg (Prod.mk i) hq4
    exact ⟨fun hh => hqeq q.2.2.1 (Or.inl h221) (Or.inl hh),
           fun hh => hqeq q.2.2.1 (Or.inl h221) (Or.inr hh),
           fun hh => hqeq q.2.2.2 (Or.inr h222) (Or.inl hh),
           fun hh => hqeq q.2.2.2 (Or.inr h222) (Or.inr hh)⟩
  rcases occurs_parent ho with hroot | ⟨x, y, hxy, hu_xy⟩
  · -- the promoted node is the root of its tree: nothing is requeued
    have hpbt : p = bt.ns := by
      rw [← hns_u, hroot]
    have hgp : dictGet (derive_parent tree.children) p = none := by
      rw [hpbt]
      exact derive_parent_root hw
    have hq_not_p : ∀ fa fb : BTree, Occurs (BTree.node fa fb) bt →
        fa.ns ≠ p ∧ fb.ns ≠ p := by
      intro fa fb hfo
      have hfn := hfo.nodup hn
      rw [hpbt]
      exact ⟨(Finset.ssubset_of_ssubset_of_subset (child_ns_ssubset_left hfn)
          hfo.ns_subset).ne,
        (Finset.ssubset_of_ssubset_of_subset (child_ns_ssubset_right hfn)
          hfo.ns_subset).ne⟩
    refine ⟨{ ready := st.ready,
              active := st.active.set i (dictSet (dictPop (dictPop m l) r) p res) },
            cs.set i c', ?_, ?_, ?_, ?_⟩
    · unfold promote
      dsimp only
      simp only [hm, hml, hm1r, hparents, hgp]
    · refine { len_cs := ?_, len_active := ?_, cuts := ?_, activeKeys := ?_,
               activeLook := ?_, readyKeys := hinv.readyKeys,
               readyGroups := hinv.readyGroups, readySig := hinv.readySig,
               pendVal := ?_, readyMem := ?_, readyNodup := hnew_nodup }
      · rw [List.length_set]
        exact hinv.len_cs
      · rw [List.length_set]
        exact hinv.len_active
      · intro j btj cj hbj hcj
        by_cases hji : j = i
        · subst hji
          rw [getq_set_self cs j c' hclen_lt] at hcj
          obtain rfl := Option.some.inj hcj
          rw [hbt] at hbj
          obtain rfl := Option.some.inj hbj
          exact hcut'
        · rw [getq_set_ne cs i j c' (fun hh => hji hh.symm)] at hcj
          exact hinv.cuts j btj cj hbj hcj
      · intro j mj hmj
        by_cases hji : j = i
        · subst hji
          rw [getq_set_self st.active j _ hact_lt] at hmj
          obtain rfl := Option.some.inj hmj
          exact keysNodup_dictSet _ _ (keysNodup_dictPop _ (keysNodup_dictPop _ hmn))
        · rw [getq_set_ne st.active i j _ (fun hh => hji hh.symm)] at hmj
          exact hinv.activeKeys j mj hmj
      · intro j treej btj cj mj arrj htj hbj hcj hmj harrj
        by_cases hji : j = i
        · subst hji
          rw [getq_set_self cs j c' hclen_lt] at hcj
          obtain rfl := Option.some.inj hcj
          rw [getq_set_self st.active j _ hact_lt] at hmj
          obtain rfl := Option.some.inj hmj
          rw [htree] at htj
          obtain rfl := Option.some.inj htj
          rw [harr] at harrj
          obtain rfl := Option.some.inj harrj
          exact hlook'
        · rw [getq_set_ne cs i j c' (fun hh => hji hh.symm)] at hcj
          rw [getq_set_ne st.active i j _ (fun hh => hji hh.symm)] at hmj
          exact hinv.activeLook j treej btj cj mj arrj htj hbj hcj hmj harrj
      · intro pe hpe
        exact hinv.pendVal pe (List.mem_cons_of_mem _ hpe)
      · intro q
        constructor
        · intro hq
          have hqold := (hmem_split q).mpr (Or.inl hq)
          obtain ⟨btq, cq, hbq, hcq, hqe, hql', hqr'⟩ := (hinv.readyMem q).mp hqold
          have hqne : q ≠ ((i, p, l, r) : Inst) := by
            rintro rfl
            exact hinst_not hq
          by_cases hqi : q.1 = i
          · rw [hqi] at hbq hcq
            rw [hbt] at hbq
            obtain rfl := Option.some.inj hbq
            rw [hcs] at hcq
            obtain rfl := Option.some.inj hcq
            obtain ⟨hn1, hn2, hn3, hn4⟩ := hq_not_lr q hqi hqe hqne
            refine ⟨bt, c', by rw [hqi]; exact hbt,
              by rw [hqi]; exact getq_set_self cs i c' hclen_lt, hqe, ?_, ?_⟩
            · exact (hact' _).mpr (Or.inl ⟨hql', hn1, hn2⟩)
            · exact (hact' _).mpr (Or.inl ⟨hqr', hn3, hn4⟩)
          · refine ⟨btq, cq, hbq, ?_, hqe, hql', hqr'⟩
            rw [getq_set_ne cs i q.1 c' (fun hh => hqi hh.symm)]
            exact hcq
        · rintro ⟨btq, cq, hbq, hcq, hqe, hql', hqr'⟩
          by_cases hqi : q.1 = i
          · rw [hqi] at hbq hcq
            rw [hbt] at hbq
            obtain rfl := Option.some.inj hbq
            rw [getq_set_self cs i c' hclen_lt] at hcq
            obtain rfl := Option.some.inj hcq
            have hgl := (hact' q.2.2.1).mp hql'
            have hgr := (hact' q.2.2.2).mp hqr'
            rcases mem_internals_iff.mp hqe with ⟨fa, fb, hfo, hfe⟩
            have h221 : q.2.2.1 = fa.ns := congrArg (fun t => t.2.1) hfe
            have h222 : q.2.2.2 = fb.ns := congrArg (fun t => t.2.2) hfe
            have hnp1 : q.2.2.1 ≠ p := by
              rw [h221]
              exact (hq_not_p fa fb hfo).1
            have hnp2 : q.2.2.2 ≠ p := by
              rw [h222]
              exact (hq_not_p fa fb hfo).2
            rcases hgl with ⟨hglc, hgll, hglr⟩ | hglp
            · rcases hgr with ⟨hgrc, hgrl, hgrr⟩ | hgrp
              · have hRq := (hinv.readyMem q).mpr
                  ⟨bt, c, by rw [hqi]; exact hbt, by rw [hqi]; exact hcs, hqe, hglc, hgrc⟩
                rcases (hmem_split q).mp hRq with hq1 | hq1
                · exact hq1
                · exfalso
                  rw [hq1] at hgll
                  exact hgll rfl
              · exact absurd hgrp hnp2
            · exact absurd hglp hnp1
          · rw [getq_set_ne cs i q.1 c' (fun hh => hqi hh.symm)] at hcq
            have hRq := (hinv.readyMem q).mpr ⟨btq, cq, hbq, hcq, hqe, hql', hqr'⟩
            rcases (hmem_split q).mp hRq with hq1 | hq1
            · exact hq1
            · exfalso
              rw [hq1] at hqi
              exact hqi rfl
    · exact cutMeasure_set cs i hcs hclen'
    · exact hperm0
  · -- the promoted node has a parent `BTree.node x y` inside its tree
    have hnxy : (BTree.node x y).leafList.Nodup := hxy.nodup hn
    have hdxy : Disjoint x.ns y.ns := (nodup_node hnxy).2.2
    have hpu : p = (BTree.node a b).ns := by
      rw [hpns]
      rfl
    have hpxy : p = x.ns ∨ p = y.ns := by
      rcases hu_xy with rfl | rfl
      · exact Or.inl hpu
      · exact Or.inr hpu
    have hgp : dictGet (derive_parent tree.children) p = some (x.ns ∪ y.ns) :=
      derive_parent_gp hw hxy hpxy
    have hgc : dictGet tree.children (x.ns ∪ y.ns) = some (x.ns, y.ns) :=
      (wf_dictGet_children hw).mpr (mem_internals_iff.mpr ⟨x, y, hxy, rfl⟩)
    have hm2_iff : ∀ w : TNode,
        ((dictGet (dictSet (dictPop (dictPop m l) r) p res) w).isSome ↔
          ∃ z ∈ c', z.ns = w) := by
      intro w
      rw [hlook' w]
      constructor
      · intro hs
        cases hcl : cutLookup c' w with
        | none =>
          rw [hcl] at hs
          simp at hs
        | some z =>
          obtain ⟨hzc, hzns⟩ := cutLookup_some hcl
          exact ⟨z, hzc, hzns⟩
      · rintro ⟨z, hz, rfl⟩
        rw [mem_cutLookup hpair' (BTree.ns_nonempty z) hz]
        obtain ⟨v, hv⟩ := treeVal_isSome contract tree arr z (hbound z (hcut'.mem_occurs hz))
        have hred : (Option.some z).bind (treeVal contract tree arr) =
            treeVal contract tree arr z := rfl
        rw [hred]
        show (evalTree contract tree.get_einsum_eq arr z).isSome = true
        rw [hv]
        rfl
    have hgp_id : ∀ q : Inst, q.1 = i → (q.2.1, q.2.2.1, q.2.2.2) ∈ bt.internals →
        (q.2.2.1 = p ∨ q.2.2.2 = p) → q = ((i, x.ns ∪ y.ns, x.ns, y.ns) : Inst) := by
      intro q hqi hqe hqp
      rcases mem_internals_iff.mp hqe with ⟨fa, fb, hfo, hfe⟩
      have h221 : q.2.2.1 = fa.ns := congrArg (fun t => t.2.1) hfe
      have h222 : q.2.2.2 = fb.ns := congrArg (fun t => t.2.2) hfe
      have hpfab : p = fa.ns ∨ p = fb.ns := by
        rcases hqp with hh | hh
        · exact Or.inl (by rw [← hh, h221])
        · exact Or.inr (by rw [← hh, h222])
      have hee := parent_unique hn hfo hxy hpfab hpxy
      injection hee with hA hB
      have hq4 : (q.2.1, q.2.2.1, q.2.2.2) =
          ((x.ns ∪ y.ns, x.ns, y.ns) : TNode × TNode × TNode) := by
        rw [hfe, hA, hB]
      have hqeta : q = (q.1, q.2.1, q.2.2.1, q.2.2.2) := rfl
      rw [hqeta, hqi]
      exact congrArg (Prod.mk i) hq4
    by_cases hcond : (∃ z ∈ c', z.ns = x.ns) ∧ (∃ z ∈ c', z.ns = y.ns)
    · -- both grandparent children are active afterwards: the instance is appended
      have hcondB :
          ((dictGet (dictSet (dictPop (dictPop m l) r) p res) x.ns).isSome = true) ∧
          ((dictGet (dictSet (dictPop (dictPop m l) r) p res) y.ns).isSome = true) :=
        ⟨(hm2_iff x.ns).mpr hcond.1, (hm2_iff y.ns).mpr hcond.2⟩
      have hgp_not : ((i, x.ns ∪ y.ns, x.ns, y.ns) : Inst) ∉
          flatReady st.ready ++ P.map Prod.fst := by
        intro hmem
        have h2 := (hmem_split _).mpr (Or.inl hmem)
        obtain ⟨btq, cq, hbq, hcq, hqe, hxa, hya⟩ := (hinv.readyMem _).mp h2
        dsimp only at hbq hcq hxa hya
        rw [hbt] at hbq
        obtain rfl := Option.some.inj hbq
        rw [hcs] at hcq
        obtain rfl := Option.some.inj hcq
        rcases hpxy with hh | hh
        · obtain ⟨z, hz, hzns⟩ := hxa
          exact hp_inactive z hz (hzns.trans hh.symm)
        · obtain ⟨z, hz, hzns⟩ := hya
          exact hp_inactive z hz (hzns.trans hh.symm)
      have hperm_new : List.Perm
          (flatReady (dictAppend st.ready
            (tree.get_einsum_eq (x.ns ∪ y.ns), get_node_shape tree x.ns,
              get_node_shape tree y.ns) (i, x.ns ∪ y.ns, x.ns, y.ns)) ++ P.map Prod.fst)
          (((i, x.ns ∪ y.ns, x.ns, y.ns) : Inst) ::
            (flatReady st.ready ++ P.map Prod.fst)) :=
        (flatReady_dictAppend _ _ _).append_right _
      refine ⟨{ ready := dictAppend st.ready (tree.get_einsum_eq (x.ns ∪ y.ns),
                  get_node_shape tree x.ns, get_node_shape tree y.ns)
                  (i, x.ns ∪ y.ns, x.ns, y.ns),
                active := st.active.set i (dictSet (dictPop (dictPop m l) r) p res) },
              cs.set i c', ?_, ?_, ?_, ?_⟩
      · unfold promote
        dsimp only
        simp only [hm, hml, hm1r, hparents, hgp, htree, extract_signature, hgc]
        rw [if_pos hcondB]
      · refine { len_cs := ?_, len_active := ?_, cuts := ?_, activeKeys := ?_,
                 activeLook := ?_, readyKeys := ?_, readyGroups := ?_, readySig := ?_,
                 pendVal := ?_, readyMem := ?_, readyNodup := ?_ }
        · rw [List.length_set]
          exact hinv.len_cs
        · rw [List.length_set]
          exact hinv.len_active
        · intro j btj cj hbj hcj
          by_cases hji : j = i
          · subst hji
            rw [getq_set_self cs j c' hclen_lt] at hcj
            obtain rfl := Option.some.inj hcj
            rw [hbt] at hbj
            obtain rfl := Option.some.inj hbj
            exact hcut'
          · rw [getq_set_ne cs i j c' (fun hh => hji hh.symm)] at hcj
            exact hinv.cuts j btj cj hbj hcj
        · intro j mj hmj
          by_cases hji : j = i
          · subst hji
            rw [getq_set_self st.active j _ hact_lt] at hmj
            obtain rfl := Option.some.inj hmj
            exact keysNodup_dictSet _ _ (keysNodup_dictPop _ (keysNodup_dictPop _ hmn))
          · rw [getq_set_ne st.active i j _ (fun hh => hji hh.symm)] at hmj
            exact hinv.activeKeys j mj hmj
        · intro j treej btj cj mj arrj htj hbj hcj hmj harrj
          by_cases hji : j = i
          · subst hji
            rw [getq_set_self cs j c' hclen_lt] at hcj
            obtain rfl := Option.some.inj hcj
            rw [getq_set_self st.active j _ hact_lt] at hmj
            obtain rfl := Option.some.inj hmj
            rw [htree] at htj
            obtain rfl := Option.some.inj htj
            rw [harr] at harrj
            obtain rfl := Option.some.inj harrj
            exact hlook'
          · rw [getq_set_ne cs i j c' (fun hh => hji hh.symm)] at hcj
            rw [getq_set_ne st.active i j _ (fun hh => hji hh.symm)] at hmj
            exact hinv.activeLook j treej btj cj mj arrj htj hbj hcj hmj harrj
        · exact keysNodup_dictAppend _ _ hinv.readyKeys
        · exact groups_ne_nil_dictAppend hinv.readyGroups
        · exact mem_dictAppend_prop
            (fun (s : Sig) (inst : Inst) => ∃ tr : CTree, trees.get? inst.1 = some tr ∧
              dictGet tr.children inst.2.1 = some (inst.2.2.1, inst.2.2.2) ∧
              s = (tr.get_einsum_eq inst.2.1, get_node_shape tr inst.2.2.1,
                get_node_shape tr inst.2.2.2))
            hinv.readySig ⟨tree, htree, hgc, rfl⟩
        · intro pe hpe
          exact hinv.pendVal pe (List.mem_cons_of_mem _ hpe)
        · intro q
          rw [hperm_new.mem_iff, List.mem_cons]
          constructor
          · rintro (rfl | hq)
            · exact ⟨bt, c', hbt, getq_set_self cs i c' hclen_lt,
                mem_internals_iff.mpr ⟨x, y, hxy, rfl⟩, hcond.1, hcond.2⟩
            · have hqold := (hmem_split q).mpr (Or.inl hq)
              obtain ⟨btq, cq, hbq, hcq, hqe, hql', hqr'⟩ := (hinv.readyMem q).mp hqold
              have hqne : q ≠ ((i, p, l, r) : Inst) := by
                rintro rfl
                exact hinst_not hq
              by_cases hqi : q.1 = i
              · rw [hqi] at hbq hcq
                rw [hbt] at hbq
                obtain rfl := Option.some.inj hbq
                rw [hcs] at hcq
                obtain rfl := Option.some.inj hcq
                obtain ⟨hn1, hn2, hn3, hn4⟩ := hq_not_lr q hqi hqe hqne
                refine ⟨bt, c', by rw [hqi]; exact hbt,
                  by rw [hqi]; exact getq_set_self cs i c' hclen_lt, hqe, ?_, ?_⟩
                · exact (hact' _).mpr (Or.inl ⟨hql', hn1, hn2⟩)
                · exact (hact' _).mpr (Or.inl ⟨hqr', hn3, hn4⟩)
              · refine ⟨btq, cq, hbq, ?_, hqe, hql', hqr'⟩
                rw [getq_set_ne cs i q.1 c' (fun hh => hqi hh.symm)]
                exact hcq
          · rintro ⟨btq, cq, hbq, hcq, hqe, hql', hqr'⟩
            by_cases hqi : q.1 = i
            · rw [hqi] at hbq hcq
              rw [hbt] at hbq
              obtain rfl := Option.some.inj hbq
              rw [getq_set_self cs i c' hclen_lt] at hcq
              obtain rfl := Option.some.inj hcq
              have hgl := (hact' q.2.2.1).mp hql'
              have hgr := (hact' q.2.2.2).mp hqr'
              by_cases hqp : q.2.2.1 = p ∨ q.2.2.2 = p
              · exact Or.inl (hgp_id q hqi hqe hqp)
              · push_neg at hqp
                rcases hgl with ⟨hglc, hgll, hglr⟩ | hglp
                · rcases hgr with ⟨hgrc, hgrl, hgrr⟩ | hgrp
                  · refine Or.inr ?_
                    have hRq := (hinv.readyMem q).mpr
                      ⟨bt, c, by rw [hqi]; exact hbt, by rw [hqi]; exact hcs, hqe,
                        hglc, hgrc⟩
                    rcases (hmem_split q).mp hRq with hq1 | hq1
                    · exact hq1
                    · exfalso
                      rw [hq1] at hgll
                      exact hgll rfl
                  · exact absurd hgrp hqp.2
                · exact absurd hglp hqp.1
            · refine Or.inr ?_
              rw [getq_set_ne cs i q.1 c' (fun hh => hqi hh.symm)] at hcq
              have hRq := (hinv.readyMem q).mpr ⟨btq, cq, hbq, hcq, hqe, hql', hqr'⟩
              rcases (hmem_split q).mp hRq with hq1 | hq1
              · exact hq1
              · exfalso
                rw [hq1] at hqi
                exact hqi rfl
        · exact hperm_new.nodup_iff.mpr (List.nodup_cons.mpr ⟨hgp_not, hnew_nodup⟩)
      · exact cutMeasure_set cs i hcs hclen'
      · exact hperm0
    · -- the sibling is still pending: nothing is appended
      have hcondB : ¬ (((dictGet (dictSet (dictPop (dictPop m l) r) p res) x.ns).isSome
            = true) ∧
          ((dictGet (dictSet (dictPop (dictPop m l) r) p res) y.ns).isSome = true)) := by
        intro hh
        exact hcond ⟨(hm2_iff x.ns).mp hh.1, (hm2_iff y.ns).mp hh.2⟩
      refine ⟨{ ready := st.ready,
                active := st.active.set i (dictSet (dictPop (dictPop m l) r) p res) },
              cs.set i c', ?_, ?_, ?_, ?_⟩
      · unfold promote
        dsimp only
        simp only [hm, hml, hm1r, hparents, hgp, htree, extract_signature, hgc]
        rw [if_neg hcondB]
      · refine { len_cs := ?_, len_active := ?_, cuts := ?_, activeKeys := ?_,
                 activeLook := ?_, readyKeys := hinv.readyKeys,
                 readyGroups := hinv.readyGroups, readySig := hinv.readySig,
                 pendVal := ?_, readyMem := ?_, readyNodup := hnew_nodup }
        · rw [List.length_set]
          exact hinv.len_cs
        · rw [List.length_set]
          exact hinv.len_active
        · intro j btj cj hbj hcj
          by_cases hji : j = i
          · subst hji
            rw [getq_set_self cs j c' hclen_lt] at hcj
            obtain rfl := Option.some.inj hcj
            rw [hbt] at hbj
            obtain rfl := Option.some.inj hbj
            exact hcut'
          · rw [getq_set_ne cs i j c' (fun hh => hji hh.symm)] at hcj
            exact hinv.cuts j btj cj hbj hcj
        · intro j mj hmj
          by_cases hji : j = i
          · subst hji
            rw [getq_set_self st.active j _ hact_lt] at hmj
            obtain rfl := Option.some.inj hmj
            exact keysNodup_dictSet _ _ (keysNodup_dictPop _ (keysNodup_dictPop _ hmn))
          · rw [getq_set_ne st.active i j _ (fun hh => hji hh.symm)] at hmj
            exact hinv.activeKeys j mj hmj
        · intro j treej btj cj mj arrj htj hbj hcj hmj harrj
          by_cases hji : j = i
          · subst hji
            rw [getq_set_self cs j c' hclen_lt] at hcj
            obtain rfl := Option.some.inj hcj
            rw [getq_set_self st.active j _ hact_lt] at hmj
            obtain rfl := Option.some.inj hmj
            rw [htree] at htj
            obtain rfl := Option.some.inj htj
            rw [harr] at harrj
            obtain rfl := Option.some.inj harrj
            exact hlook'
          · rw [getq_set_ne cs i j c' (fun hh => hji hh.symm)] at hcj
            rw [getq_set_ne st.active i j _ (fun hh => hji hh.symm)] at hmj
            exact hinv.activeLook j treej btj cj mj arrj htj hbj hcj hmj harrj
        · intro pe hpe
          exact hinv.pendVal pe (List.mem_cons_of_mem _ hpe)
        · intro q
          constructor
          · intro hq
            have hqold := (hmem_split q).mpr (Or.inl hq)
            obtain ⟨btq, cq, hbq, hcq, hqe, hql', hqr'⟩ := (hinv.readyMem q).mp hqold
            have hqne : q ≠ ((i, p, l, r) : Inst) := by
              rintro rfl
              exact hinst_not hq
            by_cases hqi : q.1 = i
            · rw [hqi] at hbq hcq
              rw [hbt] at hbq
              obtain rfl := Option.some.inj hbq
              rw [hcs] at hcq
              obtain rfl := Option.some.inj hcq
              obtain ⟨hn1, hn2, hn3, hn4⟩ := hq_not_lr q hqi hqe hqne
              refine ⟨bt, c', by rw [hqi]; exact hbt,
                by rw [hqi]; exact getq_set_self cs i c' hclen_lt, hqe, ?_, ?_⟩
              · exact (hact' _).mpr (Or.inl ⟨hql', hn1, hn2⟩)
              · exact (hact' _).mpr (Or.inl ⟨hqr', hn3, hn4⟩)
            · refine ⟨btq, cq, hbq, ?_, hqe, hql', hqr'⟩
              rw [getq_set_ne cs i q.1 c' (fun hh => hqi hh.symm)]
              exact hcq
          · rintro ⟨btq, cq, hbq, hcq, hqe, hql', hqr'⟩
            by_cases hqi : q.1 = i
            · rw [hqi] at hbq hcq
              rw [hbt] at hbq
              obtain rfl := Option.some.inj hbq
              rw [getq_set_self cs i c' hclen_lt] at hcq
              obtain rfl := Option.some.inj hcq
              have hgl := (hact' q.2.2.1).mp hql'
              have hgr := (hact' q.2.2.2).mp hqr'
              by_cases hqp : q.2.2.1 = p ∨ q.2.2.2 = p
              · exfalso
                have hq2 := hgp_id q hqi hqe hqp
                apply hcond
                rw [hq2] at hql' hqr'
                exact ⟨hql', hqr'⟩
              · push_neg at hqp
                rcases hgl with ⟨hglc, hgll, hglr⟩ | hglp
                · rcases hgr with ⟨hgrc, hgrl, hgrr⟩ | hgrp
                  · have hRq := (hinv.readyMem q).mpr
                      ⟨bt, c, by rw [hqi]; exact hbt, by rw [hqi]; exact hcs, hqe,
                        hglc, hgrc⟩
                    rcases (hmem_split q).mp hRq with hq1 | hq1
                    · exact hq1
                    · exfalso
                      rw [hq1] at hgll
                      exact hgll rfl
                  · exact absurd hgrp hqp.2
                · exact absurd hglp hqp.1
            · rw [getq_set_ne cs i q.1 c' (fun hh => hqi hh.symm)] at hcq
              have hRq := (hinv.readyMem q).mpr ⟨btq, cq, hbq, hcq, hqe, hql', hqr'⟩
              rcases (hmem_split q).mp hRq with hq1 | hq1
              · exact hq1
              · exfalso
                rw [hq1] at hqi
                exact hqi rfl
      · exact cutMeasure_set cs i hcs hclen'
      · exact hperm0

theorem mem_of_mem_dictPop {α β : Type} [DecidableEq α] {m : List (α × β)} {k : α}
    {e : α × β} (h : e ∈ dictPop m k) : e ∈ m := by
  induction m with
  | nil => exact absurd h (List.not_mem_nil e)
  | cons e0 t ih =>
    rw [dictPop] at h
    by_cases h0 : e0.1 = k
    · rw [if_pos h0] at h
      exact List.mem_cons_of_mem _ h
    · rw [if_neg h0] at h
      rcases List.mem_cons.mp h with rfl | h2
      · exact List.mem_cons_self _ _
      · exact List.mem_cons_of_mem _ (ih h2)

theorem length_le_sum_lengths : ∀ (cs : List (List BTree)), (∀ x ∈ cs, 1 ≤ x.length) →
    cs.length ≤ (cs.map List.length).sum := by
  intro cs
  induction cs with
  | nil => intro _; simp
  | cons x t ih =>
    intro h
    rw [List.map_cons, List.sum_cons, List.length_cons]
    have hx := h x (List.mem_cons_self _ _)
    have ht := ih (fun z hz => h z (List.mem_cons_of_mem _ hz))
    omega

theorem sum_lengths_lt : ∀ {cs : List (List BTree)}, (∀ x ∈ cs, 1 ≤ x.length) →
    ∀ {j : ℕ} {c : List BTree}, cs.get? j = some c → 2 ≤ c.length →
    cs.length + 1 ≤ (cs.map List.length).sum := by
  intro cs
  induction cs with
  | nil =>
    intro _ j c hj
    simp at hj
  | cons x t ih =>
    intro h1 j c hj h2
    rw [List.map_cons, List.sum_cons, List.length_cons]
    cases j with
    | zero =>
      obtain rfl := Option.some.inj hj
      have ht := length_le_sum_lengths t (fun z hz => h1 z (List.mem_cons_of_mem _ hz))
      omega
    | succ j0 =>
      have hx := h1 x (List.mem_cons_self _ _)
      have := ih (fun z hz => h1 z (List.mem_cons_of_mem _ hz)) hj h2
      omega

theorem pendingAll_nil_of : ∀ (bts : List BTree) (cs : List (List BTree)) (i0 : ℕ),
    (∀ j bt c, bts.get? j = some bt → cs.get? j = some c → pendingList bt c = []) →
    pendingAll bts cs i0 = [] := by
  intro bts
  induction bts with
  | nil =>
    intro cs i0 _
    cases cs <;> rfl
  | cons bt bts ih =>
    intro cs i0 h
    cases cs with
    | nil => rfl
    | cons c cs =>
      rw [pendingAll, h 0 bt c rfl rfl, List.map_nil, List.nil_append]
      exact ih cs (i0 + 1) (fun j bj cj hbj hcj => h (j + 1) bj cj hbj hcj)

theorem foldPromote_ok {T : Type} {contract : String → T → T → T} {trees : List CTree}
    {bts : List BTree} {arrays : List (List T)}
    (hwf : WfForest trees bts)
    (hlen : List.Forall₂ (fun (arr : List T) (tree : CTree) => arr.length = tree.N)
      arrays trees) :
    ∀ {P : List (Inst × T)} {st : SchedState T} {cs : List (List BTree)},
    LoopInv contract trees bts arrays st cs P →
    ∃ st' cs',
      foldPromote trees (trees.map fun tree => derive_parent tree.children) st P
        = Except.ok st' ∧
      LoopInv contract trees bts arrays st' cs' [] ∧
      cutMeasure cs' + P.length = cutMeasure cs ∧
      List.Perm (pendingAll bts cs 0) (P.map Prod.fst ++ pendingAll bts cs' 0) := by
  intro P
  induction P with
  | nil =>
    intro st cs hinv
    exact ⟨st, cs, rfl, hinv, rfl, by rw [List.map_nil, List.nil_append]⟩
  | cons e P ih =>
    obtain ⟨q, v⟩ := e
    intro st cs hinv
    obtain ⟨st1, cs1, hpr, hinv1, hms1, hpm1⟩ := promote_step hwf hlen hinv
    obtain ⟨st', cs', hfold, hinv', hms', hpm'⟩ := ih hinv1
    refine ⟨st', cs', ?_, hinv', ?_, ?_⟩
    · have hred : foldPromote trees (trees.map fun tree => derive_parent tree.children) st
          ((q, v) :: P)
          = match promote trees (trees.map fun tree => derive_parent tree.children) st q v
            with
            | .error err => .error err
            | .ok st1 =>
                foldPromote trees (trees.map fun tree => derive_parent tree.children) st1 P
            := rfl
      rw [hred, hpr]
      exact hfold
    · rw [List.length_cons]
      omega
    · exact hpm1.trans (hpm'.cons q)

theorem loopStuck {T : Type} {contract : String → T → T → T} {trees : List CTree}
    {bts : List BTree} {arrays : List (List T)}
    (hwf : WfForest trees bts)
    (hlen : List.Forall₂ (fun (arr : List T) (tree : CTree) => arr.length = tree.N)
      arrays trees)
    {st : SchedState T} {cs : List (List BTree)}
    (hinv : LoopInv contract trees bts arrays st cs [])
    (hany : st.ready.any (fun e => !e.2.isEmpty) = false) :
    (∀ j bt, bts.get? j = some bt → cs.get? j = some [bt]) ∧
    (∀ j tree bt arr, trees.get? j = some tree → bts.get? j = some bt →
      arrays.get? j = some arr →
      ∃ v, st.active.get? j = some [(bt.ns, v)] ∧ treeVal contract tree arr bt = some v) ∧
    pendingAll bts cs 0 = [] := by
  have hgroups : ∀ e ∈ st.ready, e.2 = [] := by
    intro e he
    have h2 := (List.any_eq_false.mp hany) e he
    cases hh : e.2 with
    | nil => rfl
    | cons z zt =>
      exfalso
      apply h2
      rw [hh]
      rfl
  have hflat : flatReady st.ready = [] := by
    rw [flatReady, List.flatten_eq_nil_iff]
    intro l hl
    rw [List.mem_map] at hl
    obtain ⟨e, he, hrfl⟩ := hl
    rw [← hrfl]
    exact hgroups e he
  have hnone : ∀ q : Inst, q ∉ flatReady st.ready ++ ([] : List (Inst × T)).map Prod.fst := by
    rw [hflat]
    intro q hq
    simp at hq
  have hcuts : ∀ j bt, bts.get? j = some bt → cs.get? j = some [bt] := by
    intro j bt hbj
    obtain ⟨tree, htj, hw⟩ := forall2_get?_right hwf j bt hbj
    obtain ⟨c, hcj⟩ : ∃ c, cs.get? j = some c :=
      lt_get?_some (by
        rw [hinv.len_cs, hwf.length_eq]
        exact get?_some_lt hbj)
    have hcut := hinv.cuts j bt c hbj hcj
    have hstuck : ∀ a b : BTree, Occurs (BTree.node a b) bt → ¬(a ∈ c ∧ b ∈ c) := by
      rintro a b ho ⟨ha, hb⟩
      refine hnone (j, a.ns ∪ b.ns, a.ns, b.ns) ?_
      refine (hinv.readyMem _).mpr ⟨bt, c, hbj, hcj, ?_, ⟨a, ha, rfl⟩, ⟨b, hb, rfl⟩⟩
      exact mem_internals_iff.mpr ⟨a, b, ho, rfl⟩
    rw [hcut.stuck (wf_nodup hw) hstuck] at hcj
    exact hcj
  refine ⟨hcuts, ?_, ?_⟩
  · intro j tree bt arr htj hbj harj
    obtain ⟨tree2, htj2, hw⟩ := forall2_get?_right hwf j bt hbj
    rw [htj] at htj2
    obtain rfl := Option.some.inj htj2
    obtain ⟨m, hm⟩ : ∃ m, st.active.get? j = some m :=
      lt_get?_some (by
        rw [hinv.len_active]
        exact get?_some_lt htj)
    have hcj := hcuts j bt hbj
    have hmn := hinv.activeKeys j m hm
    have hlook := hinv.activeLook j tree bt [bt] m arr htj hbj hcj hm harj
    obtain ⟨tree3, htj3, hlen_j⟩ := forall2_get?_left hlen j arr harj
    rw [htj] at htj3
    obtain rfl := Option.some.inj htj3
    have hbound : ∀ i ∈ bt.leafList, i < arr.length := by
      intro i hi
      have h2 := hw.1.mem_iff.mp hi
      rw [List.mem_range] at h2
      omega
    obtain ⟨v, hv⟩ := treeVal_isSome contract tree arr bt hbound
    refine ⟨v, ?_, hv⟩
    have hmv : dictGet m bt.ns = some v := by
      rw [hlook bt.ns, cutLookup_cons, if_pos rfl]
      exact hv
    have hmnone : ∀ n, n ≠ bt.ns → dictGet m n = none := by
      intro n hne
      rw [hlook n, cutLookup_cons, if_neg (fun hh => hne hh.symm)]
      rfl
    rw [eq_singleton_of_dictGet hmn hmv hmnone] at hm
    exact hm
  · refine pendingAll_nil_of bts cs 0 ?_
    intro j bt c hbj hcj
    rw [hcuts j bt hbj] at hcj
    obtain rfl := Option.some.inj hcj
    exact pendingList_root bt

theorem schedLoop_ok {T : Type} {contract : String → T → T → T} {trees : List CTree}
    {bts : List BTree} {arrays : List (List T)}
    (hwf : WfForest trees bts)
    (hlen : List.Forall₂ (fun (arr : List T) (tree : CTree) => arr.length = tree.N)
      arrays trees) :
    ∀ (fuel : ℕ) {st : SchedState T} {cs : List (List BTree)},
    LoopInv contract trees bts arrays st cs [] →
    cutMeasure cs ≤ fuel + trees.length →
    ∃ stf trace,
      schedLoop trees (trees.map fun tree => derive_parent tree.children) contract fuel st
        = Except.ok (stf, trace) ∧
      (∀ j tree bt arr, trees.get? j = some tree → bts.get? j = some bt →
        arrays.get? j = some arr →
        ∃ v, stf.active.get? j = some [(bt.ns, v)] ∧
          treeVal contract tree arr bt = some v) ∧
      stf.active.length = trees.length ∧
      List.Perm (pendingAll bts cs 0) trace := by
  intro fuel
  induction fuel with
  | zero =>
    intro st cs hinv hfuel
    cases hany : st.ready.any (fun e => !e.2.isEmpty) with
    | false =>
      obtain ⟨hcuts, hfin, hpend⟩ := loopStuck hwf hlen hinv hany
      refine ⟨st, [], ?_, hfin, hinv.len_active, by rw [hpend]⟩
      rw [schedLoop, hany, if_neg Bool.false_ne_true]
    | true =>
      exfalso
      obtain ⟨e, he, hne⟩ : ∃ e ∈ st.ready, e.2 ≠ [] := by
        rw [List.any_eq_true] at hany
        obtain ⟨e, he, h2⟩ := hany
        refine ⟨e, he, ?_⟩
        intro hh
        rw [hh] at h2
        simp at h2
      obtain ⟨q, hq⟩ := List.exists_mem_of_ne_nil e.2 hne
      have hqf : q ∈ flatReady st.ready ++ ([] : List (Inst × T)).map Prod.fst := by
        rw [List.map_nil, List.append_nil, flatReady]
        exact List.mem_flatten.mpr ⟨e.2, List.mem_map_of_mem Prod.snd he, hq⟩
      obtain ⟨bt, c, hbq, hcq, hqe, ⟨za, hza, hzans⟩, ⟨zb, hzb, hzbns⟩⟩ :=
        (hinv.readyMem q).mp hqf
      obtain ⟨tree, htq, hw⟩ := forall2_get?_right hwf q.1 bt hbq
      have hn := wf_nodup hw
      rcases mem_internals_iff.mp hqe with ⟨fa, fb, hfo, hfe⟩
      have h221 : q.2.2.1 = fa.ns := congrArg (fun t => t.2.1) hfe
      have h222 : q.2.2.2 = fb.ns := congrArg (fun t => t.2.2) hfe
      have hdab : Disjoint fa.ns fb.ns := (nodup_node (hfo.nodup hn)).2.2
      have hzab : za ≠ zb := by
        rintro rfl
        have hfafb : fa.ns = fb.ns := by
          rw [← h221, ← hzans, hzbns, h222]
        obtain ⟨i1, hi1⟩ := BTree.ns_nonempty fa
        exact (Finset.disjoint_left.mp hdab hi1) (hfafb ▸ hi1)
      have h2le : 2 ≤ c.length := by
        obtain ⟨i1, hi1⟩ := List.mem_iff_get.mp hza
        obtain ⟨i2, hi2⟩ := List.mem_iff_get.mp hzb
        have hne12 : i1.val ≠ i2.val := by
          intro hh
          apply hzab
          rw [← hi1, ← hi2]
          congr 1
          exact Fin.ext hh
        have hl1 := i1.isLt
        have hl2 := i2.isLt
        omega
      have h1 : ∀ x ∈ cs, 1 ≤ x.length := by
        intro xc hxc
        obtain ⟨jx, hjx⟩ := List.mem_iff_get.mp hxc
        have hjx2 : cs.get? jx.val = some xc := by
          rw [List.get?_eq_get jx.isLt, hjx]
        obtain ⟨btx, hbtx⟩ : ∃ btx, bts.get? jx.val = some btx :=
          lt_get?_some (by
            rw [← hwf.length_eq, ← hinv.len_cs]
            exact jx.isLt)
        have hcutx := hinv.cuts _ _ _ hbtx hjx2
        exact List.length_pos.mpr hcutx.ne_nil
      have hms : cs.length + 1 ≤ (cs.map List.length).sum := sum_lengths_lt h1 hcq h2le
      have hms2 : trees.length + 1 ≤ cutMeasure cs := by
        rw [← hinv.len_cs]
        exact hms
      omega
  | succ fuel ih =>
    intro st cs hinv hfuel
    cases hany : st.ready.any (fun e => !e.2.isEmpty) with
    | false =>
      obtain ⟨hcuts, hfin, hpend⟩ := loopStuck hwf hlen hinv hany
      refine ⟨st, [], ?_, hfin, hinv.len_active, by rw [hpend]⟩
      rw [schedLoop, hany, if_neg Bool.false_ne_true]
    | true =>
      have hrne : st.ready ≠ [] := by
        intro hh
        rw [hh] at hany
        simp at hany
      obtain ⟨sig, g, hpop, hmem_sg, hmax⟩ := popLargestGroup_spec hrne
      have hgne : g ≠ [] := hinv.readyGroups (sig, g) hmem_sg
      have hready_q : ∀ q ∈ g,
          q ∈ flatReady st.ready ++ ([] : List (Inst × T)).map Prod.fst := by
        intro q hq
        rw [List.map_nil, List.append_nil, flatReady]
        exact List.mem_flatten.mpr ⟨g, List.mem_map_of_mem Prod.snd hmem_sg, hq⟩
      have hqdata : ∀ q ∈ g, ∃ va vb,
          (st.active.get? q.1).bind (fun m => dictGet m q.2.2.1) = some va ∧
          (st.active.get? q.1).bind (fun m => dictGet m q.2.2.2) = some vb := by
        intro q hq
        obtain ⟨bt, c, hbq, hcq, hqe, ⟨za, hza, hzans⟩, ⟨zb, hzb, hzbns⟩⟩ :=
          (hinv.readyMem q).mp (hready_q q hq)
        obtain ⟨tree, htq, hw⟩ := forall2_get?_right hwf q.1 bt hbq
        have hn := wf_nodup hw
        have hcut := hinv.cuts q.1 bt c hbq hcq
        obtain ⟨m, hm⟩ : ∃ m, st.active.get? q.1 = some m :=
          lt_get?_some (by
            rw [hinv.len_active]
            exact get?_some_lt htq)
        obtain ⟨arr, harr⟩ : ∃ arr, arrays.get? q.1 = some arr :=
          lt_get?_some (by
            rw [hlen.length_eq]
            exact get?_some_lt htq)
        have hlook := hinv.activeLook q.1 tree bt c m arr htq hbq hcq hm harr
        have hbound : ∀ u : BTree, Occurs u bt → ∀ j ∈ u.leafList, j < arr.length := by
          obtain ⟨treeC, htc, hlenq⟩ := forall2_get?_left hlen q.1 arr harr
          rw [htq] at htc
          obtain rfl := Option.some.inj htc
          intro u hu j hj
          have hj2 := occurs_leaf_mem hu hj
          have hj3 := hw.1.mem_iff.mp hj2
          rw [List.mem_range] at hj3
          omega
        have hcl_a : cutLookup c q.2.2.1 = some za := by
          rw [← hzans]
          exact mem_cutLookup (Cut.pairwise_disjoint hn hcut) (BTree.ns_nonempty za) hza
        have hcl_b : cutLookup c q.2.2.2 = some zb := by
          rw [← hzbns]
          exact mem_cutLookup (Cut.pairwise_disjoint hn hcut) (BTree.ns_nonempty zb) hzb
        obtain ⟨va, hva⟩ := treeVal_isSome contract tree arr za
          (hbound za (hcut.mem_occurs hza))
        obtain ⟨vb, hvb⟩ := treeVal_isSome contract tree arr zb
          (hbound zb (hcut.mem_occurs hzb))
        refine ⟨va, vb, ?_, ?_⟩
        · rw [hm]
          show dictGet m q.2.2.1 = some va
          rw [hlook _, hcl_a]
          exact hva
        · rw [hm]
          show dictGet m q.2.2.2 = some vb
          rw [hlook _, hcl_b]
          exact hvb
      have hqL : ∀ q ∈ g, ∃ v,
          (st.active.get? q.1).bind (fun m => dictGet m q.2.2.1) = some v := by
        intro q hq
        obtain ⟨va, vb, h1, h2⟩ := hqdata q hq
        exact ⟨va, h1⟩
      have hqR : ∀ q ∈ g, ∃ v,
          (st.active.get? q.1).bind (fun m => dictGet m q.2.2.2) = some v := by
        intro q hq
        obtain ⟨va, vb, h1, h2⟩ := hqdata q hq
        exact ⟨vb, h2⟩
      obtain ⟨ls, hlseq, hlsf⟩ := gatherLeft_some hqL
      obtain ⟨rs, hrseq, hrsf⟩ := gatherRight_some hqR
      have hlen_rs : (List.zipWith (contract sig.1) ls rs).length = g.length := by
        rw [List.length_zipWith, ← hlsf.length_eq, ← hrsf.length_eq, Nat.min_self]
      have hmapfst : (g.zip (List.zipWith (contract sig.1) ls rs)).map Prod.fst = g :=
        List.map_fst_zip g _ (le_of_eq hlen_rs.symm)
      have hPlen : (g.zip (List.zipWith (contract sig.1) ls rs)).length = g.length := by
        rw [List.length_zip, hlen_rs, Nat.min_self]
      have hF2 : List.Forall₂ (fun (q : Inst) (d : T) => ∃ x y,
          ((st.active.get? q.1).bind fun m => dictGet m q.2.2.1) = some x ∧
          ((st.active.get? q.1).bind fun m => dictGet m q.2.2.2) = some y ∧
          d = contract sig.1 x y) g (List.zipWith (contract sig.1) ls rs) :=
        forall2_zipWith hlsf hrsf
      have hmemzip := forall2_mem_zip hF2
      have hperm2 : List.Perm (flatReady (dictPop st.ready sig) ++ g) (flatReady st.ready) :=
        (List.perm_append_comm).trans (flatReady_dictPop hinv.readyKeys hmem_sg).symm
      have hnd0 : (flatReady st.ready).Nodup := by
        have h0 := hinv.readyNodup
        rw [List.map_nil, List.append_nil] at h0
        exact h0
      have hinv2 : LoopInv contract trees bts arrays
          { ready := dictPop st.ready sig, active := st.active } cs
          (g.zip (List.zipWith (contract sig.1) ls rs)) := by
        refine { len_cs := hinv.len_cs, len_active := hinv.len_active, cuts := hinv.cuts,
                 activeKeys := hinv.activeKeys, activeLook := hinv.activeLook,
                 readyKeys := keysNodup_dictPop _ hinv.readyKeys,
                 readyGroups := fun e he => hinv.readyGroups e (mem_of_mem_dictPop he),
                 readySig := fun e he => hinv.readySig e (mem_of_mem_dictPop he),
                 pendVal := ?_, readyMem := ?_, readyNodup := ?_ }
        · intro pe hpe
          obtain ⟨x, y, hLx, hRy, hpe2⟩ := hmemzip pe hpe
          have hqg : pe.1 ∈ g := (List.of_mem_zip hpe).1
          obtain ⟨bt, c, hbq, hcq, hqe, ⟨za, hza, hzans⟩, ⟨zb, hzb, hzbns⟩⟩ :=
            (hinv.readyMem pe.1).mp (hready_q pe.1 hqg)
          obtain ⟨tree, htq, hw⟩ := forall2_get?_right hwf pe.1.1 bt hbq
          have hn := wf_nodup hw
          have hcut := hinv.cuts pe.1.1 bt c hbq hcq
          obtain ⟨m, hm⟩ : ∃ m, st.active.get? pe.1.1 = some m :=
            lt_get?_some (by
              rw [hinv.len_active]
              exact get?_some_lt htq)
          obtain ⟨arr, harr⟩ : ∃ arr, arrays.get? pe.1.1 = some arr :=
            lt_get?_some (by
              rw [hlen.length_eq]
              exact get?_some_lt htq)
          have hlook := hinv.activeLook pe.1.1 tree bt c m arr htq hbq hcq hm harr
          rcases mem_internals_iff.mp hqe with ⟨fa, fb, hfo, hfe⟩
          have h21 : pe.1.2.1 = fa.ns ∪ fb.ns := congrArg (fun t => t.1) hfe
          have h221 : pe.1.2.2.1 = fa.ns := congrArg (fun t => t.2.1) hfe
          have h222 : pe.1.2.2.2 = fb.ns := congrArg (fun t => t.2.2) hfe
          have hofa : Occurs fa bt := (Occurs.left (Occurs.refl fa)).trans hfo
          have hofb : Occurs fb bt := (Occurs.right (Occurs.refl fb)).trans hfo
          obtain rfl : fa = za :=
            (ns_inj hn (hcut.mem_occurs hza) hofa (by rw [hzans, h221])).symm
          obtain rfl : fb = zb :=
            (ns_inj hn (hcut.mem_occurs hzb) hofb (by rw [hzbns, h222])).symm
          rw [hm] at hLx hRy
          have hLx2 : dictGet m pe.1.2.2.1 = some x := hLx
          have hRy2 : dictGet m pe.1.2.2.2 = some y := hRy
          rw [hlook pe.1.2.2.1] at hLx2
          rw [hlook pe.1.2.2.2] at hRy2
          have hcl_a : cutLookup c pe.1.2.2.1 = some fa := by
            rw [h221]
            exact mem_cutLookup (Cut.pairwise_disjoint hn hcut) (BTree.ns_nonempty fa) hza
          have hcl_b : cutLookup c pe.1.2.2.2 = some fb := by
            rw [h222]
            exact mem_cutLookup (Cut.pairwise_disjoint hn hcut) (BTree.ns_nonempty fb) hzb
          rw [hcl_a] at hLx2
          rw [hcl_b] at hRy2
          have hvx : evalTree contract tree.get_einsum_eq arr fa = some x := hLx2
          have hvy : evalTree contract tree.get_einsum_eq arr fb = some y := hRy2
          obtain ⟨tr2, htr2, hch2, hsig⟩ := hinv.readySig (sig, g) hmem_sg pe.1 hqg
          rw [htq] at htr2
          obtain rfl := Option.some.inj htr2
          have hsig1 : sig.1 = tree.get_einsum_eq pe.1.2.1 := congrArg Prod.fst hsig
          refine ⟨tree, bt, arr, fa, fb, htq, hbq, harr, hfo, h221.symm, h222.symm, h21,
            ?_⟩
          show evalTree contract tree.get_einsum_eq arr (BTree.node fa fb) = some pe.2
          have hred : evalTree contract tree.get_einsum_eq arr (BTree.node fa fb)
              = match evalTree contract tree.get_einsum_eq arr fa,
                      evalTree contract tree.get_einsum_eq arr fb with
                | some x0, some y0 =>
                    some (contract (tree.get_einsum_eq (fa.ns ∪ fb.ns)) x0 y0)
                | _, _ => none := rfl
          rw [hred, hvx, hvy, hpe2, hsig1, h21]
        · intro q
          have hiff := hinv.readyMem q
          rw [List.map_nil, List.append_nil] at hiff
          show q ∈ flatReady (dictPop st.ready sig)
              ++ (g.zip (List.zipWith (contract sig.1) ls rs)).map Prod.fst ↔ _
          rw [hmapfst, hperm2.mem_iff]
          exact hiff
        · show (flatReady (dictPop st.ready sig)
              ++ (g.zip (List.zipWith (contract sig.1) ls rs)).map Prod.fst).Nodup
          rw [hmapfst]
          exact hperm2.nodup_iff.mpr hnd0
      obtain ⟨st1, cs1, hfold, hinv1, hms1, hpm1⟩ := foldPromote_ok hwf hlen hinv2
      have hglen : 1 ≤ g.length := by
        cases g with
        | nil => exact absurd rfl hgne
        | cons _ _ => exact Nat.succ_le_succ (Nat.zero_le _)
      have hm1 : cutMeasure cs1 ≤ fuel + trees.length := by
        rw [hPlen] at hms1
        omega
      obtain ⟨stf, trace, hloop, hfin, hlenf, hpermf⟩ := ih hinv1 hm1
      refine ⟨stf, (g.zip (List.zipWith (contract sig.1) ls rs)).map Prod.fst ++ trace,
        ?_, hfin, hlenf, ?_⟩
      · have hstep : schedLoop trees (trees.map fun tree => derive_parent tree.children)
            contract (fuel + 1) st
            = match foldPromote trees (trees.map fun tree => derive_parent tree.children)
                { ready := dictPop st.ready sig, active := st.active }
                (g.zip (List.zipWith (contract sig.1) ls rs)) with
              | .error err => .error err
              | .ok st1 =>
                match schedLoop trees (trees.map fun tree => derive_parent tree.children)
                    contract fuel st1 with
                | .error err => .error err
                | .ok (stf, trace) =>
                    .ok (stf, (g.zip (List.zipWith (contract sig.1) ls rs)).map Prod.fst
                      ++ trace) := by
          rw [schedLoop, hany, if_pos rfl, hpop]
          dsimp only
          rw [hlseq, hrseq]
        rw [hstep, hfold]
        dsimp only
        rw [hloop]
      · refine hpm1.trans ?_
        exact List.Perm.append_left _ hpermf

theorem initActiveAll_get?_inv {T : Type} : ∀ {trees : List CTree} {arrays : List (List T)}
    {j : ℕ} {m : List (TNode × T)}, (initActiveAll trees arrays).get? j = some m →
    ∃ tree arr, trees.get? j = some tree ∧ arrays.get? j = some arr ∧
      m = initActive tree arr := by
  intro trees
  induction trees with
  | nil =>
    intro arrays j m h
    cases arrays <;> simp [initActiveAll] at h
  | cons t ts ih =>
    intro arrays j m h
    cases arrays with
    | nil => simp [initActiveAll] at h
    | cons a ar =>
      have hred : initActiveAll (t :: ts) (a :: ar) = initActive t a :: initActiveAll ts ar :=
        rfl
      cases j with
      | zero =>
        rw [hred] at h
        obtain rfl := Option.some.inj h
        exact ⟨t, a, rfl, rfl, rfl⟩
      | succ j0 =>
        rw [hred] at h
        exact ih h

theorem initActiveAll_get?_eq {T : Type} : ∀ {trees : List CTree} {arrays : List (List T)}
    {j : ℕ} {tree : CTree} {arr : List T}, trees.get? j = some tree →
    arrays.get? j = some arr →
    (initActiveAll trees arrays).get? j = some (initActive tree arr) := by
  intro trees
  induction trees with
  | nil =>
    intro arrays j tree arr h1 _
    simp at h1
  | cons t ts ih =>
    intro arrays j tree arr h1 h2
    cases arrays with
    | nil => simp at h2
    | cons a ar =>
      cases j with
      | zero =>
        obtain rfl := Option.some.inj h1
        obtain rfl := Option.some.inj h2
        rfl
      | succ j0 => exact ih h1 h2

theorem initActiveAll_length {T : Type} : ∀ (trees : List CTree) (arrays : List (List T)),
    arrays.length = trees.length → (initActiveAll trees arrays).length = trees.length := by
  intro trees
  induction trees with
  | nil =>
    intro arrays h
    cases arrays with
    | nil => rfl
    | cons a ar => simp at h
  | cons t ts ih =>
    intro arrays h
    cases arrays with
    | nil => simp at h
    | cons a ar =>
      have hred : initActiveAll (t :: ts) (a :: ar) = initActive t a :: initActiveAll ts ar :=
        rfl
      rw [hred, List.length_cons, List.length_cons]
      rw [List.length_cons, List.length_cons] at h
      rw [ih ar (by omega)]

theorem flatReady_initReadyTree_aux {T : Type} (tree : CTree) (i0 : ℕ)
    (act : List (TNode × T)) :
    ∀ (ch : List (TNode × TNode × TNode)) (r0 : List (Sig × List Inst)),
    List.Perm
      (flatReady (ch.foldl
        (fun r e =>
          if (dictGet act e.2.1).isSome ∧ (dictGet act e.2.2).isSome then
            match extract_signature tree e.1 with
            | some s => dictAppend r s (i0, e.1, e.2.1, e.2.2)
            | none => r
          else r) r0))
      ((ch.filter (fun e => (dictGet act e.2.1).isSome && (dictGet act e.2.2).isSome
          && (extract_signature tree e.1).isSome)).map (fun e => (i0, e.1, e.2.1, e.2.2))
        ++ flatReady r0) := by
  intro ch
  induction ch with
  | nil =>
    intro r0
    rw [List.foldl_nil, List.filter_nil, List.map_nil, List.nil_append]
  | cons e ch ih =>
    intro r0
    rw [List.foldl_cons, List.filter_cons]
    by_cases hc : (dictGet act e.2.1).isSome ∧ (dictGet act e.2.2).isSome
    · cases hs : extract_signature tree e.1 with
      | some s =>
        have hcB : ((dictGet act e.2.1).isSome && (dictGet act e.2.2).isSome
            && (some s : Option Sig).isSome) = true := by
          rw [hc.1, hc.2]
          rfl
        rw [if_pos hc, if_pos hcB]
        refine (ih (dictAppend r0 s (i0, e.1, e.2.1, e.2.2))).trans ?_
        refine (List.Perm.append_left _ (flatReady_dictAppend r0 s _)).trans ?_
        rw [List.map_cons]
        exact List.perm_middle
      | none =>
        have hcB : ((dictGet act e.2.1).isSome && (dictGet act e.2.2).isSome
            && (none : Option Sig).isSome) = false := by
          show ((dictGet act e.2.1).isSome && (dictGet act e.2.2).isSome && false) = false
          rw [Bool.and_false]
        rw [if_pos hc, if_neg (by rw [hcB]; exact Bool.false_ne_true)]
        exact ih r0
    · have hcB : ((dictGet act e.2.1).isSome && (dictGet act e.2.2).isSome
          && (extract_signature tree e.1).isSome) = false := by
        cases h1 : (dictGet act e.2.1).isSome with
        | false => rfl
        | true =>
          cases h2 : (dictGet act e.2.2).isSome with
          | false => rfl
          | true => exact absurd ⟨h1, h2⟩ hc
      rw [if_neg hc, if_neg (by rw [hcB]; exact Bool.false_ne_true)]
      exact ih r0

theorem flatReady_initReadyTree {T : Type} (tree : CTree) (i0 : ℕ)
    (act : List (TNode × T)) (r0 : List (Sig × List Inst)) :
    List.Perm (flatReady (initReadyTree tree i0 act r0))
      (initInstsTree tree i0 act ++ flatReady r0) :=
  flatReady_initReadyTree_aux tree i0 act tree.children r0

theorem flatReady_initReadyAll {T : Type} : ∀ (trees : List CTree) (arrays : List (List T))
    (i0 : ℕ) (r0 : List (Sig × List Inst)),
    List.Perm (flatReady (initReadyAll trees arrays i0 r0))
      (initInstsAll trees arrays i0 ++ flatReady r0) := by
  intro trees
  induction trees with
  | nil =>
    intro arrays i0 r0
    cases arrays <;> exact List.Perm.refl _
  | cons t ts ih =>
    intro arrays i0 r0
    cases arrays with
    | nil => exact List.Perm.refl _
    | cons a ar =>
      have hred : initReadyAll (t :: ts) (a :: ar) i0 r0
          = initReadyAll ts ar (i0 + 1) (initReadyTree t i0 (initActive t a) r0) := rfl
      have hred2 : initInstsAll (t :: ts) (a :: ar) i0
          = initInstsTree t i0 (initActive t a) ++ initInstsAll ts ar (i0 + 1) := rfl
      rw [hred, hred2]
      refine (ih ar (i0 + 1) _).trans ?_
      refine (List.Perm.append_left _ (flatReady_initReadyTree t i0 _ r0)).trans ?_
      rw [← List.append_assoc]
      exact List.perm_append_comm.append_right _

theorem initReadyTree_prop {T : Type} (tree : CTree) (i0 : ℕ) (act : List (TNode × T))
    (Q : Sig → Inst → Prop)
    (hnew : ∀ e ∈ tree.children, ∀ s, extract_signature tree e.1 = some s →
      Q s (i0, e.1, e.2.1, e.2.2)) :
    ∀ (r0 : List (Sig × List Inst)), (∀ e ∈ r0, ∀ q ∈ e.2, Q e.1 q) →
    ∀ e ∈ initReadyTree tree i0 act r0, ∀ q ∈ e.2, Q e.1 q := by
  have haux : ∀ (ch : List (TNode × TNode × TNode)), (∀ e ∈ ch, e ∈ tree.children) →
      ∀ (r0 : List (Sig × List Inst)), (∀ e ∈ r0, ∀ q ∈ e.2, Q e.1 q) →
      ∀ e ∈ (ch.foldl
        (fun r e =>
          if (dictGet act e.2.1).isSome ∧ (dictGet act e.2.2).isSome then
            match extract_signature tree e.1 with
            | some s => dictAppend r s (i0, e.1, e.2.1, e.2.2)
            | none => r
          else r) r0), ∀ q ∈ e.2, Q e.1 q := by
    intro ch
    induction ch with
    | nil =>
      intro _ r0 h0
      exact h0
    | cons e ch ih =>
      intro hch r0 h0
      rw [List.foldl_cons]
      by_cases hc : (dictGet act e.2.1).isSome ∧ (dictGet act e.2.2).isSome
      · cases hs : extract_signature tree e.1 with
        | some s =>
          rw [if_pos hc]
          refine ih (fun e2 he2 => hch e2 (List.mem_cons_of_mem _ he2))
            (dictAppend r0 s (i0, e.1, e.2.1, e.2.2)) ?_
          exact mem_dictAppend_prop Q h0 (hnew e (hch e (List.mem_cons_self _ _)) s hs)
        | none =>
          rw [if_pos hc]
          exact ih (fun e2 he2 => hch e2 (List.mem_cons_of_mem _ he2)) r0 h0
      · rw [if_neg hc]
        exact ih (fun e2 he2 => hch e2 (List.mem_cons_of_mem _ he2)) r0 h0
  exact haux tree.children (fun e2 he2 => he2)

theorem initReadyAll_prop {T : Type} (Q : Sig → Inst → Prop) :
    ∀ (trees : List CTree) (arrays : List (List T)) (i0 : ℕ)
      (r0 : List (Sig × List Inst)),
    (∀ k tree arr e s, trees.get? k = some tree → arrays.get? k = some arr →
      e ∈ tree.children → extract_signature tree e.1 = some s →
      Q s (i0 + k, e.1, e.2.1, e.2.2)) →
    (∀ e ∈ r0, ∀ q ∈ e.2, Q e.1 q) →
    ∀ e ∈ initReadyAll trees arrays i0 r0, ∀ q ∈ e.2, Q e.1 q := by
  intro trees
  induction trees with
  | nil =>
    intro arrays i0 r0 _ h0
    cases arrays <;> exact h0
  | cons t ts ih =>
    intro arrays i0 r0 hnew h0
    cases arrays with
    | nil => exact h0
    | cons a ar =>
      have hred : initReadyAll (t :: ts) (a :: ar) i0 r0
          = initReadyAll ts ar (i0 + 1) (initReadyTree t i0 (initActive t a) r0) := rfl
      rw [hred]
      refine ih ar (i0 + 1) _ ?_ ?_
      · intro k tree arr e s h1 h2 h3 h4
        have hq := hnew (k + 1) tree arr e s h1 h2 h3 h4
        rw [show i0 + (k + 1) = i0 + 1 + k from by omega] at hq
        exact hq
      · refine initReadyTree_prop t i0 (initActive t a) Q ?_ r0 h0
        intro e he s hse
        exact hnew 0 t a e s rfl rfl he hse

theorem keysNodup_initReadyTree {T : Type} (tree : CTree) (i0 : ℕ)
    (act : List (TNode × T)) :
    ∀ (r0 : List (Sig × List Inst)), keysNodup r0 → keysNodup (initReadyTree tree i0 act r0)
    := by
  have haux : ∀ (ch : List (TNode × TNode × TNode)) (r0 : List (Sig × List Inst)),
      keysNodup r0 → keysNodup (ch.foldl
        (fun r e =>
          if (dictGet act e.2.1).isSome ∧ (dictGet act e.2.2).isSome then
            match extract_signature tree e.1 with
            | some s => dictAppend r s (i0, e.1, e.2.1, e.2.2)
            | none => r
          else r) r0) := by
    intro ch
    induction ch with
    | nil =>
      intro r0 h0
      exact h0
    | cons e ch ih =>
      intro r0 h0
      rw [List.foldl_cons]
      by_cases hc : (dictGet act e.2.1).isSome ∧ (dictGet act e.2.2).isSome
      · cases hs : extract_signature tree e.1 with
        | some s =>
          rw [if_pos hc]
          exact ih _ (keysNodup_dictAppend _ _ h0)
        | none =>
          rw [if_pos hc]
          exact ih r0 h0
      · rw [if_neg hc]
        exact ih r0 h0
  exact haux tree.children

theorem keysNodup_initReadyAll {T : Type} : ∀ (trees : List CTree)
    (arrays : List (List T)) (i0 : ℕ) (r0 : List (Sig × List Inst)),
    keysNodup r0 → keysNodup (initReadyAll trees arrays i0 r0) := by
  intro trees
  induction trees with
  | nil =>
    intro arrays i0 r0 h0
    cases arrays <;> exact h0
  | cons t ts ih =>
    intro arrays i0 r0 h0
    cases arrays with
    | nil => exact h0
    | cons a ar => exact ih ar (i0 + 1) _ (keysNodup_initReadyTree t i0 _ r0 h0)

theorem groups_initReadyTree {T : Type} (tree : CTree) (i0 : ℕ)
    (act : List (TNode × T)) :
    ∀ (r0 : List (Sig × List Inst)), (∀ e ∈ r0, e.2 ≠ ([] : List Inst)) →
    ∀ e ∈ initReadyTree tree i0 act r0, e.2 ≠ ([] : List Inst) := by
  have haux : ∀ (ch : List (TNode × TNode × TNode)) (r0 : List (Sig × List Inst)),
      (∀ e ∈ r0, e.2 ≠ ([] : List Inst)) →
      ∀ e ∈ (ch.foldl
        (fun r e =>
          if (dictGet act e.2.1).isSome ∧ (dictGet act e.2.2).isSome then
            match extract_signature tree e.1 with
            | some s => dictAppend r s (i0, e.1, e.2.1, e.2.2)
            | none => r
          else r) r0), e.2 ≠ ([] : List Inst) := by
    intro ch
    induction ch with
    | nil =>
      intro r0 h0
      exact h0
    | cons e ch ih =>
      intro r0 h0
      rw [List.foldl_cons]
      by_cases hc : (dictGet act e.2.1).isSome ∧ (dictGet act e.2.2).isSome
      · cases hs : extract_signature tree e.1 with
        | some s =>
          rw [if_pos hc]
          exact ih _ (groups_ne_nil_dictAppend h0)
        | none =>
          rw [if_pos hc]
          exact ih r0 h0
      · rw [if_neg hc]
        exact ih r0 h0
  exact haux tree.children

theorem groups_initReadyAll {T : Type} : ∀ (trees : List CTree)
    (arrays : List (List T)) (i0 : ℕ) (r0 : List (Sig × List Inst)),
    (∀ e ∈ r0, e.2 ≠ ([] : List Inst)) →
    ∀ e ∈ initReadyAll trees arrays i0 r0, e.2 ≠ ([] : List Inst) := by
  intro trees
  induction trees with
  | nil =>
    intro arrays i0 r0 h0
    cases arrays <;> exact h0
  | cons t ts ih =>
    intro arrays i0 r0 h0
    cases arrays with
    | nil => exact h0
    | cons a ar => exact ih ar (i0 + 1) _ (groups_initReadyTree t i0 _ r0 h0)

theorem mem_initInstsTree {T : Type} {tree : CTree} {i0 : ℕ} {act : List (TNode × T)}
    {q : Inst} : q ∈ initInstsTree tree i0 act ↔
    ∃ e ∈ tree.children,
      ((dictGet act e.2.1).isSome && (dictGet act e.2.2).isSome
        && (extract_signature tree e.1).isSome) = true ∧
      q = (i0, e.1, e.2.1, e.2.2) := by
  rw [initInstsTree, List.mem_map]
  constructor
  · rintro ⟨e, he, rfl⟩
    rw [List.mem_filter] at he
    exact ⟨e, he.1, he.2, rfl⟩
  · rintro ⟨e, he, hcond, rfl⟩
    exact ⟨e, List.mem_filter.mpr ⟨he, hcond⟩, rfl⟩

theorem mem_initInstsAll {T : Type} : ∀ {trees : List CTree} {arrays : List (List T)}
    {i0 : ℕ} {q : Inst}, q ∈ initInstsAll trees arrays i0 ↔
    ∃ k tree arr e, trees.get? k = some tree ∧ arrays.get? k = some arr ∧
      e ∈ tree.children ∧
      ((dictGet (initActive tree arr) e.2.1).isSome
        && (dictGet (initActive tree arr) e.2.2).isSome
        && (extract_signature tree e.1).isSome) = true ∧
      q = (i0 + k, e.1, e.2.1, e.2.2) := by
  intro trees
  induction trees with
  | nil =>
    intro arrays i0 q
    cases arrays with
    | nil =>
      simp only [initInstsAll, List.not_mem_nil, false_iff, not_exists]
      rintro k tree arr e ⟨h1, -⟩
      simp at h1
    | cons a ar =>
      simp only [initInstsAll, List.not_mem_nil, false_iff, not_exists]
      rintro k tree arr e ⟨h1, -⟩
      simp at h1
  | cons t ts ih =>
    intro arrays i0 q
    cases arrays with
    | nil =>
      simp only [initInstsAll, List.not_mem_nil, false_iff, not_exists]
      rintro k tree arr e ⟨-, h2, -⟩
      simp at h2
    | cons a ar =>
      have hred : initInstsAll (t :: ts) (a :: ar) i0
          = initInstsTree t i0 (initActive t a) ++ initInstsAll ts ar (i0 + 1) := rfl
      rw [hred, List.mem_append, mem_initInstsTree, ih]
      constructor
      · rintro (⟨e, he, hcond, rfl⟩ | ⟨k, tree, arr, e, h1, h2, h3, h4, rfl⟩)
        · exact ⟨0, t, a, e, rfl, rfl, he, hcond, rfl⟩
        · refine ⟨k + 1, tree, arr, e, h1, h2, h3, h4, ?_⟩
          rw [show i0 + (k + 1) = i0 + 1 + k from by omega]
      · rintro ⟨k, tree, arr, e, h1, h2, h3, h4, rfl⟩
        cases k with
        | zero =>
          obtain rfl := Option.some.inj h1
          obtain rfl := Option.some.inj h2
          exact Or.inl ⟨e, h3, h4, rfl⟩
        | succ k0 =>
          refine Or.inr ⟨k0, tree, arr, e, h1, h2, h3, h4, ?_⟩
          rw [show i0 + 1 + k0 = i0 + (k0 + 1) from by omega]

theorem initInstsTree_nodup {T : Type} {tree : CTree} {i0 : ℕ} {act : List (TNode × T)}
    (hk : keysNodup tree.children) : (initInstsTree tree i0 act).Nodup := by
  rw [initInstsTree]
  have hsub : ((tree.children.filter (fun e => (dictGet act e.2.1).isSome
      && (dictGet act e.2.2).isSome
      && (extract_signature tree e.1).isSome)).map Prod.fst).Sublist
      (tree.children.map Prod.fst) :=
    (List.filter_sublist _).map Prod.fst
  have hfk : ((tree.children.filter (fun e => (dictGet act e.2.1).isSome
      && (dictGet act e.2.2).isSome
      && (extract_signature tree e.1).isSome)).map Prod.fst).Nodup :=
    hk.sublist hsub
  have hfn : (tree.children.filter (fun e => (dictGet act e.2.1).isSome
      && (dictGet act e.2.2).isSome
      && (extract_signature tree e.1).isSome)).Nodup := by
    refine List.Nodup.of_map Prod.fst hfk
  refine List.Nodup.map_on ?_ hfn
  intro x hx y hy hxy
  have h1 : x.1 = y.1 := congrArg (fun t => t.2.1) hxy
  have hinj := List.inj_on_of_nodup_map hfk
  exact hinj hx hy h1

theorem initInstsAll_nodup {T : Type} : ∀ {trees : List CTree} {arrays : List (List T)}
    {i0 : ℕ}, (∀ k tree, trees.get? k = some tree → keysNodup tree.children) →
    (initInstsAll trees arrays i0).Nodup := by
  intro trees
  induction trees with
  | nil =>
    intro arrays i0 _
    cases arrays <;> exact List.nodup_nil
  | cons t ts ih =>
    intro arrays i0 hk
    cases arrays with
    | nil => exact List.nodup_nil
    | cons a ar =>
      have hred : initInstsAll (t :: ts) (a :: ar) i0
          = initInstsTree t i0 (initActive t a) ++ initInstsAll ts ar (i0 + 1) := rfl
      rw [hred, List.nodup_append]
      refine ⟨initInstsTree_nodup (hk 0 t rfl), ih (fun k tree h => hk (k + 1) tree h), ?_⟩
      intro q hq1 hq2
      obtain ⟨e, -, -, rfl⟩ := mem_initInstsTree.mp hq1
      obtain ⟨k, tree, arr, e2, -, -, -, -, hq⟩ := mem_initInstsAll.mp hq2
      have : i0 = i0 + 1 + k := congrArg Prod.fst hq
      omega

theorem init_inv {T : Type} (contract : String → T → T → T) {trees : List CTree}
    {bts : List BTree} {arrays : List (List T)}
    (hwf : WfForest trees bts)
    (hlen : List.Forall₂ (fun (arr : List T) (tree : CTree) => arr.length = tree.N)
      arrays trees) :
    LoopInv contract trees bts arrays (initState trees arrays) (bts.map BTree.leafCut) []
    := by
  have hlook : ∀ j tree bt arr, trees.get? j = some tree → bts.get? j = some bt →
      arrays.get? j = some arr → ∀ n : TNode,
      dictGet (initActive tree arr) n
        = (cutLookup bt.leafCut n).bind (treeVal contract tree arr) := by
    intro j tree bt arr htj hbj harj n
    obtain ⟨tree2, htj2, hw⟩ := forall2_get?_right hwf j bt hbj
    rw [htj] at htj2
    obtain rfl := Option.some.inj htj2
    by_cases hsing : ∃ jj : ℕ, n = {jj}
    · obtain ⟨jj, rfl⟩ := hsing
      rw [dictGet_initActive_singleton]
      by_cases hjn : jj < tree.N
      · rw [if_pos hjn]
        have hjmem : jj ∈ bt.leafList := hw.1.mem_iff.mpr (List.mem_range.mpr hjn)
        rw [cutLookup_leafCut hjmem]
        rfl
      · rw [if_neg hjn]
        have hjmem : jj ∉ bt.leafList := by
          intro hmem
          exact hjn (List.mem_range.mp (hw.1.mem_iff.mp hmem))
        rw [cutLookup_leafCut_not_leaf hjmem]
        rfl
    · push_neg at hsing
      rw [dictGet_initActive_nonsingleton tree arr hsing, cutLookup_leafCut_none hsing]
      rfl
  have hact_iff : ∀ j tree bt arr, trees.get? j = some tree → bts.get? j = some bt →
      arrays.get? j = some arr → ∀ n : TNode,
      ((dictGet (initActive tree arr) n).isSome = true ↔ ∃ z ∈ bt.leafCut, z.ns = n) := by
    intro j tree bt arr htj hbj harj n
    rw [hlook j tree bt arr htj hbj harj n]
    constructor
    · intro hs
      cases hcl : cutLookup bt.leafCut n with
      | none =>
        rw [hcl] at hs
        simp at hs
      | some z =>
        obtain ⟨hz, hzn⟩ := cutLookup_some hcl
        exact ⟨z, hz, hzn⟩
    · rintro ⟨z, hz, rfl⟩
      obtain ⟨jj, hjj, rfl⟩ := leafCut_mem.mp hz
      have hns : (BTree.leaf jj).ns = ({jj} : Finset ℕ) := rfl
      rw [hns, cutLookup_leafCut hjj]
      obtain ⟨tree2, htj2, hw⟩ := forall2_get?_right hwf j bt hbj
      rw [htj] at htj2
      obtain rfl := Option.some.inj htj2
      obtain ⟨tree3, htj3, hlenj⟩ := forall2_get?_left hlen j arr harj
      rw [htj] at htj3
      obtain rfl := Option.some.inj htj3
      have hjlt : jj < arr.length := by
        have h2 := hw.1.mem_iff.mp hjj
        rw [List.mem_range] at h2
        omega
      obtain ⟨v, hv⟩ : ∃ v, arr.get? jj = some v := lt_get?_some hjlt
      show (arr.get? jj).isSome = true
      rw [hv]
      rfl
  refine { len_cs := ?_, len_active := ?_, cuts := ?_, activeKeys := ?_, activeLook := ?_,
           readyKeys := ?_, readyGroups := ?_, readySig := ?_, pendVal := ?_,
           readyMem := ?_, readyNodup := ?_ }
  · rw [List.length_map]
    exact hwf.length_eq.symm
  · exact initActiveAll_length trees arrays hlen.length_eq
  · intro i bt c hbt hc
    rw [List.get?_map, hbt] at hc
    obtain rfl := Option.some.inj hc
    exact Cut.leafCut bt
  · intro i m hm
    obtain ⟨tree, arr, -, -, rfl⟩ := initActiveAll_get?_inv hm
    exact keysNodup_initActive tree arr
  · intro j tree bt c m arr htj hbj hcj hmj harj
    rw [List.get?_map, hbj] at hcj
    obtain rfl := Option.some.inj hcj
    obtain ⟨tree2, arr2, htj2, harj2, rfl⟩ := initActiveAll_get?_inv hmj
    rw [htj] at htj2
    obtain rfl := Option.some.inj htj2
    rw [harj] at harj2
    obtain rfl := Option.some.inj harj2
    exact hlook j tree bt arr htj hbj harj
  · exact keysNodup_initReadyAll trees arrays 0 [] List.nodup_nil
  · exact groups_initReadyAll trees arrays 0 [] (fun e he => absurd he (List.not_mem_nil e))
  · refine initReadyAll_prop
      (fun (s : Sig) (q : Inst) => ∃ tree, trees.get? q.1 = some tree ∧
        dictGet tree.children q.2.1 = some (q.2.2.1, q.2.2.2) ∧
        s = (tree.get_einsum_eq q.2.1, get_node_shape tree q.2.2.1,
          get_node_shape tree q.2.2.2))
      trees arrays 0 [] ?_ (fun e he => absurd he (List.not_mem_nil e))
    intro k tree arr e s h1 h2 h3 h4
    obtain ⟨bt, hbk, hw⟩ := forall2_get?_left hwf k tree h1
    have hch : dictGet tree.children e.1 = some e.2 :=
      mem_dictGet (wf_children_keysNodup hw) h3
    have hs : extract_signature tree e.1
        = some (tree.get_einsum_eq e.1, get_node_shape tree e.2.1,
          get_node_shape tree e.2.2) := by
      rw [extract_signature, hch]
    rw [hs] at h4
    refine ⟨tree, ?_, ?_, ?_⟩
    · show trees.get? (0 + k) = some tree
      rw [Nat.zero_add]
      exact h1
    · exact hch
    · exact (Option.some.inj h4).symm
  · intro pe hpe
    exact absurd hpe (List.not_mem_nil pe)
  · intro q
    have hp := flatReady_initReadyAll trees arrays 0 []
    have hmem : q ∈ flatReady (initReadyAll trees arrays 0 [])
        ↔ q ∈ initInstsAll trees arrays 0 := by
      rw [hp.mem_iff]
      rw [show flatReady ([] : List (Sig × List Inst)) = [] from rfl, List.append_nil]
    rw [show (initState trees arrays).ready = initReadyAll trees arrays 0 [] from rfl]
    rw [List.map_nil, List.append_nil, hmem, mem_initInstsAll]
    constructor
    · rintro ⟨k, tree, arr, e, h1, h2, h3, hcond, rfl⟩
      obtain ⟨bt, hbk, hw⟩ := forall2_get?_left hwf k tree h1
      rw [Bool.and_eq_true, Bool.and_eq_true] at hcond
      obtain ⟨⟨hc1, hc2⟩, hc3⟩ := hcond
      refine ⟨bt, bt.leafCut, ?_, ?_, ?_, ?_, ?_⟩
      · show bts.get? (0 + k) = some bt
        rw [Nat.zero_add]
        exact hbk
      · show (bts.map BTree.leafCut).get? (0 + k) = some bt.leafCut
        rw [Nat.zero_add, List.get?_map, hbk]
        rfl
      · exact hw.2.mem_iff.mp h3
      · exact (hact_iff k tree bt arr h1 hbk h2 e.2.1).mp hc1
      · exact (hact_iff k tree bt arr h1 hbk h2 e.2.2).mp hc2
    · rintro ⟨bt, c, hbq, hcq, hqe, hql, hqr⟩
      rw [List.get?_map, hbq] at hcq
      obtain rfl := Option.some.inj hcq
      obtain ⟨tree, htq, hw⟩ := forall2_get?_right hwf q.1 bt hbq
      obtain ⟨arr, harq⟩ : ∃ arr, arrays.get? q.1 = some arr :=
        lt_get?_some (by
          rw [hlen.length_eq]
          exact get?_some_lt htq)
      have he : (q.2.1, q.2.2.1, q.2.2.2) ∈ tree.children := hw.2.mem_iff.mpr hqe
      have hch : dictGet tree.children q.2.1 = some (q.2.2.1, q.2.2.2) :=
        mem_dictGet (wf_children_keysNodup hw) he
      have hsig : extract_signature tree q.2.1
          = some (tree.get_einsum_eq q.2.1, get_node_shape tree q.2.2.1,
            get_node_shape tree q.2.2.2) := by
        rw [extract_signature, hch]
      refine ⟨q.1, tree, arr, (q.2.1, q.2.2.1, q.2.2.2), htq, harq, he, ?_, ?_⟩
      · rw [Bool.and_eq_true, Bool.and_eq_true]
        refine ⟨⟨?_, ?_⟩, ?_⟩
        · exact (hact_iff q.1 tree bt arr htq hbq harq q.2.2.1).mpr hql
        · exact (hact_iff q.1 tree bt arr htq hbq harq q.2.2.2).mpr hqr
        · rw [hsig]
          rfl
      · show q = (0 + q.1, q.2.1, q.2.2.1, q.2.2.2)
        rw [Nat.zero_add]
  · have hp := flatReady_initReadyAll trees arrays 0 []
    rw [show (initState trees arrays).ready = initReadyAll trees arrays 0 [] from rfl,
      List.map_nil, List.append_nil]
    have hp2 : List.Perm (flatReady (initReadyAll trees arrays 0 []))
        (initInstsAll trees arrays 0) := by
      refine hp.trans ?_
      rw [show flatReady ([] : List (Sig × List Inst)) = [] from rfl, List.append_nil]
    refine hp2.nodup_iff.mpr ?_
    refine initInstsAll_nodup ?_
    intro k tree htk
    obtain ⟨bt, hbk, hw⟩ := forall2_get?_left hwf k tree htk
    exact wf_children_keysNodup hw

theorem cutMeasure_leafCuts : ∀ {trees : List CTree} {bts : List BTree},
    WfForest trees bts →
    cutMeasure (bts.map BTree.leafCut) = (trees.map (fun t => t.N)).sum := by
  intro trees bts hwf
  induction hwf with
  | nil => rfl
  | @cons tree bt trees2 bts2 hab htail ih =>
    rw [List.map_cons, List.map_cons, cutMeasure, List.map_cons, List.sum_cons,
      List.sum_cons]
    have h1 : bt.leafCut.length = tree.N := by
      rw [leafCut_length, hab.1.length_eq, List.length_range]
    rw [h1]
    rw [cutMeasure] at ih
    rw [ih]

theorem pendingAll_leafCuts : ∀ (bts : List BTree) (i0 : ℕ),
    (∀ bt ∈ bts, bt.leafList.Nodup) →
    pendingAll bts (bts.map BTree.leafCut) i0 = allInternalInsts bts i0 := by
  intro bts
  induction bts with
  | nil => intro i0 _; rfl
  | cons bt bts ih =>
    intro i0 h
    rw [List.map_cons, pendingAll, allInternalInsts,
      pendingList_leafCut (h bt (List.mem_cons_self _ _)),
      ih (i0 + 1) (fun b hb => h b (List.mem_cons_of_mem _ hb))]

theorem filterMap_all_some {α β : Type} (f : α → Option β) :
    ∀ (l : List α), (∀ x ∈ l, (f x).isSome = true) →
    (l.filterMap f).length = l.length ∧
    ∀ j, (l.filterMap f).get? j = (l.get? j).bind f := by
  intro l
  induction l with
  | nil =>
    intro _
    refine ⟨rfl, fun j => ?_⟩
    cases j <;> rfl
  | cons x t ih =>
    intro h
    obtain ⟨y, hy⟩ : ∃ y, f x = some y := by
      have h1 := h x (List.mem_cons_self _ _)
      cases hf : f x with
      | none =>
        rw [hf] at h1
        exact absurd h1 (by simp)
      | some y => exact ⟨y, rfl⟩
    obtain ⟨ih1, ih2⟩ := ih (fun z hz => h z (List.mem_cons_of_mem _ hz))
    rw [List.filterMap_cons, hy]
    refine ⟨?_, ?_⟩
    · rw [List.length_cons, List.length_cons, ih1]
    · intro j
      cases j with
      | zero =>
        show some y = (some x).bind f
        rw [show (some x).bind f = f x from rfl, hy]
      | succ j0 => exact ih2 j0

theorem batch_contract_ok {T : Type} (contract : String → T → T → T) {trees : List CTree}
    {bts : List BTree} {arrays : List (List T)}
    (hwf : WfForest trees bts)
    (hlen : List.Forall₂ (fun (arr : List T) (tree : CTree) => arr.length = tree.N)
      arrays trees) :
    ∃ results, batch_contract contract trees arrays = Except.ok results ∧
      results.length = trees.length ∧
      ∀ j tree bt arr, trees.get? j = some tree → bts.get? j = some bt →
        arrays.get? j = some arr →
        ∃ v, results.get? j = some v ∧ treeVal contract tree arr bt = some v := by
  have hlen_eq : arrays.length = trees.length := hlen.length_eq
  have hinv0 := init_inv contract hwf hlen
  have hbound : cutMeasure (bts.map BTree.leafCut)
      ≤ (trees.map (fun t => t.N)).sum + 1 + trees.length := by
    rw [cutMeasure_leafCuts hwf]
    omega
  obtain ⟨stf, trace, hloop, hfin, hlenf, hperm⟩ :=
    schedLoop_ok hwf hlen ((trees.map (fun t => t.N)).sum + 1) hinv0 hbound
  have hsingle : ∀ nodes ∈ stf.active, ∃ x, nodes = [x] := by
    intro nodes hnodes
    obtain ⟨j, hj⟩ := List.mem_iff_get.mp hnodes
    have hj2 : stf.active.get? j.val = some nodes := by
      rw [List.get?_eq_get j.isLt, hj]
    have hjlt : j.val < trees.length := by
      have h2 := j.isLt
      omega
    obtain ⟨tree, htj⟩ : ∃ tree, trees.get? j.val = some tree := lt_get?_some hjlt
    obtain ⟨bt, hbj⟩ : ∃ bt, bts.get? j.val = some bt :=
      lt_get?_some (by
        rw [← hwf.length_eq]
        exact hjlt)
    obtain ⟨arr, haj⟩ : ∃ arr, arrays.get? j.val = some arr :=
      lt_get?_some (by
        rw [hlen_eq]
        exact hjlt)
    obtain ⟨v, hm, -⟩ := hfin j.val tree bt arr htj hbj haj
    rw [hj2] at hm
    exact ⟨(bt.ns, v), Option.some.inj hm⟩
  have hall : stf.active.all (fun nodes => nodes.length == 1) = true := by
    rw [List.all_eq_true]
    intro nodes hnodes
    obtain ⟨x, rfl⟩ := hsingle nodes hnodes
    rfl
  have hsome : ∀ nodes ∈ stf.active,
      ((fun (nodes : List (TNode × T)) => nodes.head?.map Prod.snd) nodes).isSome = true
      := by
    intro nodes hnodes
    obtain ⟨x, rfl⟩ := hsingle nodes hnodes
    rfl
  obtain ⟨hflen, hfget⟩ := filterMap_all_some _ stf.active hsome
  refine ⟨stf.active.filterMap (fun nodes => nodes.head?.map Prod.snd), ?_, ?_, ?_⟩
  · unfold batch_contract
    rw [if_neg (by rw [hlen_eq]; exact lt_irrefl _)]
    dsimp only
    rw [hloop]
    dsimp only
    rw [if_pos hall]
  · rw [hflen, hlenf]
  · intro j tree bt arr htj hbj haj
    obtain ⟨v, hm, hv⟩ := hfin j tree bt arr htj hbj haj
    refine ⟨v, ?_, hv⟩
    rw [hfget j, hm]
    rfl

theorem allInternalInsts_length : ∀ {trees : List CTree} {bts : List BTree},
    WfForest trees bts → ∀ i0,
    (allInternalInsts bts i0).length = (trees.map (fun t => t.N - 1)).sum := by
  intro trees bts hwf
  induction hwf with
  | nil => intro i0; rfl
  | @cons tree bt trees2 bts2 hab htail ih =>
    intro i0
    rw [allInternalInsts, List.length_append, List.length_map, List.map_cons,
      List.sum_cons, ih (i0 + 1)]
    have h1 : bt.internals.length + 1 = tree.N := by
      rw [internals_length, hab.1.length_eq, List.length_range]
    omega

theorem allInternalInsts_idx : ∀ {bts : List BTree} {i0 : ℕ} {q : Inst},
    q ∈ allInternalInsts bts i0 → i0 ≤ q.1 := by
  intro bts
  induction bts with
  | nil =>
    intro i0 q h
    exact absurd h (List.not_mem_nil q)
  | cons bt bts ih =>
    intro i0 q h
    rw [allInternalInsts, List.mem_append] at h
    rcases h with h | h
    · obtain ⟨e, -, rfl⟩ := List.mem_map.mp h
      exact Nat.le_refl i0
    · have := ih h
      omega

theorem allInternalInsts_nodup : ∀ {bts : List BTree} {i0 : ℕ},
    (∀ bt ∈ bts, bt.leafList.Nodup) → (allInternalInsts bts i0).Nodup := by
  intro bts
  induction bts with
  | nil =>
    intro i0 _
    exact List.nodup_nil
  | cons bt bts ih =>
    intro i0 h
    rw [allInternalInsts, List.nodup_append]
    refine ⟨?_, ih (fun b hb => h b (List.mem_cons_of_mem _ hb)), ?_⟩
    · refine List.Nodup.map ?_ (internals_nodup (h bt (List.mem_cons_self _ _)))
      intro x y hxy
      exact congrArg Prod.snd hxy
    · intro q hq1 hq2
      obtain ⟨e, -, rfl⟩ := List.mem_map.mp hq1
      have h2 := allInternalInsts_idx hq2
      dsimp only at h2
      omega

theorem foldl_max_facts : ∀ (l : List ℕ) (a : ℕ),
    a ≤ l.foldl max a ∧ ∀ x ∈ l, x ≤ l.foldl max a := by
  intro l
  induction l with
  | nil =>
    intro a
    exact ⟨Nat.le_refl a, fun x hx => absurd hx (List.not_mem_nil x)⟩
  | cons y t ih =>
    intro a
    rw [List.foldl_cons]
    obtain ⟨h1, h2⟩ := ih (max a y)
    refine ⟨le_trans (le_max_left a y) h1, ?_⟩
    intro x hx
    rcases List.mem_cons.mp hx with rfl | hx
    · exact le_trans (le_max_right a x) h1
    · exact h2 x hx

theorem toNat_ofNat_of_lt {n : ℕ} (h : n < 55296) : (Char.ofNat n).toNat = n := by
  have hv : n.isValidChar := Or.inl h
  unfold Char.ofNat
  rw [dif_pos hv]
  rfl

theorem freshBatchChar_not_mem {eq : String}
    (h : ((eq.toList.map Char.toNat).foldl max 0) + 1 < 55296) :
    BatchTn.freshBatchChar eq ∉ eq.toList := by
  intro hmem
  have h1 : (BatchTn.freshBatchChar eq).toNat
      ≤ (eq.toList.map Char.toNat).foldl max 0 :=
    (foldl_max_facts (eq.toList.map Char.toNat) 0).2 _
      (List.mem_map_of_mem Char.toNat hmem)
  rw [BatchTn.freshBatchChar, toNat_ofNat_of_lt h] at h1
  omega

theorem stackOk_eq_false_iff {shapes : List Shape} :
    BatchTn.stackOk shapes = false ↔
    shapes = [] ∨ ∃ a ∈ shapes, ∃ b ∈ shapes, a ≠ b := by
  cases shapes with
  | nil => simp [BatchTn.stackOk]
  | cons s rest =>
    rw [show BatchTn.stackOk (s :: rest) = rest.all (fun x => x == s) from rfl]
    constructor
    · intro h
      obtain ⟨x, hx, hxs⟩ := List.all_eq_false.mp h
      refine Or.inr ⟨x, List.mem_cons_of_mem _ hx, s, List.mem_cons_self _ _, ?_⟩
      intro hh
      exact hxs (by rw [hh]; exact beq_self_eq_true s)
    · rintro (h | ⟨a, ha, b, hb, hab⟩)
      · exact absurd h (List.cons_ne_nil s rest)
      · rw [List.all_eq_false]
        by_cases has : a = s
        · subst has
          have hbr : b ∈ rest := by
            rcases List.mem_cons.mp hb with rfl | hh
            · exact absurd rfl hab
            · exact hh
          refine ⟨b, hbr, ?_⟩
          intro hh
          exact hab (beq_iff_eq.mp hh).symm
        · have har : a ∈ rest := by
            rcases List.mem_cons.mp ha with rfl | hh
            · exact absurd rfl has
            · exact hh
          refine ⟨a, har, ?_⟩
          intro hh
          exact has (beq_iff_eq.mp hh)

theorem wf_replicate {tree : CTree} {bt : BTree} (hw : WfTree tree bt) :
    ∀ n, WfForest (List.replicate n tree) (List.replicate n bt) := by
  intro n
  induction n with
  | zero => exact List.Forall₂.nil
  | succ k ih =>
    rw [List.replicate_succ, List.replicate_succ]
    exact List.Forall₂.cons hw ih

theorem len_replicate {arr : List α} {tree : CTree} (h : arr.length = tree.N) :
    ∀ n, List.Forall₂ (fun (a : List α) (t : CTree) => a.length = t.N)
      (List.replicate n arr) (List.replicate n tree) := by
  intro n
  induction n with
  | zero => exact List.Forall₂.nil
  | succ k ih =>
    rw [List.replicate_succ, List.replicate_succ]
    exact List.Forall₂.cons h ih

theorem eq_replicate_of_get? {α : Type} {v : α} : ∀ {l : List α} {n : ℕ},
    l.length = n → (∀ j, j < n → l.get? j = some v) → l = List.replicate n v := by
  intro l
  induction l with
  | nil =>
    intro n h1 _
    rw [← h1]
    rfl
  | cons x t ih =>
    intro n h1 h2
    cases n with
    | zero => simp at h1
    | succ k =>
      have hx : x = v := by
        have := h2 0 (Nat.succ_pos k)
        exact Option.some.inj this
      rw [List.replicate_succ, hx]
      rw [List.length_cons] at h1
      rw [ih (show t.length = k by omega) (fun j hj => h2 (j + 1) (by omega))]

/-- C10: on the empty input (no trees / no contraction lists and no arrays),
both `batch_contract` implementations return the empty result list without
error. -/
theorem C10_empty_input :
    (∀ (T : Type) (contract : String → T → T → T),
      batch_contract contract [] [] = Except.ok ([] : List T)) ∧
    (∀ (T : Type) (shape : T → Shape) (einsum2 : String → T → T → T),
      BatchTn.batch_contract shape einsum2 [] [] = Except.ok ([] : List T)) :=
  ⟨fun _ _ => rfl, fun _ _ _ => rfl⟩

/-- C1: for every well-formed forest whose arrays match the trees' leaf
counts, the fuelled scheduler loop of `batch_contract` terminates with
`Except.ok`, and the trace of executed instance-promotions is a permutation
of all internal nodes of the forest: its length is the sum over trees of
`N - 1`, and every internal node is promoted exactly once. -/
theorem C1_loop_termination_promotions {T : Type} (contract : String → T → T → T)
    {trees : List CTree} {bts : List BTree} {arrays : List (List T)}
    (hwf : WfForest trees bts)
    (hlen : List.Forall₂ (fun (arr : List T) (tree : CTree) => arr.length = tree.N)
      arrays trees) :
    ∃ stf trace,
      schedLoop trees (trees.map fun tree => derive_parent tree.children) contract
        ((trees.map (fun t => t.N)).sum + 1) (initState trees arrays)
        = Except.ok (stf, trace) ∧
      List.Perm trace (allInternalInsts bts 0) ∧
      trace.length = (trees.map (fun t => t.N - 1)).sum ∧
      trace.Nodup := by
  have hinv0 := init_inv contract hwf hlen
  have hbound : cutMeasure (bts.map BTree.leafCut)
      ≤ (trees.map (fun t => t.N)).sum + 1 + trees.length := by
    rw [cutMeasure_leafCuts hwf]
    omega
  obtain ⟨stf, trace, hloop, -, -, hperm⟩ :=
    schedLoop_ok hwf hlen ((trees.map (fun t => t.N)).sum + 1) hinv0 hbound
  have hnods : ∀ bt ∈ bts, bt.leafList.Nodup := by
    intro bt hbt
    obtain ⟨j, hj⟩ := List.mem_iff_get.mp hbt
    have hj2 : bts.get? j.val = some bt := by
      rw [List.get?_eq_get j.isLt, hj]
    obtain ⟨tree, -, hw⟩ := forall2_get?_right hwf j.val bt hj2
    exact wf_nodup hw
  rw [pendingAll_leafCuts bts 0 hnods] at hperm
  have hnd : (allInternalInsts bts 0).Nodup := allInternalInsts_nodup hnods
  refine ⟨stf, trace, hloop, hperm.symm, ?_, ?_⟩
  · rw [hperm.symm.length_eq, allInternalInsts_length hwf 0]
  · exact hperm.nodup_iff.mp hnd

/-- Witness for C1 on a single two-leaf tree with leaf tensors `[1, 2]`. -/
theorem C1_witness :
    WfForest [sampleTree] [sampleBT] ∧
    List.Forall₂ (fun (arr : List ℕ) (tree : CTree) => arr.length = tree.N)
      [[1, 2]] [sampleTree] ∧
    ∃ stf trace,
      schedLoop [sampleTree] ([sampleTree].map fun tree => derive_parent tree.children)
        (fun _ x y => x + y)
        (([sampleTree].map (fun t => t.N)).sum + 1) (initState [sampleTree] [[1, 2]])
        = Except.ok (stf, trace) ∧
      List.Perm trace (allInternalInsts [sampleBT] 0) ∧
      trace.length = ([sampleTree].map (fun t => t.N - 1)).sum ∧
      trace.Nodup :=
  ⟨List.Forall₂.cons ⟨by decide, by decide⟩ List.Forall₂.nil,
   List.Forall₂.cons (by decide) List.Forall₂.nil,
   C1_loop_termination_promotions (fun _ x y => x + y)
     (List.Forall₂.cons ⟨by decide, by decide⟩ List.Forall₂.nil)
     (List.Forall₂.cons (by decide) List.Forall₂.nil)⟩

/-- C3: when the ready table is non-empty (with the dict's distinct keys and
distinct queued instances), the scheduler pops a signature whose group is of
maximal length among all groups and removes that entry whole: none of its
instances remains in the table. -/
theorem C3_pop_largest_group {r : List (Sig × List Inst)} (hne : r ≠ [])
    (hk : keysNodup r) (hnd : (flatReady r).Nodup) :
    ∃ s g, popLargestGroup r = some (s, g, dictPop r s) ∧ (s, g) ∈ r ∧
      (∀ e ∈ r, e.2.length ≤ g.length) ∧
      ∀ q ∈ g, q ∉ flatReady (dictPop r s) := by
  obtain ⟨s, g, h1, h2, h3⟩ := popLargestGroup_spec hne
  refine ⟨s, g, h1, h2, h3, ?_⟩
  have hp := flatReady_dictPop hk h2
  have hnd2 : (g ++ flatReady (dictPop r s)).Nodup := hp.nodup_iff.mp hnd
  rw [List.nodup_append] at hnd2
  exact fun q hq => hnd2.2.2 hq

/-- Witness for C3 on a two-entry table whose second group is larger. -/
theorem C3_witness :
    (sampleReady ≠ [] ∧ keysNodup sampleReady ∧ (flatReady sampleReady).Nodup) ∧
    ∃ s g, popLargestGroup sampleReady = some (s, g, dictPop sampleReady s) ∧
      (s, g) ∈ sampleReady ∧
      (∀ e ∈ sampleReady, e.2.length ≤ g.length) ∧
      ∀ q ∈ g, q ∉ flatReady (dictPop sampleReady s) :=
  ⟨⟨by decide, by unfold keysNodup; decide, by decide⟩,
   C3_pop_largest_group (by decide) (by unfold keysNodup; decide) (by decide)⟩

/-- C2: a promotion pops the two children out of the owning tree's
active-node map and inserts the parent with the batched result, leaving every
other entry unchanged; afterwards the grandparent's instance is appended to
the ready table under its signature exactly when the parent map holds a
grandparent and both of its children are active in the updated map. -/
theorem C2_promote_effect {T : Type} (trees : List CTree)
    (tree_parent : List (List (TNode × TNode))) (st : SchedState T)
    (i : ℕ) (p l r : TNode) (res : T) {m : List (TNode × T)}
    {pm : List (TNode × TNode)} {tree : CTree} {va vb : T}
    (hm : st.active.get? i = some m) (hmn : keysNodup m)
    (hl : dictGet m l = some va)
    (hr2 : dictGet (dictPop m l) r = some vb)
    (hpm : tree_parent.get? i = some pm)
    (htree : trees.get? i = some tree)
    (hgpc : ∀ gp, dictGet pm p = some gp → (dictGet tree.children gp).isSome = true) :
    ∃ st', promote trees tree_parent st (i, p, l, r) res = Except.ok st' ∧
      st'.active = st.active.set i (dictSet (dictPop (dictPop m l) r) p res) ∧
      dictGet (dictSet (dictPop (dictPop m l) r) p res) p = some res ∧
      (l ≠ p → dictGet (dictSet (dictPop (dictPop m l) r) p res) l = none) ∧
      (r ≠ p → dictGet (dictSet (dictPop (dictPop m l) r) p res) r = none) ∧
      (∀ n, n ≠ p → n ≠ l → n ≠ r →
        dictGet (dictSet (dictPop (dictPop m l) r) p res) n = dictGet m n) ∧
      (dictGet pm p = none → st'.ready = st.ready) ∧
      (∀ gp lr, dictGet pm p = some gp → dictGet tree.children gp = some lr →
        (((dictGet (dictSet (dictPop (dictPop m l) r) p res) lr.1).isSome = true
            ∧ (dictGet (dictSet (dictPop (dictPop m l) r) p res) lr.2).isSome = true) →
          st'.ready = dictAppend st.ready
            (tree.get_einsum_eq gp, get_node_shape tree lr.1, get_node_shape tree lr.2)
            (i, gp, lr.1, lr.2)) ∧
        (¬((dictGet (dictSet (dictPop (dictPop m l) r) p res) lr.1).isSome = true
            ∧ (dictGet (dictSet (dictPop (dictPop m l) r) p res) lr.2).isSome = true) →
          st'.ready = st.ready)) := by
  have hmap_p : dictGet (dictSet (dictPop (dictPop m l) r) p res) p = some res :=
    dictGet_dictSet_self _ _ _
  have hmap_l : l ≠ p → dictGet (dictSet (dictPop (dictPop m l) r) p res) l = none := by
    intro hlp
    rw [dictGet_dictSet_ne _ _ _ _ hlp]
    by_cases hlr : l = r
    · subst hlr
      exact dictGet_dictPop_self _ (keysNodup_dictPop _ hmn)
    · rw [dictGet_dictPop_ne _ _ _ hlr]
      exact dictGet_dictPop_self _ hmn
  have hmap_r : r ≠ p → dictGet (dictSet (dictPop (dictPop m l) r) p res) r = none := by
    intro hrp
    rw [dictGet_dictSet_ne _ _ _ _ hrp]
    exact dictGet_dictPop_self _ (keysNodup_dictPop _ hmn)
  have hmap_fr : ∀ n, n ≠ p → n ≠ l → n ≠ r →
      dictGet (dictSet (dictPop (dictPop m l) r) p res) n = dictGet m n := by
    intro n hnp hnl hnr
    rw [dictGet_dictSet_ne _ _ _ _ hnp, dictGet_dictPop_ne _ _ _ hnr,
      dictGet_dictPop_ne _ _ _ hnl]
  cases hgpv : dictGet pm p with
  | none =>
    refine ⟨{ ready := st.ready,
              active := st.active.set i (dictSet (dictPop (dictPop m l) r) p res) },
      ?_, rfl, hmap_p, hmap_l, hmap_r, hmap_fr, fun _ => rfl, ?_⟩
    · unfold promote
      dsimp only
      simp only [hm, hl, hr2, hpm, hgpv]
    · intro gp lr hgp2 _
      exact Option.noConfusion hgp2
  | some gp =>
    obtain ⟨lr, hlr⟩ := Option.isSome_iff_exists.mp (hgpc gp hgpv)
    have hsig : extract_signature tree gp
        = some (tree.get_einsum_eq gp, get_node_shape tree lr.1, get_node_shape tree lr.2)
        := by
      rw [extract_signature, hlr]
    by_cases hcond : (dictGet (dictSet (dictPop (dictPop m l) r) p res) lr.1).isSome = true
        ∧ (dictGet (dictSet (dictPop (dictPop m l) r) p res) lr.2).isSome = true
    · refine ⟨{ ready := dictAppend st.ready
                  (tree.get_einsum_eq gp, get_node_shape tree lr.1,
                    get_node_shape tree lr.2) (i, gp, lr.1, lr.2),
                active := st.active.set i (dictSet (dictPop (dictPop m l) r) p res) },
        ?_, rfl, hmap_p, hmap_l, hmap_r, hmap_fr, ?_, ?_⟩
      · unfold promote
        dsimp only
        simp only [hm, hl, hr2, hpm, hgpv, htree, hlr, extract_signature]
        rw [if_pos hcond]
      · intro hh
        exact Option.noConfusion hh
      · intro gp2 lr2 hgp2 hlr2
        obtain rfl : gp = gp2 := Option.some.inj hgp2
        rw [hlr] at hlr2
        obtain rfl := Option.some.inj hlr2
        exact ⟨fun _ => rfl, fun hnc => absurd hcond hnc⟩
    · refine ⟨{ ready := st.ready,
                active := st.active.set i (dictSet (dictPop (dictPop m l) r) p res) },
        ?_, rfl, hmap_p, hmap_l, hmap_r, hmap_fr, ?_, ?_⟩
      · unfold promote
        dsimp only
        simp only [hm, hl, hr2, hpm, hgpv, htree, hlr, extract_signature]
        rw [if_neg hcond]
      · intro hh
        exact Option.noConfusion hh
      · intro gp2 lr2 hgp2 hlr2
        obtain rfl : gp = gp2 := Option.some.inj hgp2
        rw [hlr] at hlr2
        obtain rfl := Option.some.inj hlr2
        exact ⟨fun hc => absurd hc hcond, fun _ => rfl⟩

/-- Witness for C2: promoting the root instance of `sampleTree` from its
freshly initialized state. -/
theorem C2_witness :
    ((initState [sampleTree] [[1, 2]]).active.get? 0
        = some (initActive sampleTree [1, 2]) ∧
      keysNodup (initActive sampleTree [1, 2]) ∧
      dictGet (initActive sampleTree [1, 2]) ({0} : Finset ℕ) = some 1 ∧
      dictGet (dictPop (initActive sampleTree [1, 2]) ({0} : Finset ℕ)) ({1} : Finset ℕ)
        = some 2 ∧
      [derive_parent sampleTree.children].get? 0
        = some (derive_parent sampleTree.children) ∧
      [sampleTree].get? 0 = some sampleTree) ∧
    ∃ st', promote [sampleTree] [derive_parent sampleTree.children]
        (initState [sampleTree] [[1, 2]]) (0, ({0, 1} : Finset ℕ), {0}, {1}) 3
        = Except.ok st' ∧
      st'.active = (initState [sampleTree] [[1, 2]]).active.set 0
        (dictSet (dictPop (dictPop (initActive sampleTree [1, 2]) {0}) {1}) {0, 1} 3) ∧
      dictGet (dictSet (dictPop (dictPop (initActive sampleTree [1, 2]) {0}) {1}) {0, 1} 3)
        ({0, 1} : Finset ℕ) = some 3 ∧
      (({0} : Finset ℕ) ≠ {0, 1} →
        dictGet (dictSet (dictPop (dictPop (initActive sampleTree [1, 2]) {0}) {1})
          {0, 1} 3) ({0} : Finset ℕ) = none) ∧
      (({1} : Finset ℕ) ≠ {0, 1} →
        dictGet (dictSet (dictPop (dictPop (initActive sampleTree [1, 2]) {0}) {1})
          {0, 1} 3) ({1} : Finset ℕ) = none) ∧
      (∀ n, n ≠ ({0, 1} : Finset ℕ) → n ≠ {0} → n ≠ {1} →
        dictGet (dictSet (dictPop (dictPop (initActive sampleTree [1, 2]) {0}) {1})
          {0, 1} 3) n = dictGet (initActive sampleTree [1, 2]) n) ∧
      (dictGet (derive_parent sampleTree.children) ({0, 1} : Finset ℕ) = none →
        st'.ready = (initState [sampleTree] [[1, 2]]).ready) ∧
      (∀ gp lr, dictGet (derive_parent sampleTree.children) ({0, 1} : Finset ℕ) = some gp
          → dictGet sampleTree.children gp = some lr →
        (((dictGet (dictSet (dictPop (dictPop (initActive sampleTree [1, 2]) {0}) {1})
              {0, 1} 3) lr.1).isSome = true
            ∧ (dictGet (dictSet (dictPop (dictPop (initActive sampleTree [1, 2]) {0}) {1})
              {0, 1} 3) lr.2).isSome = true) →
          st'.ready = dictAppend (initState [sampleTree] [[1, 2]]).ready
            (sampleTree.get_einsum_eq gp, get_node_shape sampleTree lr.1,
              get_node_shape sampleTree lr.2) (0, gp, lr.1, lr.2)) ∧
        (¬((dictGet (dictSet (dictPop (dictPop (initActive sampleTree [1, 2]) {0}) {1})
              {0, 1} 3) lr.1).isSome = true
            ∧ (dictGet (dictSet (dictPop (dictPop (initActive sampleTree [1, 2]) {0}) {1})
              {0, 1} 3) lr.2).isSome = true) →
          st'.ready = (initState [sampleTree] [[1, 2]]).ready)) :=
  ⟨⟨rfl, by unfold keysNodup; decide, by decide, by decide, rfl, rfl⟩,
   C2_promote_effect [sampleTree] [derive_parent sampleTree.children]
     (initState [sampleTree] [[1, 2]]) 0 {0, 1} {0} {1} 3
     rfl (by unfold keysNodup; decide)
     (show dictGet (initActive sampleTree [1, 2]) ({0} : Finset ℕ) = some 1 by decide)
     (show dictGet (dictPop (initActive sampleTree [1, 2]) ({0} : Finset ℕ))
       ({1} : Finset ℕ) = some 2 by decide)
     rfl rfl
     (fun gp h => by
       rw [show dictGet (derive_parent sampleTree.children) ({0, 1} : Finset ℕ) = none
         from by decide] at h
       exact Option.noConfusion h)⟩

theorem get?_replicate_lt {α : Type} {a : α} : ∀ {n j : ℕ}, j < n →
    (List.replicate n a).get? j = some a := by
  intro n
  induction n with
  | zero =>
    intro j hj
    omega
  | succ k ih =>
    intro j hj
    rw [List.replicate_succ]
    cases j with
    | zero => rfl
    | succ j0 => exact ih (by omega)

/-- C7: initialization seeds every tree's active-node map with exactly its
leaf tensors (`{i} ↦ arrays[treeIndex][i]` for `i < N`, nothing else), and
the initial ready table holds exactly the instances of `children` items
whose two children are both active, keyed by their signatures. -/
theorem C7_initialization {T : Type} (trees : List CTree) (arrays : List (List T)) :
    (∀ j tree arr, trees.get? j = some tree → arrays.get? j = some arr →
      ∃ m, (initState trees arrays).active.get? j = some m ∧
        (∀ i : ℕ, dictGet m ({i} : Finset ℕ) = if i < tree.N then arr.get? i else none) ∧
        (∀ n : TNode, (∀ i : ℕ, n ≠ ({i} : Finset ℕ)) → dictGet m n = none)) ∧
    (∀ q : Inst, q ∈ flatReady (initState trees arrays).ready ↔
      ∃ k tree arr e, trees.get? k = some tree ∧ arrays.get? k = some arr ∧
        e ∈ tree.children ∧
        ((dictGet (initActive tree arr) e.2.1).isSome
          && (dictGet (initActive tree arr) e.2.2).isSome
          && (extract_signature tree e.1).isSome) = true ∧
        q = (k, e.1, e.2.1, e.2.2)) := by
  constructor
  · intro j tree arr htj harj
    refine ⟨initActive tree arr, initActiveAll_get?_eq htj harj, ?_, ?_⟩
    · intro i
      exact dictGet_initActive_singleton tree arr i
    · intro n hn
      exact dictGet_initActive_nonsingleton tree arr hn
  · intro q
    have hp := flatReady_initReadyAll trees arrays 0 []
    have hmem : q ∈ flatReady (initReadyAll trees arrays 0 [])
        ↔ q ∈ initInstsAll trees arrays 0 := by
      rw [hp.mem_iff]
      rw [show flatReady ([] : List (Sig × List Inst)) = [] from rfl, List.append_nil]
    rw [show (initState trees arrays).ready = initReadyAll trees arrays 0 [] from rfl,
      hmem, mem_initInstsAll]
    constructor
    · rintro ⟨k, tree, arr, e, h1, h2, h3, h4, rfl⟩
      refine ⟨k, tree, arr, e, h1, h2, h3, h4, ?_⟩
      rw [Nat.zero_add]
    · rintro ⟨k, tree, arr, e, h1, h2, h3, h4, rfl⟩
      refine ⟨k, tree, arr, e, h1, h2, h3, h4, ?_⟩
      rw [Nat.zero_add]

/-- Witness for C7 on the sample tree with tensors `[5, 7]`. -/
theorem C7_witness :
    ∃ m, (initState [sampleTree] [[5, 7]]).active.get? 0 = some m ∧
      (∀ i : ℕ, dictGet m ({i} : Finset ℕ)
        = if i < sampleTree.N then [5, 7].get? i else none) ∧
      (∀ n : TNode, (∀ i : ℕ, n ≠ ({i} : Finset ℕ)) → dictGet m n = none) :=
  (C7_initialization [sampleTree] [[5, 7]]).1 0 sampleTree [5, 7] rfl rfl

/-- C8: submitting one well-formed tree with its tensors `n` times in one
call yields `n` identical outputs, each equal to the single-tree result. -/
theorem C8_batch_invariance {T : Type} (contract : String → T → T → T)
    {tree : CTree} {bt : BTree} {arr : List T}
    (hw : WfTree tree bt) (hlen1 : arr.length = tree.N) (n : ℕ) :
    ∃ v, batch_contract contract [tree] [arr] = Except.ok [v] ∧
      batch_contract contract (List.replicate n tree) (List.replicate n arr)
        = Except.ok (List.replicate n v) := by
  have hwf1 : WfForest [tree] [bt] := List.Forall₂.cons hw List.Forall₂.nil
  have hlen2 : List.Forall₂ (fun (a : List T) (t : CTree) => a.length = t.N) [arr] [tree] :=
    List.Forall₂.cons hlen1 List.Forall₂.nil
  obtain ⟨res1, hok1, hlen_res1, hget1⟩ := batch_contract_ok contract hwf1 hlen2
  obtain ⟨v, hv1, hval⟩ := hget1 0 tree bt arr rfl rfl rfl
  have hres1 : res1 = [v] := by
    have := eq_replicate_of_get? (v := v) (show res1.length = 1 from hlen_res1) ?_
    · rw [this]
      rfl
    · intro j hj
      interval_cases j
      exact hv1
  obtain ⟨resn, hokn, hlen_resn, hgetn⟩ :=
    batch_contract_ok contract (wf_replicate hw n) (len_replicate hlen1 n)
  have hresn : resn = List.replicate n v := by
    refine eq_replicate_of_get? ?_ ?_
    · rw [hlen_resn, List.length_replicate]
    · intro j hj
      obtain ⟨vj, hvj, hvalj⟩ := hgetn j tree bt arr
        (get?_replicate_lt hj) (get?_replicate_lt hj) (get?_replicate_lt hj)
      rw [hval] at hvalj
      obtain rfl := Option.some.inj hvalj
      exact hvj
  rw [hres1] at hok1
  rw [hresn] at hokn
  exact ⟨v, hok1, hokn⟩

/-- Witness for C8: the sample tree with tensors `[1, 2]` replicated three
times under an addition backend. -/
theorem C8_witness :
    WfTree sampleTree sampleBT ∧ ([1, 2] : List ℕ).length = sampleTree.N ∧
    ∃ v, batch_contract (fun _ x y => x + y) [sampleTree] [[1, 2]] = Except.ok [v] ∧
      batch_contract (fun _ x y => x + y) (List.replicate 3 sampleTree)
        (List.replicate 3 [1, 2]) = Except.ok (List.replicate 3 v) :=
  ⟨⟨by decide, by decide⟩, by decide,
   C8_batch_invariance (fun _ x y => x + y)
     (show WfTree sampleTree sampleBT from ⟨by decide, by decide⟩) (by decide) 3⟩

theorem gatherLeft_forall2 {T : Type} {active : List (List (TNode × T))} :
    ∀ {g : List Inst} {ls : List T}, gatherLeft active g = some ls →
    List.Forall₂ (fun inst v =>
      (active.get? inst.1).bind (fun m => dictGet m inst.2.2.1) = some v) g ls := by
  intro g
  induction g with
  | nil =>
    intro ls h
    obtain rfl := Option.some.inj h
    exact List.Forall₂.nil
  | cons inst rest ih =>
    intro ls h
    rw [gatherLeft] at h
    cases hv : (active.get? inst.1).bind (fun m => dictGet m inst.2.2.1) with
    | none =>
      rw [hv] at h
      exact Option.noConfusion h
    | some v =>
      rw [hv] at h
      cases hvs : gatherLeft active rest with
      | none =>
        rw [hvs] at h
        exact Option.noConfusion h
      | some vs =>
        rw [hvs] at h
        obtain rfl := Option.some.inj h
        exact List.Forall₂.cons hv (ih hvs)

theorem gatherRight_forall2 {T : Type} {active : List (List (TNode × T))} :
    ∀ {g : List Inst} {rs : List T}, gatherRight active g = some rs →
    List.Forall₂ (fun inst v =>
      (active.get? inst.1).bind (fun m => dictGet m inst.2.2.2) = some v) g rs := by
  intro g
  induction g with
  | nil =>
    intro rs h
    obtain rfl := Option.some.inj h
    exact List.Forall₂.nil
  | cons inst rest ih =>
    intro rs h
    rw [gatherRight] at h
    cases hv : (active.get? inst.1).bind (fun m => dictGet m inst.2.2.2) with
    | none =>
      rw [hv] at h
      exact Option.noConfusion h
    | some v =>
      rw [hv] at h
      cases hvs : gatherRight active rest with
      | none =>
        rw [hvs] at h
        exact Option.noConfusion h
      | some vs =>
        rw [hvs] at h
        obtain rfl := Option.some.inj h
        exact List.Forall₂.cons hv (ih hvs)

/-- C5 counterexample: the `src/batch_tn/batch.py` executor does not merely
read the operands — it pops them and writes the parent itself.  On one
instance over the map `{{0} ↦ 1, {1} ↦ 2}` it returns a map in which the
left child `{0}` is gone (and the parent has been inserted), refuting
"the executor only reads". -/
theorem C5_counterexample :
    BatchTn.batched_einsum (fun (_ : ℕ) => ([] : Shape)) (fun _ x y => x + y)
      "ab,bc->ac" [(0, ({0, 1} : Finset ℕ), {0}, {1})] [[({0}, 1), ({1}, 2)]]
      = Except.ok [[({0, 1}, 3)]] ∧
    dictGet [(({0, 1} : Finset ℕ), (3 : ℕ))] ({0} : Finset ℕ) = none := by
  constructor
  · rfl
  · decide

/-- C5 (amended for src/batch_contract.py): one scheduler step gathers the
popped group's operands by reading the untouched active-node maps — the
state entering the promotion stage carries `st.active` itself — and every
gathered tensor is exactly the map's entry at the instance's child;
removal happens only inside `promote`. -/
theorem C5_executor_reads_only {T : Type} (trees : List CTree)
    (tree_parent : List (List (TNode × TNode))) (contract : String → T → T → T)
    (fuel : ℕ) (st : SchedState T) {sig : Sig} {g : List Inst} {ls rs : List T}
    (hany : st.ready.any (fun e => !e.2.isEmpty) = true)
    (hpop : popLargestGroup st.ready = some (sig, g, dictPop st.ready sig))
    (hls : gatherLeft st.active g = some ls) (hrs : gatherRight st.active g = some rs) :
    schedLoop trees tree_parent contract (fuel + 1) st
      = (match foldPromote trees tree_parent
          { ready := dictPop st.ready sig, active := st.active }
          (g.zip (List.zipWith (contract sig.1) ls rs)) with
        | .error err => .error err
        | .ok st1 =>
          match schedLoop trees tree_parent contract fuel st1 with
          | .error err => .error err
          | .ok (stf, trace) =>
              .ok (stf, (g.zip (List.zipWith (contract sig.1) ls rs)).map Prod.fst
                ++ trace)) ∧
    List.Forall₂ (fun inst v =>
      (st.active.get? inst.1).bind (fun m => dictGet m inst.2.2.1) = some v) g ls ∧
    List.Forall₂ (fun inst v =>
      (st.active.get? inst.1).bind (fun m => dictGet m inst.2.2.2) = some v) g rs := by
  refine ⟨?_, gatherLeft_forall2 hls, gatherRight_forall2 hrs⟩
  rw [schedLoop, hany, if_pos rfl, hpop]
  dsimp only
  rw [hls, hrs]

/-- Witness for the amended C5 on the initialized sample state. -/
theorem C5_witness :
    ((initState [sampleTree] [[1, 2]]).ready.any (fun e => !e.2.isEmpty) = true) ∧
    ∃ sig g ls rs,
      popLargestGroup (initState [sampleTree] [[1, 2]]).ready
        = some (sig, g, dictPop (initState [sampleTree] [[1, 2]]).ready sig) ∧
      gatherLeft (initState [sampleTree] [[1, 2]]).active g = some ls ∧
      gatherRight (initState [sampleTree] [[1, 2]]).active g = some rs ∧
      (schedLoop [sampleTree] [derive_parent sampleTree.children] (fun _ x y => x + y)
          (0 + 1) (initState [sampleTree] [[1, 2]])
        = (match foldPromote [sampleTree] [derive_parent sampleTree.children]
            { ready := dictPop (initState [sampleTree] [[1, 2]]).ready sig,
              active := (initState [sampleTree] [[1, 2]]).active }
            (g.zip (List.zipWith ((fun (_ : String) (x y : ℕ) => x + y) sig.1) ls rs)) with
          | .error err => .error err
          | .ok st1 =>
            match schedLoop [sampleTree] [derive_parent sampleTree.children]
                (fun _ x y => x + y) 0 st1 with
            | .error err => .error err
            | .ok (stf, trace) =>
                .ok (stf,
                  (g.zip (List.zipWith ((fun (_ : String) (x y : ℕ) => x + y) sig.1)
                    ls rs)).map Prod.fst ++ trace)) ∧
        List.Forall₂ (fun inst v =>
          ((initState [sampleTree] [[1, 2]]).active.get? inst.1).bind
            (fun m => dictGet m inst.2.2.1) = some v) g ls ∧
        List.Forall₂ (fun inst v =>
          ((initState [sampleTree] [[1, 2]]).active.get? inst.1).bind
            (fun m => dictGet m inst.2.2.2) = some v) g rs) :=
  ⟨by decide,
   ("ab,bc->ac", [], []), [(0, {0, 1}, {0}, {1})], [1], [2],
   rfl, rfl, rfl,
   C5_executor_reads_only [sampleTree] [derive_parent sampleTree.children]
     (fun _ x y => x + y) 0 (initState [sampleTree] [[1, 2]]) (by decide)
     (show popLargestGroup (initState [sampleTree] [[1, 2]]).ready
        = some ((("ab,bc->ac", [], []) : Sig), [(0, ({0, 1} : Finset ℕ), {0}, {1})],
          dictPop (initState [sampleTree] [[1, 2]]).ready ("ab,bc->ac", [], []))
      from rfl)
     (show gatherLeft (initState [sampleTree] [[1, 2]]).active
        [(0, ({0, 1} : Finset ℕ), {0}, {1})] = some [1] from rfl)
     (show gatherRight (initState [sampleTree] [[1, 2]]).active
        [(0, ({0, 1} : Finset ℕ), {0}, {1})] = some [2] from rfl)⟩

/-- C4 counterexample: `src/batch_contract.py`'s `get_batched_einsum_equation`
prepends the three-character `numpy` ellipsis `"..."`, not one fresh index
symbol: on `"ab,bc->ac"` the result is `"...ab,...bc->...ac"`, which differs
from `"zab,zbc->zac"` for every choice of fresh symbol `z` (the lengths
already disagree: 18 versus 12). -/
theorem C4_counterexample :
    get_batched_einsum_equation "ab,bc->ac" = some "...ab,...bc->...ac" ∧
    ∀ z : Char, "...ab,...bc->...ac"
      ≠ String.mk [z, 'a', 'b', ',', z, 'b', 'c', '-', '>', z, 'a', 'c'] := by
  refine ⟨rfl, ?_⟩
  intro z h
  have h2 := congrArg String.length h
  rw [show String.length "...ab,...bc->...ac" = 18 from rfl,
    show (String.mk [z, 'a', 'b', ',', z, 'b', 'c', '-', '>', z, 'a', 'c']).length = 12
      from rfl] at h2
  exact absurd h2 (by decide)

/-- C4 (amended): `src/batch_tn/batch.py`'s `get_batched_einsum_equation`
with no explicit symbol does follow the spec: it prepends the single fresh
character `chr(max(ord(c) for c in eq) + 1)` to every input term and to the
output term, and that character does not occur in the original equation
(provided the successor code point is still a valid character). -/
theorem C4_fresh_symbol_batch_tn (eq L R : String) (h1 : pySplit eq "->" = [L, R])
    (h2 : eq.toList.isEmpty = false)
    (h3 : ((eq.toList.map Char.toNat).foldl max 0) + 1 < 55296) :
    BatchTn.get_batched_einsum_equation eq none
      = some (String.intercalate ","
          ((pySplit L ",").map
            (fun term => (BatchTn.freshBatchChar eq).toString ++ term))
        ++ "->" ++ ((BatchTn.freshBatchChar eq).toString ++ R)) ∧
    BatchTn.freshBatchChar eq ∉ eq.toList := by
  constructor
  · unfold BatchTn.get_batched_einsum_equation
    rw [if_neg (by rw [h2]; exact Bool.false_ne_true)]
    dsimp only
    rw [h1]
    rfl
  · exact freshBatchChar_not_mem h3

/-- Witness for the amended C4 on `"ab,bc->ac"`: the fresh symbol is `'d'`
(one past `'c'`, the highest code point in the equation). -/
theorem C4_witness :
    pySplit "ab,bc->ac" "->" = ["ab,bc", "ac"] ∧
    ("ab,bc->ac".toList.isEmpty = false) ∧
    ((("ab,bc->ac".toList.map Char.toNat).foldl max 0) + 1 < 55296) ∧
    (BatchTn.get_batched_einsum_equation "ab,bc->ac" none
      = some (String.intercalate ","
          ((pySplit "ab,bc" ",").map
            (fun term => (BatchTn.freshBatchChar "ab,bc->ac").toString ++ term))
        ++ "->" ++ ((BatchTn.freshBatchChar "ab,bc->ac").toString ++ "ac")) ∧
      BatchTn.freshBatchChar "ab,bc->ac" ∉ "ab,bc->ac".toList) :=
  ⟨by decide, by decide, by decide,
   C4_fresh_symbol_batch_tn "ab,bc->ac" "ab,bc" "ac" (by decide) (by decide) (by decide)⟩

/-- C6 counterexample: `src/batch_tn/batch.py`'s `batch_contract` performs no
final single-entry check: with no contractions and two arrays the tree's
node map still holds its two leaves at the end, yet the call returns the
first entry (`next(iter(values))`) instead of failing. -/
theorem C6_counterexample :
    BatchTn.batch_contract (fun (_ : ℕ) => ([] : Shape)) (fun _ x y => x + y)
      [[]] [[(1 : ℕ), 2]] = Except.ok [1] ∧
    BatchTn.get_batched_contractions [[]] [[[], []]] = Except.ok [] ∧
    ((((List.range 2).map (fun n => ({n} : Finset ℕ))).zip [(1 : ℕ), 2]).length = 2) :=
  ⟨rfl, rfl, rfl⟩

/-- C6 (amended for src/batch_contract.py): on a well-formed forest the call
returns one root tensor per tree in input order; and whenever the scheduler
loop ends with some active-node map not reduced to a single entry, the call
fails with `IncompleteReductionError` instead of returning. -/
theorem C6_incomplete_reduction :
    (∀ (T : Type) (contract : String → T → T → T) (trees : List CTree)
      (bts : List BTree) (arrays : List (List T)),
      WfForest trees bts →
      List.Forall₂ (fun (arr : List T) (tree : CTree) => arr.length = tree.N)
        arrays trees →
      ∃ results, batch_contract contract trees arrays = Except.ok results ∧
        results.length = trees.length ∧
        ∀ j tree bt arr, trees.get? j = some tree → bts.get? j = some bt →
          arrays.get? j = some arr →
          ∃ v, results.get? j = some v ∧ treeVal contract tree arr bt = some v) ∧
    (∀ (T : Type) (contract : String → T → T → T) (trees : List CTree)
      (arrays : List (List T)) (st' : SchedState T) (trace' : List Inst),
      ¬ arrays.length < trees.length →
      schedLoop trees (trees.map fun tree => derive_parent tree.children) contract
        ((trees.map (fun t => t.N)).sum + 1) (initState trees arrays)
        = Except.ok (st', trace') →
      st'.active.all (fun nodes => nodes.length == 1) = false →
      batch_contract contract trees arrays = Except.error Err.incompleteReduction) := by
  constructor
  · intro T contract trees bts arrays hwf hlen
    exact batch_contract_ok contract hwf hlen
  · intro T contract trees arrays st' trace' hguard hloop hall
    unfold batch_contract
    rw [if_neg hguard]
    dsimp only
    rw [hloop]
    dsimp only
    rw [if_neg (by rw [hall]; exact Bool.false_ne_true)]

/-- C9 counterexample: the executor never compares operand shapes with the
signature the instance was grouped under.  Here the signature's operand
shapes would be `[2, 2]` and `[2]`, the actual tensors have shape `[7]`, and
`batched_einsum` still returns `ok` — there is no `ShapeMismatchError`. -/
theorem C9_counterexample :
    ((fun (_ : ℕ) => ([7] : Shape)) 1 ≠ [2, 2]) ∧
    BatchTn.batched_einsum (fun (_ : ℕ) => ([7] : Shape)) (fun _ x y => x + y)
      "ab,b->a" [(0, ({0, 1} : Finset ℕ), {0}, {1})] [[({0}, 1), ({1}, 2)]]
      = Except.ok [[({0, 1}, 3)]] :=
  ⟨by decide, rfl⟩

/-- C9 (amended): the only shape failure in the executor is the stacking
error (`numpy`'s `ValueError` from `np.stack`, modelled `stackShape`,
spec-modelled backend): it occurs exactly when a gathered operand-side is
empty or two of its tensors' shapes disagree with each other — never by
comparison with the signature; with uniformly shaped operand sides the
batched result is scattered back and the call succeeds. -/
theorem C9_stack_error_iff {T : Type} (shape : T → Shape)
    (einsum2 : String → T → T → T) (eq : String) (targets : List Inst)
    (maps : List (List (TNode × T))) {beq : String} {ls rs : List T}
    {maps' : List (List (TNode × T))}
    (h1 : BatchTn.get_batched_einsum_equation eq none = some beq)
    (h2 : BatchTn.popTargets targets maps = Except.ok (ls, rs, maps')) :
    (BatchTn.batched_einsum shape einsum2 eq targets maps = Except.error Err.stackShape
      ↔ (ls.map shape = [] ∨ (∃ a ∈ ls.map shape, ∃ b ∈ ls.map shape, a ≠ b)
        ∨ rs.map shape = [] ∨ (∃ a ∈ rs.map shape, ∃ b ∈ rs.map shape, a ≠ b))) ∧
    (BatchTn.stackOk (ls.map shape) = true → BatchTn.stackOk (rs.map shape) = true →
      BatchTn.batched_einsum shape einsum2 eq targets maps
        = Except.ok (BatchTn.scatter targets (List.zipWith (einsum2 eq) ls rs) maps'))
    := by
  cases hl : BatchTn.stackOk (ls.map shape) with
  | false =>
    have hval : BatchTn.batched_einsum shape einsum2 eq targets maps
        = Except.error Err.stackShape := by
      unfold BatchTn.batched_einsum
      rw [h1]
      dsimp only
      rw [h2]
      dsimp only
      rw [hl]
      rfl
    refine ⟨?_, ?_⟩
    · rw [hval]
      refine iff_of_true rfl ?_
      rcases stackOk_eq_false_iff.mp hl with h | h
      · exact Or.inl h
      · exact Or.inr (Or.inl h)
    · intro hc1 _
      exact absurd hc1 Bool.false_ne_true
  | true =>
    cases hr : BatchTn.stackOk (rs.map shape) with
    | false =>
      have hval : BatchTn.batched_einsum shape einsum2 eq targets maps
          = Except.error Err.stackShape := by
        unfold BatchTn.batched_einsum
        rw [h1]
        dsimp only
        rw [h2]
        dsimp only
        rw [hl, hr]
        rfl
      refine ⟨?_, ?_⟩
      · rw [hval]
        refine iff_of_true rfl ?_
        rcases stackOk_eq_false_iff.mp hr with h | h
        · exact Or.inr (Or.inr (Or.inl h))
        · exact Or.inr (Or.inr (Or.inr h))
      · intro _ hc2
        exact absurd hc2 Bool.false_ne_true
    | true =>
      have hval : BatchTn.batched_einsum shape einsum2 eq targets maps
          = Except.ok (BatchTn.scatter targets (List.zipWith (einsum2 eq) ls rs) maps')
          := by
        unfold BatchTn.batched_einsum
        rw [h1]
        dsimp only
        rw [h2]
        dsimp only
        rw [hl, hr]
        rfl
      refine ⟨?_, fun _ _ => hval⟩
      rw [hval]
      refine iff_of_false (fun hh => Except.noConfusion hh) ?_
      rintro (h | h | h | h)
      · rw [stackOk_eq_false_iff.mpr (Or.inl h)] at hl
        exact Bool.noConfusion hl
      · rw [stackOk_eq_false_iff.mpr (Or.inr h)] at hl
        exact Bool.noConfusion hl
      · rw [stackOk_eq_false_iff.mpr (Or.inl h)] at hr
        exact Bool.noConfusion hr
      · rw [stackOk_eq_false_iff.mpr (Or.inr h)] at hr
        exact Bool.noConfusion hr

/-- Witness for the amended C9 on one instance with uniformly shaped
operands: no stacking error, the scattered result is returned. -/
theorem C9_witness :
    BatchTn.get_batched_einsum_equation "ab,b->a" none = some "cab,cb->ca" ∧
    BatchTn.popTargets [(0, ({0, 1} : Finset ℕ), {0}, {1})]
      [[({0}, (1 : ℕ)), ({1}, 2)]] = Except.ok ([1], [2], [[]]) ∧
    ((BatchTn.batched_einsum (fun (_ : ℕ) => ([7] : Shape)) (fun _ x y => x + y)
        "ab,b->a" [(0, ({0, 1} : Finset ℕ), {0}, {1})] [[({0}, 1), ({1}, 2)]]
        = Except.error Err.stackShape
      ↔ (([1] : List ℕ).map (fun _ => ([7] : Shape)) = []
        ∨ (∃ a ∈ ([1] : List ℕ).map (fun _ => ([7] : Shape)),
            ∃ b ∈ ([1] : List ℕ).map (fun _ => ([7] : Shape)), a ≠ b)
        ∨ ([2] : List ℕ).map (fun _ => ([7] : Shape)) = []
        ∨ (∃ a ∈ ([2] : List ℕ).map (fun _ => ([7] : Shape)),
            ∃ b ∈ ([2] : List ℕ).map (fun _ => ([7] : Shape)), a ≠ b))) ∧
    (BatchTn.stackOk (([1] : List ℕ).map (fun _ => ([7] : Shape))) = true →
      BatchTn.stackOk (([2] : List ℕ).map (fun _ => ([7] : Shape))) = true →
      BatchTn.batched_einsum (fun (_ : ℕ) => ([7] : Shape)) (fun _ x y => x + y)
        "ab,b->a" [(0, ({0, 1} : Finset ℕ), {0}, {1})] [[({0}, 1), ({1}, 2)]]
        = Except.ok (BatchTn.scatter [(0, ({0, 1} : Finset ℕ), {0}, {1})]
          (List.zipWith ((fun (_ : String) (x y : ℕ) => x + y) "ab,b->a") [1] [2])
          [[]]))) :=
  ⟨rfl, rfl,
   C9_stack_error_iff (fun (_ : ℕ) => ([7] : Shape)) (fun _ x y => x + y) "ab,b->a"
     [(0, ({0, 1} : Finset ℕ), {0}, {1})] [[({0}, 1), ({1}, 2)]]
     (show BatchTn.get_batched_einsum_equation "ab,b->a" none = some "cab,cb->ca"
       from rfl)
     (show BatchTn.popTargets [(0, ({0, 1} : Finset ℕ), {0}, {1})]
         [[({0}, (1 : ℕ)), ({1}, 2)]] = Except.ok ([1], [2], [[]]) from rfl)⟩
